import Mathlib

/-!
Cache maintenance for ARMv7-A targets (`src/target/armv7a_cache.c`).

A shallow embedding of the cache-maintenance routines of `armv7a_cache.c`.

* Every call that leaves the file (`dpm->prepare`, `dpm->instr_write_data_r0`,
  `dpm->finish`, `keep_alive`, the outer-cache entry points) is recorded, in
  program order, in a `Trace`.
* The value such a call returns is given by the callee, which may depend on
  everything that happened before: a callee is a function of the trace recorded
  so far.
* A C function `int f(args)` becomes `f args tr : Int × Trace`, the returned code
  and the trace extended by the calls made.  The range operations contain a
  `while` loop over 32-bit addresses that wrap around; they take a `fuel`
  argument bounding the number of loop iterations and return `none` when the
  loop has not ended within that bound.
* `uint32_t` values are natural numbers reduced modulo `2 ^ 32` wherever the C
  arithmetic can wrap.
* The logging macros (`LOG_DEBUG`, `LOG_ERROR`, `LOG_TARGET_ERROR`) change
  nothing that is modelled and are left out.
-/

namespace Armv7aCache

/-! ## Constants and types declared outside `armv7a_cache.c` -/

/-- Modelled from the spec: the success code; `helper/log.h`, which defines it, is
not part of the sources. -/
def ERROR_OK : Int := 0

/-- Modelled from the spec: the generic failure code of `helper/log.h` (not part
of the sources). -/
def ERROR_FAIL : Int := -4

/-- Modelled from the spec: the `CacheDisabled` code; `target.h`, which defines
it, is not part of the sources. -/
def ERROR_TARGET_INVALID : Int := -300

/-- Modelled from the spec: the `NotHalted` code of `target.h` (not part of the
sources). -/
def ERROR_TARGET_NOT_HALTED : Int := -304

/-- Modelled from the spec: the code for a command-line arity violation
(`SyntaxError`); `helper/command.h` is not part of the sources. -/
def ERROR_COMMAND_SYNTAX_ERROR : Int := -601

/-- Modelled from the spec: the states a target can report (`enum target_state`
of `target.h`, not part of the sources); only `TARGET_HALTED` is tested. -/
inductive target_state where
  | TARGET_UNKNOWN
  | TARGET_RUNNING
  | TARGET_HALTED
  | TARGET_RESET
  | TARGET_DEBUG_RUNNING
  deriving DecidableEq, Repr

/-- Modelled from the spec: the instruction word built by the macro
`ARMV4_5_MCR(cp, op1, rd, crn, crm, op2)` of `arm_opcodes.h` (not part of the
sources).  The word is kept symbolic, as the six arguments of the macro. -/
structure Opcode where
  cp : Nat
  op1 : Nat
  rd : Nat
  crn : Nat
  crm : Nat
  op2 : Nat
  deriving DecidableEq, Repr

/-- Modelled from the spec: `ARMV4_5_MCR(cp, op1, rd, crn, crm, op2)`. -/
def ARMV4_5_MCR (cp op1 rd crn crm op2 : Nat) : Opcode :=
  ⟨cp, op1, rd, crn, crm, op2⟩

/-- DCCISW, clean and invalidate data cache line by set/way. -/
def DCCISW : Opcode := ARMV4_5_MCR 15 0 0 7 14 2

/-- DCCIMVAC, clean and invalidate data cache line by address. -/
def DCCIMVAC : Opcode := ARMV4_5_MCR 15 0 0 7 14 1

/-- DCIMVAC, invalidate data cache line by address to PoC. -/
def DCIMVAC : Opcode := ARMV4_5_MCR 15 0 0 7 6 1

/-- DCCMVAC, clean data cache line by address to PoC. -/
def DCCMVAC : Opcode := ARMV4_5_MCR 15 0 0 7 10 1

/-- ICIALLUIS, invalidate all instruction caches, inner shareable. -/
def ICIALLUIS : Opcode := ARMV4_5_MCR 15 0 0 7 1 0

/-- ICIALLU, invalidate all instruction caches. -/
def ICIALLU : Opcode := ARMV4_5_MCR 15 0 0 7 5 0

/-- ICIMVAU, invalidate instruction cache line by address to PoU. -/
def ICIMVAU : Opcode := ARMV4_5_MCR 15 0 0 7 5 1

/-- BPIMVA, invalidate branch predictor by address. -/
def BPIMVA : Opcode := ARMV4_5_MCR 15 0 0 7 5 7

/-- Modelled from the spec: `CACHE_LEVEL_HAS_I_CACHE` of `armv7a.h` (not part of
the sources), the `ctype` of an instruction-only level. -/
def CACHE_LEVEL_HAS_I_CACHE : Nat := 1

/-- Modelled from the spec: `CACHE_LEVEL_HAS_D_CACHE` of `armv7a.h` (not part of
the sources); a level whose `ctype` is below it holds no data. -/
def CACHE_LEVEL_HAS_D_CACHE : Nat := 2

/-- One call leaving `armv7a_cache.c`.  The calls through a `struct arm_dpm`
carry the number of the core the dpm drives. -/
inductive Event where
  | prepare (coreid : Nat)
  | instr_write_data_r0 (coreid : Nat) (opcode : Opcode) (data : Nat)
  | finish (coreid : Nat)
  | keep_alive
  | l2x_flush_all_data (coreid : Nat)
  | l2x_cache_flush_virt (coreid : Nat) (virt : Nat) (size : Nat)
  deriving DecidableEq, Repr

/-- The calls made so far, oldest first. -/
abbrev Trace := List Event

/-- Modelled from the spec: the `DebugTransaction` of one core (`struct arm_dpm`
of `arm_dpm.h`, not part of the sources).  Each of the three function pointers
returns a code that may depend on the calls made before it. -/
structure arm_dpm where
  coreid : Nat
  prepare : Trace → Int
  instr_write_data_r0 : Trace → Opcode → Nat → Int
  finish : Trace → Int

/-- Modelled from the spec: the set/way geometry of one cache
(`struct armv7a_cachesize` of `armv7a.h`, not part of the sources): `index` and
`way` are the highest set index and the highest way number, unsigned 32-bit
fields. -/
structure armv7a_cachesize where
  index : Nat
  index_shift : Nat
  way : Nat
  way_shift : Nat
  deriving DecidableEq, Repr

/-- Modelled from the spec: the `CacheLevelDescriptor`
(`struct armv7a_arch_cache` of `armv7a.h`, not part of the sources). -/
structure armv7a_arch_cache where
  ctype : Nat
  d_u_size : armv7a_cachesize
  deriving DecidableEq, Repr

/-- Modelled from the spec: the `CacheCommonState`
(`struct armv7a_cache_common` of `armv7a.h`, not part of the sources).  `arch` is
the array of level descriptors, indexed by the level. -/
structure armv7a_cache_common where
  loc : Nat
  dminline : Nat
  iminline : Nat
  arch : Nat → armv7a_arch_cache
  i_cache_enabled : Bool
  d_u_cache_enabled : Bool

/-- Modelled from the spec: the part of `struct armv7a_common` (`armv7a.h`, not
part of the sources) read by the cache code: `arm.dpm` and
`armv7a_mmu.armv7a_cache`. -/
structure armv7a_common where
  dpm : arm_dpm
  armv7a_cache : armv7a_cache_common

/-- Modelled from the spec: the `CoreHandle` (`struct target` of `target.h`, not
part of the sources): its state, its `smp` flag (non-zero inside an SMP group)
and the architecture data `target_to_armv7a` gives.  The list `smp_targets` of
the group is passed to the functions that walk it. -/
structure target where
  coreid : Nat
  state : target_state
  smp : Nat
  armv7a : armv7a_common

/-- Modelled from the spec: the outer-cache collaborator (`armv7a_cache_l2x.c`,
not part of the sources), `arm7a_l2x_flush_all_data` and
`armv7a_l2x_cache_flush_virt`, each returning a code that may depend on the
calls made before. -/
structure outer_cache where
  flush_all_data : Trace → Int
  cache_flush_virt : Trace → Nat → Nat → Int

/-! ## 32-bit arithmetic -/

/-- Conversion of an unsigned 32-bit value to `int32_t`. -/
def toInt32 (n : Nat) : Int :=
  if n % 2 ^ 32 < 2 ^ 31 then ((n % 2 ^ 32 : Nat) : Int)
  else ((n % 2 ^ 32 : Nat) : Int) - 2 ^ 32

/-- Conversion of a signed value to `uint32_t` (two's complement). -/
def toUInt32 (x : Int) : Nat := (x % 2 ^ 32).toNat

/-- The `uint32_t` value `-linelen`. -/
def neg32 (linelen : Nat) : Nat := (2 ^ 32 - linelen % 2 ^ 32) % 2 ^ 32

/-- The `uint32_t` value `linelen - 1`. -/
def pred32 (linelen : Nat) : Nat := (linelen % 2 ^ 32 + (2 ^ 32 - 1)) % 2 ^ 32

/-! ## `armv7a_cache.c` -/

/-- The function `armv7a_l1_d_cache_sanity_check`. -/
def armv7a_l1_d_cache_sanity_check (t : target) : Int :=
  if t.state ≠ target_state.TARGET_HALTED then ERROR_TARGET_NOT_HALTED
  else if !t.armv7a.armv7a_cache.d_u_cache_enabled then ERROR_TARGET_INVALID
  else ERROR_OK

/-- The function `armv7a_l1_i_cache_sanity_check`. -/
def armv7a_l1_i_cache_sanity_check (t : target) : Int :=
  if t.state ≠ target_state.TARGET_HALTED then ERROR_TARGET_NOT_HALTED
  else if !t.armv7a.armv7a_cache.i_cache_enabled then ERROR_TARGET_INVALID
  else ERROR_OK

/-- The operand of a set/way write in `armv7a_l1_d_cache_flush_level`:
`(c_index << size->index_shift) | (c_way << size->way_shift) | (cl << 1)`,
stored in a `uint32_t`. -/
def setway_value (size : armv7a_cachesize) (cl : Nat) (c_index c_way : Int) : Nat :=
  ((toUInt32 c_index <<< size.index_shift) ||| (toUInt32 c_way <<< size.way_shift)
    ||| (cl <<< 1)) % 2 ^ 32

/-- The inner loop of `armv7a_l1_d_cache_flush_level`,
`do { ... c_way -= 1; } while (c_way >= 0);`, entered with the given `c_way`.
A failing write leaves the loop at once (`goto done`) with its code. -/
def flush_level_ways (dpm : arm_dpm) (size : armv7a_cachesize) (cl : Nat) (c_index : Int)
    (c_way : Int) (tr : Trace) : Int × Trace :=
  let value := setway_value size cl c_index c_way
  let retval := dpm.instr_write_data_r0 tr DCCISW value
  let tr1 := tr ++ [Event.instr_write_data_r0 dpm.coreid DCCISW value]
  if retval ≠ ERROR_OK then (retval, tr1)
  else if 0 ≤ c_way - 1 then flush_level_ways dpm size cl c_index (c_way - 1) tr1
  else (retval, tr1)
termination_by c_way.toNat
decreasing_by omega

/-- The outer loop of `armv7a_l1_d_cache_flush_level`,
`do { keep_alive(); c_way = size->way; ...; c_index -= 1; } while (c_index >= 0);`,
entered with the given `c_index`.  The inner loop ends with a code other than
`ERROR_OK` exactly when it jumped to `done`. -/
def flush_level_sets (dpm : arm_dpm) (size : armv7a_cachesize) (cl : Nat) (c_index : Int)
    (tr : Trace) : Int × Trace :=
  let r := flush_level_ways dpm size cl c_index (toInt32 size.way) (tr ++ [Event.keep_alive])
  if r.1 ≠ ERROR_OK then r
  else if 0 ≤ c_index - 1 then flush_level_sets dpm size cl (c_index - 1) r.2
  else r
termination_by c_index.toNat
decreasing_by omega

/-- The function `armv7a_l1_d_cache_flush_level`: both loops, then the label
`done:` with its `keep_alive()`. -/
def armv7a_l1_d_cache_flush_level (dpm : arm_dpm) (size : armv7a_cachesize) (cl : Nat)
    (tr : Trace) : Int × Trace :=
  let r := flush_level_sets dpm size cl (toInt32 size.index) tr
  (r.1, r.2 ++ [Event.keep_alive])

/-- One pass of the body of the `for` loop of `armv7a_l1_d_cache_clean_inval_all`
for the level `cl`; the value `armv7a_l1_d_cache_flush_level` returns is not
used by the caller. -/
def clean_inval_level (dpm : arm_dpm) (cache : armv7a_cache_common) (tr : Trace)
    (cl : Nat) : Trace :=
  if (cache.arch cl).ctype < CACHE_LEVEL_HAS_D_CACHE then tr
  else (armv7a_l1_d_cache_flush_level dpm (cache.arch cl).d_u_size cl tr).2

/-- The function `armv7a_l1_d_cache_clean_inval_all`. -/
def armv7a_l1_d_cache_clean_inval_all (t : target) (tr : Trace) : Int × Trace :=
  let cache := t.armv7a.armv7a_cache
  let dpm := t.armv7a.dpm
  let retval := armv7a_l1_d_cache_sanity_check t
  if retval ≠ ERROR_OK then (retval, tr)
  else
    let retval := dpm.prepare tr
    let tr1 := tr ++ [Event.prepare dpm.coreid]
    if retval ≠ ERROR_OK then (retval, tr1 ++ [Event.finish dpm.coreid])
    else
      let tr2 := (List.range cache.loc).foldl (clean_inval_level dpm cache) tr1
      let retval := dpm.finish tr2
      (retval, tr2 ++ [Event.finish dpm.coreid])

/-- The loop `foreach_smp_target(head, target->smp_targets)` of
`armv7a_cache_flush_all_data`, with the running value of `retval`. -/
def smp_flush_loop : List target → Int → Trace → Int × Trace
  | [], retval, tr => (retval, tr)
  | curr :: rest, retval, tr =>
    if curr.state = target_state.TARGET_HALTED then
      let r1 := armv7a_l1_d_cache_clean_inval_all curr tr
      smp_flush_loop rest (if r1.1 ≠ ERROR_OK then r1.1 else retval) r1.2
    else smp_flush_loop rest retval tr

/-- The function `armv7a_cache_flush_all_data`; `smp_targets` is
`target->smp_targets`. -/
def armv7a_cache_flush_all_data (l2x : outer_cache) (t : target) (smp_targets : List target)
    (tr : Trace) : Int × Trace :=
  let r := if t.smp ≠ 0 then smp_flush_loop smp_targets ERROR_FAIL tr
           else armv7a_l1_d_cache_clean_inval_all t tr
  if r.1 ≠ ERROR_OK then r
  else (l2x.flush_all_data r.2, r.2 ++ [Event.l2x_flush_all_data t.coreid])

/-- The writes of one iteration of a range loop at the line `va`, in order, each
followed by `if (retval != ERROR_OK) goto done;`. -/
def line_writes (dpm : arm_dpm) : List Opcode → Nat → Trace → Int × Trace
  | [], _, tr => (ERROR_OK, tr)
  | op :: ops, va, tr =>
    let retval := dpm.instr_write_data_r0 tr op va
    let tr1 := tr ++ [Event.instr_write_data_r0 dpm.coreid op va]
    if retval ≠ ERROR_OK then (retval, tr1)
    else line_writes dpm ops va tr1

/-- The loop shared by the four range operations,
`while (va_line < va_end) { if ((i++ & 0x3f) == 0) keep_alive(); ...; va_line += linelen; }`,
where `ops` are the opcodes written for each line.  The result is the value of
`retval` and the trace when the loop is left, by its condition or by
`goto done`; `none` when `fuel` iterations did not end it. -/
def range_loop (dpm : arm_dpm) (ops : List Opcode) (linelen va_end : Nat) :
    Nat → Nat → Nat → Int → Trace → Option (Int × Trace)
  | 0, _, _, _, _ => none
  | fuel + 1, va_line, i, retval, tr =>
    if va_line < va_end then
      let tr1 := if i &&& 0x3f = 0 then tr ++ [Event.keep_alive] else tr
      let r := line_writes dpm ops va_line tr1
      if r.1 ≠ ERROR_OK then some r
      else range_loop dpm ops linelen va_end fuel ((va_line + linelen) % 2 ^ 32) (i + 1) r.1 r.2
    else some (retval, tr)

/-- The end of every range operation, on the success path and after `done:`
alike: `keep_alive(); dpm->finish(dpm); return retval;`. -/
def range_exit (dpm : arm_dpm) (r : Int × Trace) : Int × Trace :=
  (r.1, r.2 ++ [Event.keep_alive, Event.finish dpm.coreid])

/-- The function `armv7a_l1_d_cache_inval_virt` from `/* handle unaligned end */` on. -/
def inval_virt_end (dpm : arm_dpm) (fuel linelen va_line va_end : Nat) (retval : Int)
    (tr : Trace) : Option (Int × Trace) :=
  if va_end &&& pred32 linelen ≠ 0 then
    let va_end1 := va_end &&& neg32 linelen
    let retval1 := dpm.instr_write_data_r0 tr DCCIMVAC va_end1
    let tr1 := tr ++ [Event.instr_write_data_r0 dpm.coreid DCCIMVAC va_end1]
    if retval1 ≠ ERROR_OK then some (range_exit dpm (retval1, tr1))
    else (range_loop dpm [DCIMVAC] linelen va_end1 fuel va_line 0 retval1 tr1).map (range_exit dpm)
  else (range_loop dpm [DCIMVAC] linelen va_end fuel va_line 0 retval tr).map (range_exit dpm)

/-- The function `armv7a_l1_d_cache_inval_virt`. -/
def armv7a_l1_d_cache_inval_virt (fuel : Nat) (t : target) (virt size : Nat) (tr : Trace) :
    Option (Int × Trace) :=
  let dpm := t.armv7a.dpm
  let linelen := t.armv7a.armv7a_cache.dminline
  let retval := armv7a_l1_d_cache_sanity_check t
  if retval ≠ ERROR_OK then some (retval, tr)
  else
    let retval := dpm.prepare tr
    let tr1 := tr ++ [Event.prepare dpm.coreid]
    if retval ≠ ERROR_OK then some (range_exit dpm (retval, tr1))
    else
      let va_line := virt &&& neg32 linelen
      let va_end := (virt + size) % 2 ^ 32
      if virt ≠ va_line then
        let retval1 := dpm.instr_write_data_r0 tr1 DCCIMVAC va_line
        let tr2 := tr1 ++ [Event.instr_write_data_r0 dpm.coreid DCCIMVAC va_line]
        if retval1 ≠ ERROR_OK then some (range_exit dpm (retval1, tr2))
        else inval_virt_end dpm fuel linelen ((va_line + linelen) % 2 ^ 32) va_end retval1 tr2
      else inval_virt_end dpm fuel linelen va_line va_end retval tr1

/-- The common shape of `armv7a_l1_d_cache_clean_virt`,
`armv7a_l1_d_cache_flush_virt` and `armv7a_l1_i_cache_inval_virt`: the sanity
check `check`, `prepare`, the loop over the lines writing `ops` at each, the
exit. -/
def range_op (check : target → Int) (linelen : Nat) (ops : List Opcode) (fuel : Nat)
    (t : target) (virt size : Nat) (tr : Trace) : Option (Int × Trace) :=
  let dpm := t.armv7a.dpm
  let retval := check t
  if retval ≠ ERROR_OK then some (retval, tr)
  else
    let retval := dpm.prepare tr
    let tr1 := tr ++ [Event.prepare dpm.coreid]
    if retval ≠ ERROR_OK then some (range_exit dpm (retval, tr1))
    else
      let va_line := virt &&& neg32 linelen
      let va_end := (virt + size) % 2 ^ 32
      (range_loop dpm ops linelen va_end fuel va_line 0 retval tr1).map (range_exit dpm)

/-- The function `armv7a_l1_d_cache_clean_virt`. -/
def armv7a_l1_d_cache_clean_virt (fuel : Nat) (t : target) (virt size : Nat) (tr : Trace) :
    Option (Int × Trace) :=
  range_op armv7a_l1_d_cache_sanity_check t.armv7a.armv7a_cache.dminline [DCCMVAC]
    fuel t virt size tr

/-- The function `armv7a_l1_d_cache_flush_virt`. -/
def armv7a_l1_d_cache_flush_virt (fuel : Nat) (t : target) (virt size : Nat) (tr : Trace) :
    Option (Int × Trace) :=
  range_op armv7a_l1_d_cache_sanity_check t.armv7a.armv7a_cache.dminline [DCCIMVAC]
    fuel t virt size tr

/-- The function `armv7a_l1_i_cache_inval_all`. -/
def armv7a_l1_i_cache_inval_all (t : target) (tr : Trace) : Int × Trace :=
  let dpm := t.armv7a.dpm
  let retval := armv7a_l1_i_cache_sanity_check t
  if retval ≠ ERROR_OK then (retval, tr)
  else
    let retval := dpm.prepare tr
    let tr1 := tr ++ [Event.prepare dpm.coreid]
    if retval ≠ ERROR_OK then (retval, tr1 ++ [Event.finish dpm.coreid])
    else
      let op := if t.smp ≠ 0 then ICIALLUIS else ICIALLU
      let retval := dpm.instr_write_data_r0 tr1 op 0
      (retval, tr1 ++ [Event.instr_write_data_r0 dpm.coreid op 0, Event.finish dpm.coreid])

/-- The function `armv7a_l1_i_cache_inval_virt`. -/
def armv7a_l1_i_cache_inval_virt (fuel : Nat) (t : target) (virt size : Nat) (tr : Trace) :
    Option (Int × Trace) :=
  range_op armv7a_l1_i_cache_sanity_check t.armv7a.armv7a_cache.iminline [ICIMVAU, BPIMVA]
    fuel t virt size tr

/-- The function `armv7a_cache_flush_virt`: the values of both calls are
dropped. -/
def armv7a_cache_flush_virt (l2x : outer_cache) (fuel : Nat) (t : target) (virt size : Nat)
    (tr : Trace) : Option (Int × Trace) :=
  (armv7a_l1_d_cache_flush_virt fuel t virt size tr).map
    (fun r =>
      let _retval := l2x.cache_flush_virt r.2 virt size
      (ERROR_OK, r.2 ++ [Event.l2x_cache_flush_virt t.coreid virt size]))

/-- The command handler `armv7a_l1_d_cache_clean_inval_all_cmd`. -/
def armv7a_l1_d_cache_clean_inval_all_cmd (t : target) (tr : Trace) : Int × Trace :=
  (0, (armv7a_l1_d_cache_clean_inval_all t tr).2)

/-- The command handler `armv7a_i_cache_clean_inval_all_cmd`. -/
def armv7a_i_cache_clean_inval_all_cmd (t : target) (tr : Trace) : Int × Trace :=
  (0, (armv7a_l1_i_cache_inval_all t tr).2)

/-! ## Observations on a trace -/

/-- The maintenance writes of a trace, in order, as (core, opcode, operand). -/
def writes_of (tr : Trace) : List (Nat × Opcode × Nat) :=
  tr.filterMap (fun e =>
    match e with
    | Event.instr_write_data_r0 c op v => some (c, op, v)
    | _ => none)

/-- Is the event a call through a dpm: `prepare`, a write or `finish`? -/
def Event.is_dpm : Event → Bool
  | Event.prepare _ => true
  | Event.instr_write_data_r0 _ _ _ => true
  | Event.finish _ => true
  | _ => false

/-- Is the event a call of an outer-cache entry point? -/
def Event.is_l2x : Event → Bool
  | Event.l2x_flush_all_data _ => true
  | Event.l2x_cache_flush_virt _ _ _ => true
  | _ => false

/-- Is the event `keep_alive` or a call through the dpm of the core `c`? -/
def Event.from_core (c : Nat) : Event → Bool
  | Event.prepare c' => c' = c
  | Event.instr_write_data_r0 c' _ _ => c' = c
  | Event.finish c' => c' = c
  | Event.keep_alive => true
  | _ => false

/-- The trace `tr'` continues the trace `tr` by events that all satisfy `p`. -/
def Extends (p : Event → Bool) (tr tr' : Trace) : Prop :=
  ∃ new : Trace, tr' = tr ++ new ∧ ∀ e ∈ new, p e = true

/-- Is the event `keep_alive` or a call through the dpm of a halted member of
the list? -/
def from_halted_member (l : List target) (e : Event) : Bool :=
  l.any (fun m => decide (m.state = target_state.TARGET_HALTED) &&
    e.from_core m.armv7a.dpm.coreid)

/-- The codes `retval1` that the halted members of the group give, in iteration
order; each member runs on the trace its predecessors left. -/
def smp_member_results : List target → Trace → List Int
  | [], _ => []
  | curr :: rest, tr =>
    if curr.state = target_state.TARGET_HALTED then
      (armv7a_l1_d_cache_clean_inval_all curr tr).1 ::
        smp_member_results rest (armv7a_l1_d_cache_clean_inval_all curr tr).2
    else smp_member_results rest tr

/-! ## The behaviour the specification describes -/

/-- The operand the specification gives for the set `i` and the way `w` of the
level `cl`: `(index << set_shift) | (way << way_shift) | (cl << 1)`, as a 32-bit
word. -/
def setway_operand (size : armv7a_cachesize) (cl i w : Nat) : Nat :=
  ((i <<< size.index_shift) ||| (w <<< size.way_shift) ||| (cl <<< 1)) % 2 ^ 32

/-- The writes the specification asks for one level: DCCISW for every set from
the highest down to 0 and, within a set, every way from the highest down
to 0. -/
def expected_level_writes (coreid : Nat) (size : armv7a_cachesize) (cl : Nat) :
    List (Nat × Opcode × Nat) :=
  (List.range (size.index + 1)).reverse.flatMap (fun i =>
    (List.range (size.way + 1)).reverse.map (fun w =>
      (coreid, DCCISW, setway_operand size cl i w)))

/-- The writes the specification asks of a whole-cache flush: the levels
`0 .. loc - 1` in ascending order, the levels without data skipped. -/
def expected_clean_inval_writes (coreid : Nat) (cache : armv7a_cache_common) :
    List (Nat × Opcode × Nat) :=
  (List.range cache.loc).flatMap (fun cl =>
    if (cache.arch cl).ctype < CACHE_LEVEL_HAS_D_CACHE then []
    else expected_level_writes coreid (cache.arch cl).d_u_size cl)

/-! ## Concrete targets -/

/-- A dpm all of whose calls succeed. -/
def ok_dpm (coreid : Nat) : arm_dpm :=
  ⟨coreid, fun _ => ERROR_OK, fun _ _ _ => ERROR_OK, fun _ => ERROR_OK⟩

/-- A dpm whose `prepare` and `finish` succeed and whose every write fails with
`ERROR_FAIL`. -/
def failing_write_dpm : arm_dpm :=
  ⟨0, fun _ => ERROR_OK, fun _ _ _ => ERROR_FAIL, fun _ => ERROR_OK⟩

/-- Two data-holding levels of 256 sets, 4 ways and 32-byte lines each. -/
def two_level_cache : armv7a_cache_common :=
  { loc := 2, dminline := 32, iminline := 32,
    arch := fun _ => ⟨CACHE_LEVEL_HAS_D_CACHE, ⟨255, 5, 3, 30⟩⟩,
    i_cache_enabled := true, d_u_cache_enabled := true }

/-- A halted single core with `two_level_cache` on which every write fails. -/
def failing_write_target : target :=
  ⟨0, target_state.TARGET_HALTED, 0, ⟨failing_write_dpm, two_level_cache⟩⟩

/-- Level 0 holds data in 4 sets and 2 ways of 16-byte lines, level 1 holds
instructions only. -/
def demo_cache : armv7a_cache_common :=
  { loc := 2, dminline := 16, iminline := 16,
    arch := fun cl =>
      if cl = 0 then ⟨CACHE_LEVEL_HAS_D_CACHE, ⟨3, 4, 1, 31⟩⟩
      else ⟨CACHE_LEVEL_HAS_I_CACHE, ⟨0, 0, 0, 0⟩⟩,
    i_cache_enabled := true, d_u_cache_enabled := true }

/-- A halted single core with `demo_cache` on which every call succeeds. -/
def demo_target : target :=
  ⟨0, target_state.TARGET_HALTED, 0, ⟨ok_dpm 0, demo_cache⟩⟩

/-- An outer cache whose operations succeed. -/
def ok_l2x : outer_cache := ⟨fun _ => ERROR_OK, fun _ _ _ => ERROR_OK⟩

/-- A dpm whose `prepare` fails with the code `e`. -/
def failing_prepare_dpm (coreid : Nat) (e : Int) : arm_dpm :=
  ⟨coreid, fun _ => e, fun _ _ _ => ERROR_OK, fun _ => ERROR_OK⟩

/-- A halted member of an SMP group, all of whose dpm calls succeed. -/
def smp_ok_member (coreid : Nat) : target :=
  ⟨coreid, target_state.TARGET_HALTED, 1, ⟨ok_dpm coreid, demo_cache⟩⟩

/-- A halted member of an SMP group whose `prepare` fails with the code `e`. -/
def smp_failing_member (coreid : Nat) (e : Int) : target :=
  ⟨coreid, target_state.TARGET_HALTED, 1, ⟨failing_prepare_dpm coreid e, demo_cache⟩⟩

/-- A running member of an SMP group. -/
def smp_running_member (coreid : Nat) : target :=
  ⟨coreid, target_state.TARGET_RUNNING, 1, ⟨ok_dpm coreid, demo_cache⟩⟩

/-- A single core that is running, not halted. -/
def running_target : target :=
  ⟨0, target_state.TARGET_RUNNING, 0, ⟨ok_dpm 0, demo_cache⟩⟩

/-- A halted single core whose data and instruction caches are both disabled. -/
def disabled_target : target :=
  ⟨0, target_state.TARGET_HALTED, 0,
    ⟨ok_dpm 0, { demo_cache with i_cache_enabled := false, d_u_cache_enabled := false }⟩⟩

/-! ## The calls of a range loop -/

/-- The calls the specification asks of `n` iterations of a range loop that
starts at the line `va_line` with the counter `i`: before the iteration `j` a
`keep_alive` exactly when the counter `i + j` is a multiple of 64, then the
writes of `ops`, in order, at the line `va_line + j * linelen` (a 32-bit
address). -/
def expected_loop_trace (c : Nat) (ops : List Opcode) (linelen va_line i n : Nat) : Trace :=
  (List.range n).flatMap (fun j =>
    (if (i + j) % 64 = 0 then [Event.keep_alive] else []) ++
      ops.map (fun op => Event.instr_write_data_r0 c op ((va_line + j * linelen) % 2 ^ 32)))

/-! ## The handlers of the range commands -/

/-- The body shared by the command handlers `arm7a_l1_d_cache_inval_virt_cmd`,
`arm7a_l1_d_cache_clean_virt_cmd` and `arm7a_l1_i_cache_inval_virt_cmd`, which
differ in the operation `op` they end with: the check of `CMD_ARGC`, the size
from `CMD_ARGV[1]` or 1, the address from `CMD_ARGV[0]`, and
`return op(target, virt, size);`.  `parse_u32` stands for
`COMMAND_PARSE_NUMBER(u32, ...)` of `helper/command.h` (not part of the
sources), which makes the handler return the code of a failed conversion. -/
def range_cmd (op : target → Nat → Nat → Trace → Option (Int × Trace))
    (parse_u32 : String → Except Int Nat) (t : target) (argv : List String) (tr : Trace) :
    Option (Int × Trace) :=
  match argv with
  | [a0] =>
    match parse_u32 a0 with
    | Except.error e => some (e, tr)
    | Except.ok virt => op t virt 1 tr
  | [a0, a1] =>
    match parse_u32 a1 with
    | Except.error e => some (e, tr)
    | Except.ok size =>
      match parse_u32 a0 with
      | Except.error e => some (e, tr)
      | Except.ok virt => op t virt size tr
  | _ => some (ERROR_COMMAND_SYNTAX_ERROR, tr)

/-- The command handler `arm7a_l1_d_cache_inval_virt_cmd`. -/
def arm7a_l1_d_cache_inval_virt_cmd (parse_u32 : String → Except Int Nat) (fuel : Nat)
    (t : target) (argv : List String) (tr : Trace) : Option (Int × Trace) :=
  range_cmd (armv7a_l1_d_cache_inval_virt fuel) parse_u32 t argv tr

/-- The command handler `arm7a_l1_d_cache_clean_virt_cmd`. -/
def arm7a_l1_d_cache_clean_virt_cmd (parse_u32 : String → Except Int Nat) (fuel : Nat)
    (t : target) (argv : List String) (tr : Trace) : Option (Int × Trace) :=
  range_cmd (armv7a_l1_d_cache_clean_virt fuel) parse_u32 t argv tr

/-- The command handler `arm7a_l1_i_cache_inval_virt_cmd`. -/
def arm7a_l1_i_cache_inval_virt_cmd (parse_u32 : String → Except Int Nat) (fuel : Nat)
    (t : target) (argv : List String) (tr : Trace) : Option (Int × Trace) :=
  range_cmd (armv7a_l1_i_cache_inval_virt fuel) parse_u32 t argv tr

/-- The number a list of decimal digits denotes, continuing from `acc`. -/
def parse_digits : List Char → Nat → Option Nat
  | [], acc => some acc
  | c :: cs, acc =>
    if c.isDigit then parse_digits cs (acc * 10 + (c.toNat - 48)) else none

/-- A conversion of command arguments that reads a decimal number. -/
def parse_decimal (s : String) : Except Int Nat :=
  match s.data with
  | [] => Except.error ERROR_COMMAND_SYNTAX_ERROR
  | cs =>
    match parse_digits cs 0 with
    | some n => Except.ok n
    | none => Except.error ERROR_COMMAND_SYNTAX_ERROR

/-! ## Observations on the range loops -/

/-- The calls of an iteration of a range loop at the line `va` with the
counter `i` up to and including its `q`-th write: the `keep_alive` when `i` is a
multiple of 64, then the first `q` writes of `ops`. -/
def iteration_calls (c : Nat) (ops : List Opcode) (va i q : Nat) : Trace :=
  (if i % 64 = 0 then [Event.keep_alive] else []) ++
    (ops.take q).map (fun op => Event.instr_write_data_r0 c op va)

/-- One step of `writes_since_keep_alive`: a `keep_alive` resets the count, a
maintenance write adds one, any other call leaves it. -/
def keep_alive_step (acc : Nat) : Event → Nat
  | Event.keep_alive => 0
  | Event.instr_write_data_r0 _ _ _ => acc + 1
  | _ => acc

/-- The number of maintenance writes recorded since the last `keep_alive` of a
trace (since its start when it has none). -/
def writes_since_keep_alive (tr : Trace) : Nat :=
  tr.foldl keep_alive_step 0

/-- The loop `while (va_line < va_end) { ...; va_line += linelen; }` entered
with the given `va_line` makes exactly `n` iterations: its condition holds for
the first `n` line addresses (32-bit, wrapping) and fails for the next. -/
def loop_iterations (linelen va_line va_end n : Nat) : Prop :=
  (∀ j, j < n → (va_line + j * linelen) % 2 ^ 32 < va_end) ∧
    ¬ ((va_line + n * linelen) % 2 ^ 32 < va_end)

instance (linelen va_line va_end n : Nat) :
    Decidable (loop_iterations linelen va_line va_end n) := by
  unfold loop_iterations
  exact inferInstance

/-- The value of `va_line` when the loop of `armv7a_l1_d_cache_inval_virt` is
entered: the line after `virt & -linelen` when `virt` is unaligned. -/
def inval_virt_loop_start (linelen virt : Nat) : Nat :=
  if virt ≠ virt &&& neg32 linelen then ((virt &&& neg32 linelen) + linelen) % 2 ^ 32
  else virt &&& neg32 linelen

/-- The value of `va_end` when the loop of `armv7a_l1_d_cache_inval_virt` is
entered: `virt + size` rounded down to a line when it is unaligned. -/
def inval_virt_loop_end (linelen virt size : Nat) : Nat :=
  if (virt + size) % 2 ^ 32 &&& pred32 linelen ≠ 0
  then (virt + size) % 2 ^ 32 &&& neg32 linelen
  else (virt + size) % 2 ^ 32

/-- The boundary writes of `armv7a_l1_d_cache_inval_virt` when both succeed:
DCCIMVAC at the line of an unaligned `virt`, then DCCIMVAC at the line of an
unaligned `virt + size`. -/
def inval_virt_boundary_calls (c linelen virt size : Nat) : Trace :=
  (if virt ≠ virt &&& neg32 linelen
    then [Event.instr_write_data_r0 c DCCIMVAC (virt &&& neg32 linelen)] else []) ++
  (if (virt + size) % 2 ^ 32 &&& pred32 linelen ≠ 0
    then [Event.instr_write_data_r0 c DCCIMVAC ((virt + size) % 2 ^ 32 &&& neg32 linelen)]
    else [])

/-- The operand addresses of the maintenance writes of a trace, in order. -/
def write_addresses (tr : Trace) : List Nat :=
  (writes_of tr).map (fun w => w.2.2)

/-! ## Well-formed geometry and the transaction bracket -/

/-- Well-formed set/way geometry: the level field (bits 1 to 3) lies below the
set field, the set field below the way field, and the way field inside the
32-bit word. -/
def wellformed_geometry (size : armv7a_cachesize) : Prop :=
  4 ≤ size.index_shift ∧ 4 ≤ size.way_shift ∧ size.way_shift ≤ 32 ∧
    size.index <<< size.index_shift < 2 ^ size.way_shift ∧
    size.way <<< size.way_shift < 2 ^ 32

instance (size : armv7a_cachesize) : Decidable (wellformed_geometry size) := by
  unfold wellformed_geometry
  exact inferInstance

/-- Is the event one that may lie inside the transaction of the core `c`:
`keep_alive` or a maintenance write through the dpm of `c`? -/
def Event.in_bracket (c : Nat) : Event → Bool
  | Event.instr_write_data_r0 c' _ _ => c' = c
  | Event.keep_alive => true
  | _ => false

/-- The trace `tr'` continues `tr` by one whole transaction of the core `c`:
one `prepare` first, one `finish` last, and between them only `keep_alive` and
maintenance writes of `c`. -/
def bracketed (c : Nat) (tr tr' : Trace) : Prop :=
  ∃ body : Trace, tr' = tr ++ [Event.prepare c] ++ body ++ [Event.finish c] ∧
    ∀ e ∈ body, Event.in_bracket c e = true

/-! ## The failure path of the range loops -/

/-- The calls of a range loop up to and including the first `q` writes of its
iteration `m`: those of `m` whole iterations, then the `keep_alive` of the
iteration `m` when `m` is a multiple of 64 and its first `q` writes. -/
def loop_calls_upto (c : Nat) (ops : List Opcode) (linelen va_line m q : Nat) : Trace :=
  expected_loop_trace c ops linelen va_line 0 m ++
    iteration_calls c ops ((va_line + m * linelen) % 2 ^ 32) m q

/-- In a range loop entered after the calls `tr0`, the first write that fails is
the write `q` of the iteration `m`, and it fails with `e`: every write before
it, issued after the calls the loop has recorded so far, returns `ERROR_OK`,
and that write returns `e`, which is not `ERROR_OK`. -/
def first_failure (dpm : arm_dpm) (ops : List Opcode) (linelen va_line : Nat) (tr0 : Trace)
    (m q : Nat) (e : Int) : Prop :=
  e ≠ ERROR_OK ∧
    (∀ j, j ≤ m → ∀ q', q' < ops.length → (j < m ∨ q' < q) → ∀ op ∈ ops[q']?,
      dpm.instr_write_data_r0 (tr0 ++ loop_calls_upto dpm.coreid ops linelen va_line j q') op
        ((va_line + j * linelen) % 2 ^ 32) = ERROR_OK) ∧
    (∃ op ∈ ops[q]?,
      dpm.instr_write_data_r0 (tr0 ++ loop_calls_upto dpm.coreid ops linelen va_line m q) op
        ((va_line + m * linelen) % 2 ^ 32) = e)

instance (dpm : arm_dpm) (ops : List Opcode) (linelen va_line : Nat) (tr0 : Trace)
    (m q : Nat) (e : Int) : Decidable (first_failure dpm ops linelen va_line tr0 m q e) := by
  unfold first_failure
  exact inferInstance

/-- The loop of a range operation reaches its iteration `m`: the condition
`va_line < va_end` holds for the line addresses of the iterations 0 to `m`. -/
def loop_reaches (linelen va_line va_end m : Nat) : Prop :=
  ∀ j, j ≤ m → (va_line + j * linelen) % 2 ^ 32 < va_end

instance (linelen va_line va_end m : Nat) : Decidable (loop_reaches linelen va_line va_end m) := by
  unfold loop_reaches
  exact inferInstance

/-- The first boundary write of `armv7a_l1_d_cache_inval_virt`: DCCIMVAC at the
line of an unaligned `virt`. -/
def inval_virt_start_call (c linelen virt : Nat) : Trace :=
  if virt ≠ virt &&& neg32 linelen
  then [Event.instr_write_data_r0 c DCCIMVAC (virt &&& neg32 linelen)] else []

/-- A dpm whose `prepare` and `finish` succeed and whose writes succeed except
the writes of the opcode `op` at the address `va`, which fail with `e`. -/
def fail_at_dpm (coreid : Nat) (op : Opcode) (va : Nat) (e : Int) : arm_dpm :=
  ⟨coreid, fun _ => ERROR_OK, fun _ op' v => if op' = op ∧ v = va then e else ERROR_OK,
    fun _ => ERROR_OK⟩

/-- A halted single core with `demo_cache` on which the writes of `op` at `va`
fail with `e`. -/
def fail_at_target (op : Opcode) (va : Nat) (e : Int) : target :=
  ⟨0, target_state.TARGET_HALTED, 0, ⟨fail_at_dpm 0 op va e, demo_cache⟩⟩

/-! ## Lemmas on traces and on 32-bit values -/

theorem writes_of_append (a b : Trace) : writes_of (a ++ b) = writes_of a ++ writes_of b := by
  simp [writes_of, List.filterMap_append]

theorem writes_of_write (c : Nat) (op : Opcode) (v : Nat) :
    writes_of [Event.instr_write_data_r0 c op v] = [(c, op, v)] := rfl

theorem writes_of_keep_alive : writes_of [Event.keep_alive] = [] := rfl

theorem writes_of_prepare (c : Nat) : writes_of [Event.prepare c] = [] := rfl

theorem writes_of_finish (c : Nat) : writes_of [Event.finish c] = [] := rfl

theorem toInt32_of_lt (n : Nat) (h : n < 2 ^ 31) : toInt32 n = (n : Int) := by
  unfold toInt32
  rw [Nat.mod_eq_of_lt (by omega : n < 2 ^ 32), if_pos h]

theorem toUInt32_ofNat (n : Nat) (h : n < 2 ^ 32) : toUInt32 (n : Int) = n := by
  unfold toUInt32
  have : ((n : Int) % 2 ^ 32) = ((n % 2 ^ 32 : Nat) : Int) := by norm_cast
  rw [this, Nat.mod_eq_of_lt h]; simp

theorem setway_value_ofNat (size : armv7a_cachesize) (cl i w : Nat) (x y : Int)
    (hi : i < 2 ^ 32) (hw : w < 2 ^ 32) (hx : x = (i : Int)) (hy : y = (w : Int)) :
    setway_value size cl x y = setway_operand size cl i w := by
  subst hx hy
  unfold setway_value setway_operand
  rw [toUInt32_ofNat i hi, toUInt32_ofNat w hw]

/-! ## The set/way loops when every write succeeds -/

theorem flush_level_ways_ok (dpm : arm_dpm) (size : armv7a_cachesize) (cl : Nat) (i : Nat)
    (x : Int) (hx : x = (i : Int))
    (hw : ∀ tr op v, dpm.instr_write_data_r0 tr op v = ERROR_OK) (hi : i < 2 ^ 32) :
    ∀ (w : Nat) (y : Int) (tr : Trace), y = (w : Int) → w < 2 ^ 32 →
      (flush_level_ways dpm size cl x y tr).1 = ERROR_OK ∧
      writes_of (flush_level_ways dpm size cl x y tr).2 =
        writes_of tr ++ (List.range (w + 1)).reverse.map (fun w =>
          (dpm.coreid, DCCISW, setway_operand size cl i w)) := by
  intro w
  induction w with
  | zero =>
    intro y tr hy _
    rw [flush_level_ways]
    have hv := setway_value_ofNat size cl i 0 x y hi (by norm_num) hx hy
    have h0 : ¬ (0 : Int) ≤ y - 1 := by rw [hy]; simp
    simp only [hw, ne_eq, not_true_eq_false, ↓reduceIte, h0, hv, writes_of_append,
      writes_of_write]
    exact ⟨trivial, rfl⟩
  | succ n ih =>
    intro y tr hy hn
    rw [flush_level_ways]
    have h1 : y - 1 = (n : Int) := by rw [hy]; push_cast; ring
    have h2 : (0 : Int) ≤ y - 1 := by omega
    have hv := setway_value_ofNat size cl i (n + 1) x y hi hn hx hy
    simp only [hw, ne_eq, not_true_eq_false, ↓reduceIte, h2]
    have := ih (y - 1) (tr ++ [Event.instr_write_data_r0 dpm.coreid DCCISW
      (setway_value size cl x y)]) h1 (by omega)
    refine ⟨this.1, ?_⟩
    rw [this.2, writes_of_append, writes_of_write, List.range_succ (n + 1), List.reverse_append,
      hv, List.append_assoc]
    rfl

theorem flush_level_sets_ok (dpm : arm_dpm) (size : armv7a_cachesize) (cl : Nat)
    (hw : ∀ tr op v, dpm.instr_write_data_r0 tr op v = ERROR_OK) (hway : size.way < 2 ^ 31) :
    ∀ (i : Nat) (x : Int) (tr : Trace), x = (i : Int) → i < 2 ^ 32 →
      (flush_level_sets dpm size cl x tr).1 = ERROR_OK ∧
      writes_of (flush_level_sets dpm size cl x tr).2 =
        writes_of tr ++ (List.range (i + 1)).reverse.flatMap (fun i =>
          (List.range (size.way + 1)).reverse.map (fun w =>
            (dpm.coreid, DCCISW, setway_operand size cl i w))) := by
  intro i
  induction i with
  | zero =>
    intro x tr hx h0
    rw [flush_level_sets, toInt32_of_lt _ hway]
    have hk := flush_level_ways_ok dpm size cl 0 x hx hw h0 size.way _
      (tr ++ [Event.keep_alive]) rfl (by omega)
    have h0 : ¬ (0 : Int) ≤ x - 1 := by rw [hx]; simp
    simp only [hk.1, ne_eq, not_true_eq_false, ↓reduceIte, h0, hk.2, writes_of_append,
      writes_of_keep_alive, List.append_nil]
    refine ⟨trivial, ?_⟩
    rw [show List.range (0 + 1) = [0] from rfl]
    simp [List.flatMap]
  | succ n ih =>
    intro x tr hx hn
    rw [flush_level_sets, toInt32_of_lt _ hway]
    have h1 : x - 1 = (n : Int) := by rw [hx]; push_cast; ring
    have h2 : (0 : Int) ≤ x - 1 := by omega
    have hk := flush_level_ways_ok dpm size cl (n + 1) x hx hw hn size.way _
      (tr ++ [Event.keep_alive]) rfl (by omega)
    simp only [hk.1, ne_eq, not_true_eq_false, ↓reduceIte, h2]
    have := ih (x - 1) (flush_level_ways dpm size cl x (size.way : Int)
      (tr ++ [Event.keep_alive])).2 h1 (by omega)
    refine ⟨this.1, ?_⟩
    rw [this.2, hk.2, writes_of_append, writes_of_keep_alive, List.append_nil,
      List.range_succ (n + 1), List.reverse_append, List.flatMap_append, List.append_assoc]
    simp [List.flatMap]

theorem flush_level_ok (dpm : arm_dpm) (size : armv7a_cachesize) (cl : Nat) (tr : Trace)
    (hw : ∀ tr op v, dpm.instr_write_data_r0 tr op v = ERROR_OK)
    (hindex : size.index < 2 ^ 31) (hway : size.way < 2 ^ 31) :
    writes_of (armv7a_l1_d_cache_flush_level dpm size cl tr).2 =
      writes_of tr ++ expected_level_writes dpm.coreid size cl := by
  unfold armv7a_l1_d_cache_flush_level expected_level_writes
  rw [toInt32_of_lt _ hindex]
  have := flush_level_sets_ok dpm size cl hw hway size.index _ tr rfl (by omega)
  simp only [writes_of_append, this.2, writes_of_keep_alive, List.append_nil]

theorem expected_level_writes_length (coreid : Nat) (size : armv7a_cachesize) (cl : Nat) :
    (expected_level_writes coreid size cl).length = (size.index + 1) * (size.way + 1) := by
  unfold expected_level_writes
  simp [List.length_flatMap, Function.comp_def, List.sum_reverse]

/-! ## The calls a whole-cache flush records -/

theorem Extends.refl (p : Event → Bool) (tr : Trace) : Extends p tr tr :=
  ⟨[], by simp, by simp⟩

theorem Extends.trans {p : Event → Bool} {a b c : Trace} (h1 : Extends p a b)
    (h2 : Extends p b c) : Extends p a c := by
  obtain ⟨n1, rfl, hn1⟩ := h1
  obtain ⟨n2, rfl, hn2⟩ := h2
  refine ⟨n1 ++ n2, by simp, ?_⟩
  intro e he
  rcases List.mem_append.mp he with h | h
  · exact hn1 e h
  · exact hn2 e h

theorem Extends.snoc {p : Event → Bool} {a b : Trace} (h1 : Extends p a b) (l : Trace)
    (hl : ∀ e ∈ l, p e = true) : Extends p a (b ++ l) :=
  Extends.trans h1 ⟨l, rfl, hl⟩

theorem Extends.mono {p q : Event → Bool} {a b : Trace} (h : Extends p a b)
    (hpq : ∀ e, p e = true → q e = true) : Extends q a b := by
  obtain ⟨n, rfl, hn⟩ := h
  exact ⟨n, rfl, fun e he => hpq e (hn e he)⟩

theorem flush_level_ways_extends (dpm : arm_dpm) (size : armv7a_cachesize) (cl : Nat)
    (c_index : Int) :
    ∀ (n : Nat) (c_way : Int) (tr : Trace), c_way.toNat = n →
      Extends (Event.from_core dpm.coreid) tr
        (flush_level_ways dpm size cl c_index c_way tr).2 := by
  intro n
  induction n with
  | zero =>
    intro c_way tr h
    rw [flush_level_ways]
    have h0 : ¬ (0 : Int) ≤ c_way - 1 := by omega
    simp only [h0, ↓reduceIte, ite_self]
    exact Extends.snoc (Extends.refl _ _) _ (by simp [Event.from_core])
  | succ n ih =>
    intro c_way tr h
    rw [flush_level_ways]
    have hstep : Extends (Event.from_core dpm.coreid) tr (tr ++ [Event.instr_write_data_r0
        dpm.coreid DCCISW (setway_value size cl c_index c_way)]) :=
      Extends.snoc (Extends.refl _ _) _ (by simp [Event.from_core])
    split
    · exact hstep
    · split
      · exact Extends.trans hstep (ih (c_way - 1) _ (by omega))
      · exact hstep

theorem flush_level_sets_extends (dpm : arm_dpm) (size : armv7a_cachesize) (cl : Nat) :
    ∀ (n : Nat) (c_index : Int) (tr : Trace), c_index.toNat = n →
      Extends (Event.from_core dpm.coreid) tr
        (flush_level_sets dpm size cl c_index tr).2 := by
  intro n
  induction n with
  | zero =>
    intro c_index tr h
    rw [flush_level_sets]
    have h0 : ¬ (0 : Int) ≤ c_index - 1 := by omega
    have hstep := Extends.trans
      (Extends.snoc (Extends.refl (Event.from_core dpm.coreid) tr) [Event.keep_alive]
        (by simp [Event.from_core]))
      (flush_level_ways_extends dpm size cl c_index _ (toInt32 size.way)
        (tr ++ [Event.keep_alive]) rfl)
    simp only [h0, ↓reduceIte, ite_self]
    exact hstep
  | succ n ih =>
    intro c_index tr h
    rw [flush_level_sets]
    have hstep := Extends.trans
      (Extends.snoc (Extends.refl (Event.from_core dpm.coreid) tr) [Event.keep_alive]
        (by simp [Event.from_core]))
      (flush_level_ways_extends dpm size cl c_index _ (toInt32 size.way)
        (tr ++ [Event.keep_alive]) rfl)
    split
    · exact hstep
    · split
      · exact Extends.trans hstep (ih (c_index - 1) _ (by omega))
      · exact hstep

theorem flush_level_extends (dpm : arm_dpm) (size : armv7a_cachesize) (cl : Nat) (tr : Trace) :
    Extends (Event.from_core dpm.coreid) tr (armv7a_l1_d_cache_flush_level dpm size cl tr).2 := by
  unfold armv7a_l1_d_cache_flush_level
  exact Extends.snoc (flush_level_sets_extends dpm size cl _ _ tr rfl) _
    (by simp [Event.from_core])

theorem clean_inval_level_extends (dpm : arm_dpm) (cache : armv7a_cache_common) (tr : Trace)
    (cl : Nat) : Extends (Event.from_core dpm.coreid) tr (clean_inval_level dpm cache tr cl) := by
  unfold clean_inval_level
  split
  · exact Extends.refl _ _
  · exact flush_level_extends dpm _ cl tr

theorem clean_inval_levels_extends (dpm : arm_dpm) (cache : armv7a_cache_common) :
    ∀ (l : List Nat) (tr : Trace),
      Extends (Event.from_core dpm.coreid) tr (l.foldl (clean_inval_level dpm cache) tr) := by
  intro l
  induction l with
  | nil => intro tr; exact Extends.refl _ _
  | cons cl l ih =>
    intro tr
    rw [List.foldl_cons]
    exact Extends.trans (clean_inval_level_extends dpm cache tr cl) (ih _)

theorem clean_inval_all_extends (t : target) (tr : Trace) :
    Extends (Event.from_core t.armv7a.dpm.coreid) tr
      (armv7a_l1_d_cache_clean_inval_all t tr).2 := by
  unfold armv7a_l1_d_cache_clean_inval_all
  have hp : Extends (Event.from_core t.armv7a.dpm.coreid) tr
      (tr ++ [Event.prepare t.armv7a.dpm.coreid]) :=
    Extends.snoc (Extends.refl _ _) _ (by simp [Event.from_core])
  simp only
  split
  · exact Extends.refl _ _
  · split
    · exact Extends.snoc hp _ (by simp [Event.from_core])
    · exact Extends.snoc (Extends.trans hp (clean_inval_levels_extends _ _ _ _)) _
        (by simp [Event.from_core])

/-! ## Whole-cache clean and invalidate of one core -/

theorem flush_level_ways_fail (dpm : arm_dpm) (size : armv7a_cachesize) (cl : Nat)
    (c_index c_way : Int) (tr : Trace)
    (h : dpm.instr_write_data_r0 tr DCCISW (setway_value size cl c_index c_way) ≠ ERROR_OK) :
    flush_level_ways dpm size cl c_index c_way tr =
      (dpm.instr_write_data_r0 tr DCCISW (setway_value size cl c_index c_way),
        tr ++ [Event.instr_write_data_r0 dpm.coreid DCCISW
          (setway_value size cl c_index c_way)]) := by
  rw [flush_level_ways]
  simp only [ne_eq, h, not_false_eq_true, ↓reduceIte]

theorem flush_level_fail (dpm : arm_dpm) (size : armv7a_cachesize) (cl : Nat) (tr : Trace)
    (v : Nat) (hv : v = setway_value size cl (toInt32 size.index) (toInt32 size.way))
    (h : dpm.instr_write_data_r0 (tr ++ [Event.keep_alive]) DCCISW v ≠ ERROR_OK) :
    armv7a_l1_d_cache_flush_level dpm size cl tr =
      (dpm.instr_write_data_r0 (tr ++ [Event.keep_alive]) DCCISW v,
        tr ++ [Event.keep_alive, Event.instr_write_data_r0 dpm.coreid DCCISW v,
          Event.keep_alive]) := by
  subst hv
  unfold armv7a_l1_d_cache_flush_level
  rw [flush_level_sets, flush_level_ways_fail _ _ _ _ _ _ h]
  simp only [ne_eq, h, not_false_eq_true, ↓reduceIte, List.append_assoc, List.cons_append,
    List.nil_append]

theorem clean_inval_levels_writes (dpm : arm_dpm) (cache : armv7a_cache_common)
    (hw : ∀ tr op v, dpm.instr_write_data_r0 tr op v = ERROR_OK) :
    ∀ (n : Nat) (tr : Trace),
      (∀ cl, cl < n → CACHE_LEVEL_HAS_D_CACHE ≤ (cache.arch cl).ctype →
        (cache.arch cl).d_u_size.index < 2 ^ 31 ∧ (cache.arch cl).d_u_size.way < 2 ^ 31) →
      writes_of ((List.range n).foldl (clean_inval_level dpm cache) tr) =
        writes_of tr ++ (List.range n).flatMap (fun cl =>
          if (cache.arch cl).ctype < CACHE_LEVEL_HAS_D_CACHE then []
          else expected_level_writes dpm.coreid (cache.arch cl).d_u_size cl) := by
  intro n
  induction n with
  | zero => intro tr _; simp
  | succ n ih =>
    intro tr hgeo
    rw [List.range_succ, List.foldl_append, List.flatMap_append, ← List.append_assoc,
      ← ih tr (fun cl hcl => hgeo cl (by omega))]
    simp only [List.foldl_cons, List.foldl_nil, List.flatMap_cons, List.flatMap_nil,
      List.append_nil]
    unfold clean_inval_level
    by_cases hc : (cache.arch n).ctype < CACHE_LEVEL_HAS_D_CACHE
    · simp only [hc, ↓reduceIte, List.append_nil]
    · simp only [hc, ↓reduceIte]
      have hg := hgeo n (by omega) (by omega)
      exact flush_level_ok dpm _ n _ hw hg.1 hg.2

/-- C1, the code at a failing input: two data-holding levels, every write
fails with `ERROR_FAIL`.  After the failed write of level 0 another write is
issued for level 1, and the value returned is the `ERROR_OK` of `finish`. -/
theorem clean_inval_all_drops_write_failure :
    armv7a_l1_d_cache_clean_inval_all failing_write_target [] =
      (ERROR_OK,
        [Event.prepare 0,
         Event.keep_alive, Event.instr_write_data_r0 0 DCCISW 0xC0001FE0, Event.keep_alive,
         Event.keep_alive, Event.instr_write_data_r0 0 DCCISW 0xC0001FE2, Event.keep_alive,
         Event.finish 0]) ∧
      failing_write_target.armv7a.dpm.instr_write_data_r0
        [Event.prepare 0, Event.keep_alive] DCCISW 0xC0001FE0 = ERROR_FAIL ∧
      ERROR_FAIL ≠ ERROR_OK := by
  refine ⟨?_, rfl, by decide⟩
  have h0 := flush_level_fail failing_write_dpm ⟨255, 5, 3, 30⟩ 0 [Event.prepare 0]
    0xC0001FE0 (by decide) (by decide)
  have h1 := flush_level_fail failing_write_dpm ⟨255, 5, 3, 30⟩ 1
    [Event.prepare 0, Event.keep_alive, Event.instr_write_data_r0 0 DCCISW 0xC0001FE0,
      Event.keep_alive] 0xC0001FE2 (by decide) (by decide)
  have hr : List.range 2 = [0, 1] := rfl
  have hc : failing_write_dpm.coreid = 0 := rfl
  have hp : ∀ x, failing_write_dpm.prepare x = ERROR_OK := fun _ => rfl
  have hf : ∀ x, failing_write_dpm.finish x = ERROR_OK := fun _ => rfl
  have hwr : ∀ x op v, failing_write_dpm.instr_write_data_r0 x op v = ERROR_FAIL :=
    fun _ _ _ => rfl
  have hd : ¬ CACHE_LEVEL_HAS_D_CACHE < CACHE_LEVEL_HAS_D_CACHE := by decide
  simp only [hc, hwr, List.cons_append, List.nil_append] at h0 h1
  simp [armv7a_l1_d_cache_clean_inval_all, armv7a_l1_d_cache_sanity_check,
    failing_write_target, two_level_cache, hr, clean_inval_level, hc, hp, hf, hd, h0, h1]

/-! ## The aggregate flush and the SMP sweep -/

theorem clean_inval_all_fst (t : target) (tr : Trace) :
    (armv7a_l1_d_cache_clean_inval_all t tr).1 =
      if armv7a_l1_d_cache_sanity_check t ≠ ERROR_OK then armv7a_l1_d_cache_sanity_check t
      else if t.armv7a.dpm.prepare tr ≠ ERROR_OK then t.armv7a.dpm.prepare tr
      else t.armv7a.dpm.finish ((List.range t.armv7a.armv7a_cache.loc).foldl
        (clean_inval_level t.armv7a.dpm t.armv7a.armv7a_cache)
        (tr ++ [Event.prepare t.armv7a.dpm.coreid])) := by
  unfold armv7a_l1_d_cache_clean_inval_all
  simp only
  split
  · rfl
  · split <;> rfl

/-- The aggregate flush of a single core whose flush succeeds: the outer-cache
flush is called once, after the inner work, and its code is returned. -/
theorem flush_all_data_single_core (l2x : outer_cache) (t : target) (members : List target)
    (tr : Trace) (hs : t.smp = 0)
    (hok : (armv7a_l1_d_cache_clean_inval_all t tr).1 = ERROR_OK) :
    armv7a_cache_flush_all_data l2x t members tr =
      (l2x.flush_all_data (armv7a_l1_d_cache_clean_inval_all t tr).2,
        (armv7a_l1_d_cache_clean_inval_all t tr).2 ++ [Event.l2x_flush_all_data t.coreid]) := by
  simp only [armv7a_cache_flush_all_data, hs, ne_eq, not_true_eq_false, ↓reduceIte, hok]

theorem from_core_not_l2x (c : Nat) (e : Event) (h : e.from_core c = true) :
    e.is_l2x = false := by
  cases e <;> simp_all [Event.from_core, Event.is_l2x]

theorem from_halted_member_not_l2x (l : List target) (e : Event)
    (h : from_halted_member l e = true) : e.is_l2x = false := by
  unfold from_halted_member at h
  obtain ⟨m, _, hm⟩ := List.any_eq_true.mp h
  simp only [Bool.and_eq_true] at hm
  exact from_core_not_l2x _ _ hm.2

theorem smp_flush_loop_extends :
    ∀ (l : List target) (retval : Int) (tr : Trace),
      Extends (from_halted_member l) tr (smp_flush_loop l retval tr).2 := by
  intro l
  induction l with
  | nil => intro retval tr; exact Extends.refl _ _
  | cons curr rest ih =>
    intro retval tr
    have hmono : ∀ e, from_halted_member rest e = true →
        from_halted_member (curr :: rest) e = true := by
      intro e he
      simp only [from_halted_member, List.any_cons, Bool.or_eq_true]
      exact Or.inr he
    unfold smp_flush_loop
    split
    · rename_i hh
      have hcur : ∀ e, e.from_core curr.armv7a.dpm.coreid = true →
          from_halted_member (curr :: rest) e = true := by
        intro e he
        simp only [from_halted_member, List.any_cons, Bool.or_eq_true, Bool.and_eq_true,
          decide_eq_true_eq]
        exact Or.inl ⟨hh, he⟩
      exact Extends.trans (Extends.mono (clean_inval_all_extends curr tr) hcur)
        (Extends.mono (ih _ _) hmono)
    · exact Extends.mono (ih _ _) hmono

theorem smp_flush_loop_trace :
    ∀ (l : List target) (retval : Int) (tr : Trace),
      (smp_flush_loop l retval tr).2 =
        (l.filter (fun m => decide (m.state = target_state.TARGET_HALTED))).foldl
          (fun tr m => (armv7a_l1_d_cache_clean_inval_all m tr).2) tr := by
  intro l
  induction l with
  | nil => intro retval tr; rfl
  | cons curr rest ih =>
    intro retval tr
    unfold smp_flush_loop
    by_cases hh : curr.state = target_state.TARGET_HALTED
    · simp only [hh, ↓reduceIte, decide_True, List.filter_cons_of_pos, List.foldl_cons]
      exact ih _ _
    · simp only [hh, ↓reduceIte, decide_False, Bool.false_eq_true, not_false_eq_true,
        List.filter_cons_of_neg]
      exact ih _ _

theorem smp_flush_loop_fst :
    ∀ (l : List target) (retval : Int) (tr : Trace),
      (smp_flush_loop l retval tr).1 =
        ((smp_member_results l tr).filter (fun r => decide (r ≠ ERROR_OK))).getLast?.getD
          retval := by
  intro l
  induction l with
  | nil => intro retval tr; rfl
  | cons curr rest ih =>
    intro retval tr
    unfold smp_flush_loop smp_member_results
    by_cases hh : curr.state = target_state.TARGET_HALTED
    · simp only [hh, ↓reduceIte]
      rw [ih]
      by_cases hr : (armv7a_l1_d_cache_clean_inval_all curr tr).1 = ERROR_OK
      · simp [hr]
      · simp only [ne_eq, hr, not_false_eq_true, ↓reduceIte, decide_True,
          List.filter_cons_of_pos]
        rw [List.getLast?_cons]
        simp
    · simp only [hh, ↓reduceIte]
      exact ih _ _

theorem smp_flush_loop_sticky (e : Int) (he : e ≠ ERROR_OK) :
    ∀ (l : List target) (retval : Int) (tr : Trace),
      (∀ m ∈ l, m.state = target_state.TARGET_HALTED → ∀ tr',
        (armv7a_l1_d_cache_clean_inval_all m tr').1 = ERROR_OK ∨
        (armv7a_l1_d_cache_clean_inval_all m tr').1 = e) →
      (retval = e ∨ ∃ m ∈ l, m.state = target_state.TARGET_HALTED ∧
        ∀ tr', (armv7a_l1_d_cache_clean_inval_all m tr').1 = e) →
      (smp_flush_loop l retval tr).1 = e := by
  intro l
  induction l with
  | nil =>
    intro retval tr _ h
    rcases h with h | ⟨m, hm, _⟩
    · exact h
    · cases hm
  | cons curr rest ih =>
    intro retval tr hall h
    unfold smp_flush_loop
    have hall' : ∀ m ∈ rest, m.state = target_state.TARGET_HALTED → ∀ tr',
        (armv7a_l1_d_cache_clean_inval_all m tr').1 = ERROR_OK ∨
        (armv7a_l1_d_cache_clean_inval_all m tr').1 = e :=
      fun m hm => hall m (List.mem_cons_of_mem _ hm)
    by_cases hh : curr.state = target_state.TARGET_HALTED
    · simp only [hh, ↓reduceIte]
      apply ih _ _ hall'
      rcases hall curr (List.mem_cons_self _ _) hh tr with h1 | h1
      · simp only [h1, ne_eq, not_true_eq_false, ↓reduceIte]
        rcases h with h | ⟨m, hm, hmh, hme⟩
        · exact Or.inl h
        · rcases List.mem_cons.mp hm with rfl | hm'
          · exact absurd ((hme tr).symm.trans h1) he
          · exact Or.inr ⟨m, hm', hmh, hme⟩
      · simp only [h1, ne_eq, he, not_false_eq_true, ↓reduceIte]
        exact Or.inl trivial
    · simp only [hh, ↓reduceIte]
      apply ih _ _ hall'
      rcases h with h | ⟨m, hm, hmh, hme⟩
      · exact Or.inl h
      · rcases List.mem_cons.mp hm with rfl | hm'
        · exact absurd hmh hh
        · exact Or.inr ⟨m, hm', hmh, hme⟩

theorem smp_ok_member_fst (c : Nat) (tr : Trace) :
    (armv7a_l1_d_cache_clean_inval_all (smp_ok_member c) tr).1 = ERROR_OK := by
  rw [clean_inval_all_fst]
  simp [armv7a_l1_d_cache_sanity_check, smp_ok_member, ok_dpm, demo_cache]

theorem smp_failing_member_fst (c : Nat) (e : Int) (he : e ≠ ERROR_OK) (tr : Trace) :
    (armv7a_l1_d_cache_clean_inval_all (smp_failing_member c e) tr).1 = e := by
  rw [clean_inval_all_fst]
  simp [armv7a_l1_d_cache_sanity_check, smp_failing_member, failing_prepare_dpm, demo_cache, he]

/-- C3, the code at a failing input: an SMP group whose only member is halted
and is flushed with success.  The aggregate returns `ERROR_FAIL`, not the
`ERROR_OK` of the outer cache, and no outer-cache call is recorded. -/
theorem flush_all_data_smp_skips_outer :
    (armv7a_l1_d_cache_clean_inval_all (smp_ok_member 0) []).1 = ERROR_OK ∧
      (armv7a_cache_flush_all_data ok_l2x (smp_ok_member 0) [smp_ok_member 0] []).1
        = ERROR_FAIL ∧
      (∀ e ∈ (armv7a_cache_flush_all_data ok_l2x (smp_ok_member 0) [smp_ok_member 0] []).2,
        e.is_l2x = false) ∧
      ok_l2x.flush_all_data (armv7a_l1_d_cache_clean_inval_all (smp_ok_member 0) []).2
        = ERROR_OK := by
  have h1 : (smp_ok_member 0).smp ≠ 0 := by decide
  have hr : (smp_flush_loop [smp_ok_member 0] ERROR_FAIL []).1 = ERROR_FAIL := by
    have hst : (smp_ok_member 0).state = target_state.TARGET_HALTED := rfl
    rw [smp_flush_loop_fst]
    simp [smp_member_results, smp_ok_member_fst, hst]
  have hne : ERROR_FAIL ≠ ERROR_OK := by decide
  refine ⟨smp_ok_member_fst 0 [], ?_, ?_, rfl⟩
  · simp only [armv7a_cache_flush_all_data, h1, ne_eq, not_false_eq_true, ↓reduceIte, hr, hne]
  · simp only [armv7a_cache_flush_all_data, h1, ne_eq, not_false_eq_true, ↓reduceIte, hr, hne]
    obtain ⟨new, hnew, hp⟩ := smp_flush_loop_extends [smp_ok_member 0] ERROR_FAIL []
    intro e he
    rw [hnew, List.nil_append] at he
    exact from_halted_member_not_l2x _ _ (hp e he)

/-- C5 as stated fails: with the order 1, 2, 3, member 2 failing with -7 and
members 1 and 3 succeeding, the aggregate is member 2's -7 and not the success
of member 3. -/
theorem flush_all_data_smp_success_does_not_overwrite :
    (armv7a_cache_flush_all_data ok_l2x (smp_ok_member 1)
      [smp_ok_member 1, smp_failing_member 2 (-7), smp_ok_member 3] []).1 = -7 ∧
      (∀ tr, (armv7a_l1_d_cache_clean_inval_all (smp_ok_member 3) tr).1 = ERROR_OK) ∧
      (-7 : Int) ≠ ERROR_OK := by
  have h7 : (-7 : Int) ≠ ERROR_OK := by decide
  have h1 : (smp_ok_member 1).smp ≠ 0 := by decide
  have hr : (smp_flush_loop [smp_ok_member 1, smp_failing_member 2 (-7), smp_ok_member 3]
      ERROR_FAIL []).1 = -7 := by
    apply smp_flush_loop_sticky (-7) h7
    · intro m hm _ tr'
      simp only [List.mem_cons, List.mem_singleton, List.not_mem_nil, or_false] at hm
      rcases hm with rfl | rfl | rfl
      · exact Or.inl (smp_ok_member_fst _ _)
      · exact Or.inr (smp_failing_member_fst _ _ h7 _)
      · exact Or.inl (smp_ok_member_fst _ _)
    · exact Or.inr ⟨smp_failing_member 2 (-7), by simp, rfl,
        fun tr' => smp_failing_member_fst _ _ h7 _⟩
  refine ⟨?_, fun tr => smp_ok_member_fst 3 tr, h7⟩
  simp only [armv7a_cache_flush_all_data, h1, ne_eq, not_false_eq_true, ↓reduceIte, hr, h7]

/-- C5, amended.  In an SMP group of three halted members, one of which always
fails with `e` while the two others always succeed, the aggregate returns `e`
in whatever order the members are processed: a later success does not
overwrite the failure.  No outer-cache call is recorded. -/
theorem flush_all_data_smp_failure_sticks (l2x : outer_cache) (t m1 m2 m3 : target)
    (l : List target) (tr : Trace) (e : Int) (hsmp : t.smp ≠ 0)
    (hperm : l.Perm [m1, m2, m3])
    (h1 : m1.state = target_state.TARGET_HALTED)
    (h2 : m2.state = target_state.TARGET_HALTED)
    (h3 : m3.state = target_state.TARGET_HALTED)
    (hok1 : ∀ tr', (armv7a_l1_d_cache_clean_inval_all m1 tr').1 = ERROR_OK)
    (hfail2 : ∀ tr', (armv7a_l1_d_cache_clean_inval_all m2 tr').1 = e)
    (hok3 : ∀ tr', (armv7a_l1_d_cache_clean_inval_all m3 tr').1 = ERROR_OK)
    (he : e ≠ ERROR_OK) :
    (armv7a_cache_flush_all_data l2x t l tr).1 = e ∧
      Extends (fun ev => !ev.is_l2x) tr (armv7a_cache_flush_all_data l2x t l tr).2 := by
  have hr : (smp_flush_loop l ERROR_FAIL tr).1 = e := by
    apply smp_flush_loop_sticky e he
    · intro m hm _ tr'
      have hm' := (hperm.mem_iff).mp hm
      simp only [List.mem_cons, List.mem_singleton, List.not_mem_nil, or_false] at hm'
      rcases hm' with rfl | rfl | rfl
      · exact Or.inl (hok1 tr')
      · exact Or.inr (hfail2 tr')
      · exact Or.inl (hok3 tr')
    · exact Or.inr ⟨m2, (hperm.mem_iff).mpr (by simp), h2, hfail2⟩
  have hfl : armv7a_cache_flush_all_data l2x t l tr = smp_flush_loop l ERROR_FAIL tr := by
    simp only [armv7a_cache_flush_all_data, hsmp, ne_eq, not_false_eq_true, ↓reduceIte, hr, he]
  rw [hfl]
  refine ⟨hr, Extends.mono (smp_flush_loop_extends l ERROR_FAIL tr) ?_⟩
  intro ev hev
  simp [from_halted_member_not_l2x _ _ hev]

/-- C5, amended, on the order 3, 1, 2 of the members 1 and 3 (succeeding) and
2 (failing with -7). -/
theorem flush_all_data_smp_failure_sticks_witness :
    (armv7a_cache_flush_all_data ok_l2x (smp_ok_member 1)
      [smp_ok_member 3, smp_ok_member 1, smp_failing_member 2 (-7)] []).1 = -7 :=
  (flush_all_data_smp_failure_sticks ok_l2x (smp_ok_member 1) (smp_ok_member 1)
    (smp_failing_member 2 (-7)) (smp_ok_member 3)
    [smp_ok_member 3, smp_ok_member 1, smp_failing_member 2 (-7)] [] (-7) (by decide)
    ((List.Perm.swap _ _ _).trans (List.Perm.cons _ (List.Perm.swap _ _ _))) rfl rfl rfl
    (fun tr' => smp_ok_member_fst 1 tr')
    (fun tr' => smp_failing_member_fst 2 (-7) (by decide) tr')
    (fun tr' => smp_ok_member_fst 3 tr') (by decide)).1

/-! ## The sanity checks -/

theorem smp_flush_loop_none_halted :
    ∀ (l : List target) (retval : Int) (tr : Trace),
      (∀ m ∈ l, m.state ≠ target_state.TARGET_HALTED) →
      smp_flush_loop l retval tr = (retval, tr) := by
  intro l
  induction l with
  | nil => intro retval tr _; rfl
  | cons curr rest ih =>
    intro retval tr h
    unfold smp_flush_loop
    simp only [h curr (List.mem_cons_self _ _), ↓reduceIte]
    exact ih _ _ (fun m hm => h m (List.mem_cons_of_mem _ hm))

/-- C6 as stated fails: on a target that is not halted `armv7a_cache_flush_virt`
returns `ERROR_OK`, and the aggregate flush of an SMP group without a halted
member returns `ERROR_FAIL`; neither is `ERROR_TARGET_NOT_HALTED`. -/
theorem not_halted_flush_virt_returns_ok :
    running_target.state ≠ target_state.TARGET_HALTED ∧
      armv7a_cache_flush_virt ok_l2x 0 running_target 0x1000 32 [] =
        some (ERROR_OK, [Event.l2x_cache_flush_virt 0 0x1000 32]) ∧
      ERROR_OK ≠ ERROR_TARGET_NOT_HALTED ∧
      armv7a_cache_flush_all_data ok_l2x (smp_running_member 0)
        [smp_running_member 0, smp_running_member 1] [] = (ERROR_FAIL, []) ∧
      ERROR_FAIL ≠ ERROR_TARGET_NOT_HALTED := by
  refine ⟨by decide, by decide, by decide, by decide, by decide⟩

/-- C6, amended.  For a target that is not halted, the aggregate flush of a
single core, the four range operations of the L1 caches and the whole
instruction-cache invalidate return `ERROR_TARGET_NOT_HALTED` and record
nothing; `armv7a_cache_flush_virt` returns `ERROR_OK` and records only the
outer-cache range flush, so no `prepare`, write or `finish`; the aggregate flush
of an SMP group none of whose members is halted records nothing. -/
theorem not_halted_operations (l2x : outer_cache) (t : target) (members : List target)
    (fuel virt size : Nat) (tr : Trace) (h : t.state ≠ target_state.TARGET_HALTED) :
    (t.smp = 0 →
        armv7a_cache_flush_all_data l2x t members tr = (ERROR_TARGET_NOT_HALTED, tr)) ∧
      (t.smp ≠ 0 → (∀ m ∈ members, m.state ≠ target_state.TARGET_HALTED) →
        (armv7a_cache_flush_all_data l2x t members tr).2 = tr) ∧
      armv7a_l1_d_cache_inval_virt fuel t virt size tr = some (ERROR_TARGET_NOT_HALTED, tr) ∧
      armv7a_l1_d_cache_clean_virt fuel t virt size tr = some (ERROR_TARGET_NOT_HALTED, tr) ∧
      armv7a_l1_d_cache_flush_virt fuel t virt size tr = some (ERROR_TARGET_NOT_HALTED, tr) ∧
      armv7a_l1_i_cache_inval_all t tr = (ERROR_TARGET_NOT_HALTED, tr) ∧
      armv7a_l1_i_cache_inval_virt fuel t virt size tr = some (ERROR_TARGET_NOT_HALTED, tr) ∧
      armv7a_cache_flush_virt l2x fuel t virt size tr =
        some (ERROR_OK, tr ++ [Event.l2x_cache_flush_virt t.coreid virt size]) := by
  have hne : ERROR_TARGET_NOT_HALTED ≠ ERROR_OK := by decide
  have hfe : ERROR_FAIL ≠ ERROR_OK := by decide
  have hd : armv7a_l1_d_cache_sanity_check t = ERROR_TARGET_NOT_HALTED := by
    simp [armv7a_l1_d_cache_sanity_check, h]
  have hi : armv7a_l1_i_cache_sanity_check t = ERROR_TARGET_NOT_HALTED := by
    simp [armv7a_l1_i_cache_sanity_check, h]
  have hflush : armv7a_l1_d_cache_flush_virt fuel t virt size tr =
      some (ERROR_TARGET_NOT_HALTED, tr) := by
    simp [armv7a_l1_d_cache_flush_virt, range_op, hd, hne]
  refine ⟨?_, ?_, ?_, ?_, hflush, ?_, ?_, ?_⟩
  · intro hs
    simp [armv7a_cache_flush_all_data, hs, armv7a_l1_d_cache_clean_inval_all, hd, hne]
  · intro hs hm
    simp [armv7a_cache_flush_all_data, hs, smp_flush_loop_none_halted _ _ _ hm, hfe]
  · simp [armv7a_l1_d_cache_inval_virt, hd, hne]
  · simp [armv7a_l1_d_cache_clean_virt, range_op, hd, hne]
  · simp [armv7a_l1_i_cache_inval_all, hi, hne]
  · simp [armv7a_l1_i_cache_inval_virt, range_op, hi, hne]
  · simp [armv7a_cache_flush_virt, hflush]

/-- C6, amended, on a running single core. -/
theorem not_halted_operations_witness :
    armv7a_l1_d_cache_inval_virt 8 running_target 0x1004 32 [] =
        some (ERROR_TARGET_NOT_HALTED, []) ∧
      armv7a_cache_flush_virt ok_l2x 8 running_target 0x1004 32 [] =
        some (ERROR_OK, [Event.l2x_cache_flush_virt 0 0x1004 32]) :=
  ⟨(not_halted_operations ok_l2x running_target [] 8 0x1004 32 [] (by decide)).2.2.1,
   (not_halted_operations ok_l2x running_target [] 8 0x1004 32 [] (by decide)).2.2.2.2.2.2.2⟩

/-- C7. On a halted target whose relevant cache-enable flag is false, each of
the six L1 operations returns `ERROR_TARGET_INVALID` and leaves the trace as it
was (no `prepare`, no write, no `finish`), for every address and size:
`d_u_cache_enabled` decides for the four data-cache operations,
`i_cache_enabled` for the two instruction-cache operations. -/
theorem cache_disabled_operations (t : target) (fuel virt size : Nat) (tr : Trace)
    (hh : t.state = target_state.TARGET_HALTED) :
    (t.armv7a.armv7a_cache.d_u_cache_enabled = false →
        armv7a_l1_d_cache_clean_inval_all t tr = (ERROR_TARGET_INVALID, tr) ∧
        armv7a_l1_d_cache_inval_virt fuel t virt size tr = some (ERROR_TARGET_INVALID, tr) ∧
        armv7a_l1_d_cache_clean_virt fuel t virt size tr = some (ERROR_TARGET_INVALID, tr) ∧
        armv7a_l1_d_cache_flush_virt fuel t virt size tr = some (ERROR_TARGET_INVALID, tr)) ∧
      (t.armv7a.armv7a_cache.i_cache_enabled = false →
        armv7a_l1_i_cache_inval_all t tr = (ERROR_TARGET_INVALID, tr) ∧
        armv7a_l1_i_cache_inval_virt fuel t virt size tr = some (ERROR_TARGET_INVALID, tr)) := by
  have hne : ERROR_TARGET_INVALID ≠ ERROR_OK := by decide
  constructor
  · intro hd
    have hs : armv7a_l1_d_cache_sanity_check t = ERROR_TARGET_INVALID := by
      simp [armv7a_l1_d_cache_sanity_check, hh, hd]
    refine ⟨?_, ?_, ?_, ?_⟩
    · simp [armv7a_l1_d_cache_clean_inval_all, hs, hne]
    · simp [armv7a_l1_d_cache_inval_virt, hs, hne]
    · simp [armv7a_l1_d_cache_clean_virt, range_op, hs, hne]
    · simp [armv7a_l1_d_cache_flush_virt, range_op, hs, hne]
  · intro hi
    have hs : armv7a_l1_i_cache_sanity_check t = ERROR_TARGET_INVALID := by
      simp [armv7a_l1_i_cache_sanity_check, hh, hi]
    refine ⟨?_, ?_⟩
    · simp [armv7a_l1_i_cache_inval_all, hs, hne]
    · simp [armv7a_l1_i_cache_inval_virt, range_op, hs, hne]

/-- C7 on a halted core with both caches disabled. -/
theorem cache_disabled_operations_witness :
    armv7a_l1_d_cache_clean_inval_all disabled_target [] = (ERROR_TARGET_INVALID, []) ∧
      armv7a_l1_d_cache_inval_virt 8 disabled_target 0x1004 32 [] =
        some (ERROR_TARGET_INVALID, []) ∧
      armv7a_l1_i_cache_inval_virt 8 disabled_target 0x1004 32 [] =
        some (ERROR_TARGET_INVALID, []) :=
  ⟨((cache_disabled_operations disabled_target 8 0x1004 32 [] rfl).1 rfl).1,
   ((cache_disabled_operations disabled_target 8 0x1004 32 [] rfl).1 rfl).2.1,
   ((cache_disabled_operations disabled_target 8 0x1004 32 [] rfl).2 rfl).2⟩

/-! ## Line alignment and the loop of the range operations -/

theorem neg32_two_pow (k : Nat) (hk : k < 32) : neg32 (2 ^ k) = 2 ^ k * (2 ^ (32 - k) - 1) := by
  have h1 : 2 ^ k < 2 ^ 32 := Nat.pow_lt_pow_right (by norm_num) hk
  have h2 : 0 < 2 ^ k := Nat.pow_pos (by norm_num)
  have h3 : 2 ^ 32 = 2 ^ k * 2 ^ (32 - k) := by
    rw [← Nat.pow_add]; congr 1; omega
  unfold neg32
  rw [Nat.mod_eq_of_lt h1, Nat.mod_eq_of_lt (by omega), Nat.mul_sub, Nat.mul_one, ← h3]

theorem land_neg32 (k : Nat) (hk : k < 32) (x : Nat) (hx : x < 2 ^ 32) :
    x &&& neg32 (2 ^ k) = x - x % 2 ^ k := by
  have hdiv : x - x % 2 ^ k = 2 ^ k * (x / 2 ^ k) := by
    have := Nat.div_add_mod x (2 ^ k)
    omega
  rw [neg32_two_pow k hk, hdiv]
  apply Nat.eq_of_testBit_eq
  intro j
  rw [Nat.testBit_and, Nat.testBit_mul_pow_two, Nat.testBit_mul_pow_two,
    Nat.testBit_two_pow_sub_one, ← Nat.shiftRight_eq_div_pow, Nat.testBit_shiftRight]
  by_cases hj : k ≤ j
  · have e : k + (j - k) = j := by omega
    rw [e]
    by_cases hj2 : j < 32
    · have : j - k < 32 - k := by omega
      simp [hj, this]
    · have hxj : x.testBit j = false := by
        apply Nat.testBit_eq_false_of_lt
        exact lt_of_lt_of_le hx (Nat.pow_le_pow_right (by norm_num) (by omega))
      simp [hxj]
  · simp [hj]

theorem land_pred32 (k : Nat) (hk : k < 32) (x : Nat) : x &&& pred32 (2 ^ k) = x % 2 ^ k := by
  have h1 : 2 ^ k < 2 ^ 32 := Nat.pow_lt_pow_right (by norm_num) hk
  have h2 : 0 < 2 ^ k := Nat.pow_pos (by norm_num)
  have : pred32 (2 ^ k) = 2 ^ k - 1 := by
    unfold pred32
    rw [Nat.mod_eq_of_lt h1]
    have : 2 ^ k + (2 ^ 32 - 1) = (2 ^ k - 1) + 2 ^ 32 := by omega
    rw [this, Nat.add_mod_right, Nat.mod_eq_of_lt (by omega)]
  rw [this, Nat.and_pow_two_sub_one_eq_mod]

theorem line_writes_ok (dpm : arm_dpm)
    (hw : ∀ tr op v, dpm.instr_write_data_r0 tr op v = ERROR_OK) (va : Nat) :
    ∀ (ops : List Opcode) (tr : Trace),
      line_writes dpm ops va tr =
        (ERROR_OK, tr ++ ops.map (fun op => Event.instr_write_data_r0 dpm.coreid op va)) := by
  intro ops
  induction ops with
  | nil => intro tr; simp [line_writes]
  | cons op ops ih =>
    intro tr
    simp only [line_writes, hw, ne_eq, not_true_eq_false, ↓reduceIte, ih, List.map_cons,
      List.append_assoc, List.singleton_append]

theorem writes_of_map_write (c va : Nat) (ops : List Opcode) :
    writes_of (ops.map (fun op => Event.instr_write_data_r0 c op va)) =
      ops.map (fun op => (c, op, va)) := by
  induction ops with
  | nil => rfl
  | cons op ops ih =>
    rw [List.map_cons, List.map_cons, ← List.singleton_append, writes_of_append, ih,
      writes_of_write]
    rfl

/-- The loop of a range operation when every write succeeds: if the `n` line
addresses `va_line, va_line + linelen, ...` (modulo `2 ^ 32`) are below `va_end`
and the next one is not, the loop ends after `n` iterations with `ERROR_OK`,
having written `ops` at each of these lines in turn. -/
theorem range_loop_ok (dpm : arm_dpm)
    (hw : ∀ tr op v, dpm.instr_write_data_r0 tr op v = ERROR_OK) (ops : List Opcode)
    (linelen va_end : Nat) :
    ∀ (n fuel va_line i : Nat) (tr : Trace), n < fuel → va_line < 2 ^ 32 →
      (∀ j, j < n → (va_line + j * linelen) % 2 ^ 32 < va_end) →
      ¬ ((va_line + n * linelen) % 2 ^ 32 < va_end) →
      ∃ tr', range_loop dpm ops linelen va_end fuel va_line i ERROR_OK tr
            = some (ERROR_OK, tr') ∧
        writes_of tr' = writes_of tr ++ (List.range n).flatMap (fun j =>
          ops.map (fun op => (dpm.coreid, op, (va_line + j * linelen) % 2 ^ 32))) ∧
        Extends (Event.from_core dpm.coreid) tr tr' := by
  intro n
  induction n with
  | zero =>
    intro fuel va_line i tr hf hva _ hstop
    obtain ⟨f, rfl⟩ : ∃ f, fuel = f + 1 := ⟨fuel - 1, by omega⟩
    rw [Nat.zero_mul, Nat.add_zero, Nat.mod_eq_of_lt hva] at hstop
    refine ⟨tr, ?_, by simp, Extends.refl _ _⟩
    simp only [range_loop, hstop, ↓reduceIte]
  | succ n ih =>
    intro fuel va_line i tr hf hva hlt hstop
    obtain ⟨f, rfl⟩ : ∃ f, fuel = f + 1 := ⟨fuel - 1, by omega⟩
    have h0 : va_line < va_end := by
      have := hlt 0 (by omega)
      rwa [Nat.zero_mul, Nat.add_zero, Nat.mod_eq_of_lt hva] at this
    have hshift : ∀ j, ((va_line + linelen) % 2 ^ 32 + j * linelen) % 2 ^ 32 =
        (va_line + (j + 1) * linelen) % 2 ^ 32 := by
      intro j
      rw [Nat.mod_add_mod]
      congr 1
      ring
    obtain ⟨tr', hrun, hwr, hext⟩ := ih f ((va_line + linelen) % 2 ^ 32) (i + 1)
      ((if i &&& 0x3f = 0 then tr ++ [Event.keep_alive] else tr) ++
        ops.map (fun op => Event.instr_write_data_r0 dpm.coreid op va_line))
      (by omega) (Nat.mod_lt _ (by norm_num))
      (fun j hj => by rw [hshift]; exact hlt (j + 1) (by omega))
      (by rw [hshift]; exact hstop)
    refine ⟨tr', ?_, ?_, ?_⟩
    · simp only [range_loop, h0, ↓reduceIte, line_writes_ok dpm hw, ne_eq, not_true_eq_false]
      exact hrun
    · rw [hwr, writes_of_append, writes_of_map_write, List.range_succ_eq_map,
        List.flatMap_cons, List.flatMap_map]
      have hka : writes_of (if i &&& 0x3f = 0 then tr ++ [Event.keep_alive] else tr) =
          writes_of tr := by
        split
        · rw [writes_of_append, writes_of_keep_alive, List.append_nil]
        · rfl
      rw [hka, Nat.zero_mul, Nat.add_zero, Nat.mod_eq_of_lt hva, List.append_assoc]
      congr 2
      apply List.flatMap_congr
      intro j _
      simp only [List.map_inj_left, Nat.succ_eq_add_one]
      intro op _
      rw [hshift]
    · refine Extends.trans ?_ hext
      refine Extends.trans (b := if i &&& 0x3f = 0 then tr ++ [Event.keep_alive] else tr) ?_
        ⟨_, rfl, ?_⟩
      · split
        · exact Extends.snoc (Extends.refl _ _) _ (by simp [Event.from_core])
        · exact Extends.refl _ _
      · intro e he
        obtain ⟨op, _, rfl⟩ := List.mem_map.mp he
        simp [Event.from_core]

/-! ## The range operations -/

theorem range_op_ok_eq (check : target → Int) (linelen : Nat) (ops : List Opcode)
    (fuel : Nat) (t : target) (virt size : Nat) (tr : Trace)
    (hcheck : check t = ERROR_OK) (hprep : t.armv7a.dpm.prepare tr = ERROR_OK) :
    range_op check linelen ops fuel t virt size tr =
      (range_loop t.armv7a.dpm ops linelen ((virt + size) % 2 ^ 32) fuel
        (virt &&& neg32 linelen) 0 ERROR_OK
        (tr ++ [Event.prepare t.armv7a.dpm.coreid])).map (range_exit t.armv7a.dpm) := by
  unfold range_op
  simp only [hcheck, hprep, ne_eq, not_true_eq_false, ↓reduceIte]

theorem d_sanity_check_ok (t : target) (hhalt : t.state = target_state.TARGET_HALTED)
    (hen : t.armv7a.armv7a_cache.d_u_cache_enabled = true) :
    armv7a_l1_d_cache_sanity_check t = ERROR_OK := by
  simp [armv7a_l1_d_cache_sanity_check, hhalt, hen]

theorem writes_of_range_exit (dpm : arm_dpm) (r : Int × Trace) :
    writes_of (range_exit dpm r).2 = writes_of r.2 := by
  unfold range_exit
  rw [show [Event.keep_alive, Event.finish dpm.coreid] =
    [Event.keep_alive] ++ [Event.finish dpm.coreid] from rfl]
  simp only [writes_of_append, writes_of_keep_alive, writes_of_finish, List.append_nil]

theorem flatMap_single {α β : Type} (l : List α) (f : α → β) :
    l.flatMap (fun j => [f j]) = l.map f := by
  induction l with
  | nil => rfl
  | cons a l ih => rw [List.flatMap_cons, ih]; rfl

/-- The number of lines `va_line, va_line + linelen, ...` below `va_end`. -/
theorem lines_below (va_line va_end linelen j : Nat) (hl : 0 < linelen) :
    j < (va_end - va_line + linelen - 1) / linelen ↔ va_line + j * linelen < va_end := by
  rw [Nat.lt_iff_add_one_le, Nat.le_div_iff_mul_le hl]
  have : (j + 1) * linelen = j * linelen + linelen := by ring
  omega

theorem inval_virt_ok_eq (fuel : Nat) (t : target) (virt size : Nat) (tr : Trace)
    (hhalt : t.state = target_state.TARGET_HALTED)
    (hen : t.armv7a.armv7a_cache.d_u_cache_enabled = true)
    (hprep : t.armv7a.dpm.prepare tr = ERROR_OK)
    (hw : ∀ tr' op v, t.armv7a.dpm.instr_write_data_r0 tr' op v = ERROR_OK) :
    armv7a_l1_d_cache_inval_virt fuel t virt size tr =
      (range_loop t.armv7a.dpm [DCIMVAC] t.armv7a.armv7a_cache.dminline
        (if (virt + size) % 2 ^ 32 &&& pred32 t.armv7a.armv7a_cache.dminline ≠ 0
          then (virt + size) % 2 ^ 32 &&& neg32 t.armv7a.armv7a_cache.dminline
          else (virt + size) % 2 ^ 32)
        fuel
        (if virt ≠ virt &&& neg32 t.armv7a.armv7a_cache.dminline
          then ((virt &&& neg32 t.armv7a.armv7a_cache.dminline) +
            t.armv7a.armv7a_cache.dminline) % 2 ^ 32
          else virt &&& neg32 t.armv7a.armv7a_cache.dminline)
        0 ERROR_OK
        (tr ++ [Event.prepare t.armv7a.dpm.coreid] ++
          (if virt ≠ virt &&& neg32 t.armv7a.armv7a_cache.dminline
            then [Event.instr_write_data_r0 t.armv7a.dpm.coreid DCCIMVAC
              (virt &&& neg32 t.armv7a.armv7a_cache.dminline)]
            else []) ++
          (if (virt + size) % 2 ^ 32 &&& pred32 t.armv7a.armv7a_cache.dminline ≠ 0
            then [Event.instr_write_data_r0 t.armv7a.dpm.coreid DCCIMVAC
              ((virt + size) % 2 ^ 32 &&& neg32 t.armv7a.armv7a_cache.dminline)]
            else []))).map (range_exit t.armv7a.dpm) := by
  unfold armv7a_l1_d_cache_inval_virt inval_virt_end
  simp only [d_sanity_check_ok t hhalt hen, hprep, hw, ne_eq, not_true_eq_false, ↓reduceIte]
  split_ifs <;> simp only [List.append_nil, List.append_assoc]

theorem aligned_lines_below (L q1 q2 j : Nat) (hL : 0 < L) :
    j < (L * q2 - L * q1) / L ↔ L * q1 + j * L < L * q2 := by
  rw [← Nat.mul_sub, Nat.mul_div_cancel_left _ hL]
  have e : L * q1 + j * L = L * (q1 + j) := by ring
  rw [e, Nat.mul_lt_mul_left hL]
  omega

theorem align_down_eq (x L : Nat) : x - x % L = L * (x / L) := by
  have := Nat.div_add_mod x L
  omega

/-- C9, the code at a failing input: `virt = 0xFFFFFFF4`, `size = 4` (so
`virt + size <= 2^32`) and 16-byte lines.  After the boundary op at
`0xFFFFFFF0` the line address wraps to 0 and the main loop plain-invalidates
every line from address 0 up to `0xFFFFFFF0`, all of them outside
`[virt, virt + size)`. -/
theorem inval_virt_wraps_past_last_line :
    ∃ tr', armv7a_l1_d_cache_inval_virt (2 ^ 28) demo_target 0xFFFFFFF4 4 []
          = some (ERROR_OK, tr') ∧
      writes_of tr' =
        (0, DCCIMVAC, 0xFFFFFFF0) :: (0, DCCIMVAC, 0xFFFFFFF0) ::
          (List.range (2 ^ 28 - 1)).map (fun j => (0, DCIMVAC, j * 16)) ∧
      (0, DCIMVAC, 0) ∈ writes_of tr' ∧
      0xFFFFFFF4 + 4 ≤ 2 ^ 32 ∧ ¬ (0xFFFFFFF4 ≤ 0) := by
  have hform : armv7a_l1_d_cache_inval_virt (2 ^ 28) demo_target 0xFFFFFFF4 4 [] =
      (range_loop (ok_dpm 0) [DCIMVAC] 16 0xFFFFFFF0 (2 ^ 28) 0 0 ERROR_OK
        [Event.prepare 0, Event.instr_write_data_r0 0 DCCIMVAC 0xFFFFFFF0,
          Event.instr_write_data_r0 0 DCCIMVAC 0xFFFFFFF0]).map (range_exit (ok_dpm 0)) := by
    rw [inval_virt_ok_eq (2 ^ 28) demo_target 0xFFFFFFF4 4 [] rfl rfl rfl (fun _ _ _ => rfl)]
    rfl
  obtain ⟨tr', hrun, hwr, _⟩ := range_loop_ok (ok_dpm 0) (fun _ _ _ => rfl) [DCIMVAC] 16
    0xFFFFFFF0 (2 ^ 28 - 1) (2 ^ 28) 0 0
    [Event.prepare 0, Event.instr_write_data_r0 0 DCCIMVAC 0xFFFFFFF0,
      Event.instr_write_data_r0 0 DCCIMVAC 0xFFFFFFF0]
    (by norm_num) (by norm_num) (by intro j hj; omega) (by norm_num)
  have hwrites : writes_of (range_exit (ok_dpm 0) (ERROR_OK, tr')).2 =
      (0, DCCIMVAC, 0xFFFFFFF0) :: (0, DCCIMVAC, 0xFFFFFFF0) ::
        (List.range (2 ^ 28 - 1)).map (fun j => (0, DCIMVAC, j * 16)) := by
    rw [writes_of_range_exit, hwr]
    simp only [List.map_cons, List.map_nil]
    rw [flatMap_single]
    have hmap : (List.range (2 ^ 28 - 1)).map
        (fun j => ((ok_dpm 0).coreid, DCIMVAC, (0 + j * 16) % 2 ^ 32)) =
        (List.range (2 ^ 28 - 1)).map (fun j => (0, DCIMVAC, j * 16)) := by
      apply List.map_congr_left
      intro j hj
      have h1 := List.mem_range.mp hj
      rw [Nat.zero_add, Nat.mod_eq_of_lt (by omega)]
      rfl
    rw [hmap]
    rfl
  refine ⟨(range_exit (ok_dpm 0) (ERROR_OK, tr')).2, ?_, hwrites, ?_, by norm_num, by norm_num⟩
  · rw [hform, hrun]
    rfl
  · rw [hwrites]
    refine List.mem_cons_of_mem _ (List.mem_cons_of_mem _ ?_)
    exact List.mem_map.mpr ⟨0, List.mem_range.mpr (by norm_num), rfl⟩

theorem i_sanity_check_ok (t : target) (hhalt : t.state = target_state.TARGET_HALTED)
    (hen : t.armv7a.armv7a_cache.i_cache_enabled = true) :
    armv7a_l1_i_cache_sanity_check t = ERROR_OK := by
  simp [armv7a_l1_i_cache_sanity_check, hhalt, hen]

theorem land_0x3f (i : Nat) : i &&& 0x3f = i % 64 :=
  Nat.and_pow_two_sub_one_eq_mod i 6

theorem expected_loop_trace_succ (c : Nat) (ops : List Opcode) (linelen va_line i n : Nat)
    (hva : va_line < 2 ^ 32) :
    expected_loop_trace c ops linelen va_line i (n + 1) =
      ((if i % 64 = 0 then [Event.keep_alive] else []) ++
        ops.map (fun op => Event.instr_write_data_r0 c op va_line)) ++
      expected_loop_trace c ops linelen ((va_line + linelen) % 2 ^ 32) (i + 1) n := by
  unfold expected_loop_trace
  rw [List.range_succ_eq_map, List.flatMap_cons, List.flatMap_map]
  simp only [Nat.add_zero, Nat.zero_mul, Nat.mod_eq_of_lt hva]
  congr 1
  apply List.flatMap_congr
  intro j _
  have e1 : i + Nat.succ j = i + 1 + j := by omega
  have e2 : (va_line + Nat.succ j * linelen) % 2 ^ 32 =
      ((va_line + linelen) % 2 ^ 32 + j * linelen) % 2 ^ 32 := by
    rw [Nat.mod_add_mod]
    congr 1
    rw [Nat.succ_mul]
    omega
  simp only [Function.comp, e1, e2]

/-- The loop of a range operation when every write succeeds and the loop ends
after `n` iterations: the exact calls it records. -/
theorem range_loop_ok_trace (dpm : arm_dpm)
    (hw : ∀ tr op v, dpm.instr_write_data_r0 tr op v = ERROR_OK) (ops : List Opcode)
    (linelen va_end : Nat) :
    ∀ (n fuel va_line i : Nat) (tr : Trace), n < fuel → va_line < 2 ^ 32 →
      (∀ j, j < n → (va_line + j * linelen) % 2 ^ 32 < va_end) →
      ¬ ((va_line + n * linelen) % 2 ^ 32 < va_end) →
      range_loop dpm ops linelen va_end fuel va_line i ERROR_OK tr =
        some (ERROR_OK, tr ++ expected_loop_trace dpm.coreid ops linelen va_line i n) := by
  intro n
  induction n with
  | zero =>
    intro fuel va_line i tr hf hva _ hstop
    obtain ⟨f, rfl⟩ : ∃ f, fuel = f + 1 := ⟨fuel - 1, by omega⟩
    rw [Nat.zero_mul, Nat.add_zero, Nat.mod_eq_of_lt hva] at hstop
    simp only [range_loop, hstop, ↓reduceIte, expected_loop_trace, List.range_zero,
      List.flatMap_nil, List.append_nil]
  | succ n ih =>
    intro fuel va_line i tr hf hva hlt hstop
    obtain ⟨f, rfl⟩ : ∃ f, fuel = f + 1 := ⟨fuel - 1, by omega⟩
    have h0 : va_line < va_end := by
      have := hlt 0 (by omega)
      rwa [Nat.zero_mul, Nat.add_zero, Nat.mod_eq_of_lt hva] at this
    have hshift : ∀ j, ((va_line + linelen) % 2 ^ 32 + j * linelen) % 2 ^ 32 =
        (va_line + (j + 1) * linelen) % 2 ^ 32 := by
      intro j
      rw [Nat.mod_add_mod]
      congr 1
      ring
    have hrec := ih f ((va_line + linelen) % 2 ^ 32) (i + 1)
      ((if i &&& 0x3f = 0 then tr ++ [Event.keep_alive] else tr) ++
        ops.map (fun op => Event.instr_write_data_r0 dpm.coreid op va_line))
      (by omega) (Nat.mod_lt _ (by norm_num))
      (fun j hj => by rw [hshift]; exact hlt (j + 1) (by omega))
      (by rw [hshift]; exact hstop)
    simp only [range_loop, h0, ↓reduceIte, line_writes_ok dpm hw, ne_eq, not_true_eq_false]
    rw [hrec, expected_loop_trace_succ _ _ _ _ _ _ hva, land_0x3f]
    congr 2
    split <;> simp only [List.append_assoc, List.nil_append]

theorem writes_of_expected_loop_trace (c : Nat) (ops : List Opcode) (linelen va_line i : Nat) :
    ∀ n, writes_of (expected_loop_trace c ops linelen va_line i n) =
      (List.range n).flatMap (fun j =>
        ops.map (fun op => (c, op, (va_line + j * linelen) % 2 ^ 32))) := by
  intro n
  induction n with
  | zero => rfl
  | succ n ih =>
    unfold expected_loop_trace at ih ⊢
    rw [List.range_succ, List.flatMap_append, List.flatMap_append, writes_of_append, ih]
    congr 1
    simp only [List.flatMap_cons, List.flatMap_nil, List.append_nil, writes_of_append,
      writes_of_map_write]
    split
    · rw [writes_of_keep_alive, List.nil_append]
    · rfl

/-- The lines of a range that does not reach the last line of the address
space: with `n` the number of lines from `align_down(virt)` below `virt + size`,
the first `n` line addresses are below the end, the next one is not, and none
of them wraps. -/
theorem nowrap_lines (virt size k : Nat) (hk : k < 32)
    (hrange : virt + size ≤ 2 ^ 32 - 2 ^ k) :
    (virt - virt % 2 ^ k < 2 ^ 32) ∧
    (∀ j, j < (virt + size - (virt - virt % 2 ^ k) + 2 ^ k - 1) / 2 ^ k →
      (virt - virt % 2 ^ k + j * 2 ^ k) % 2 ^ 32 < (virt + size) % 2 ^ 32) ∧
    ¬ ((virt - virt % 2 ^ k +
        ((virt + size - (virt - virt % 2 ^ k) + 2 ^ k - 1) / 2 ^ k) * 2 ^ k) % 2 ^ 32
      < (virt + size) % 2 ^ 32) ∧
    (∀ j, j ≤ (virt + size - (virt - virt % 2 ^ k) + 2 ^ k - 1) / 2 ^ k →
      virt - virt % 2 ^ k + j * 2 ^ k < 2 ^ 32) := by
  have hL : 0 < 2 ^ k := Nat.pow_pos (by norm_num)
  have hL32 : 2 ^ k < 2 ^ 32 := Nat.pow_lt_pow_right (by norm_num) hk
  have hmod : virt % 2 ^ k ≤ virt := Nat.mod_le _ _
  have hlines := lines_below (virt - virt % 2 ^ k) (virt + size) (2 ^ k)
  generalize (virt + size - (virt - virt % 2 ^ k) + 2 ^ k - 1) / 2 ^ k = n at *
  have hbelow : ∀ j, j < n → (virt - virt % 2 ^ k) + j * 2 ^ k < virt + size :=
    fun j hj => (hlines j hL).mp hj
  have hnot : ¬ ((virt - virt % 2 ^ k) + n * 2 ^ k < virt + size) :=
    fun h => Nat.lt_irrefl n ((hlines n hL).mpr h)
  have hbound : ∀ j, j ≤ n → (virt - virt % 2 ^ k) + j * 2 ^ k < 2 ^ 32 := by
    intro j hj
    rcases Nat.eq_zero_or_pos j with h0 | hpos
    · subst h0; omega
    · have := hbelow (j - 1) (by omega)
      have e : j * 2 ^ k = (j - 1) * 2 ^ k + 2 ^ k := by
        conv_lhs => rw [show j = (j - 1) + 1 by omega]
        ring
      omega
  have hE : (virt + size) % 2 ^ 32 = virt + size := Nat.mod_eq_of_lt (by omega)
  refine ⟨by omega, ?_, ?_, hbound⟩
  · intro j hj
    rw [hE, Nat.mod_eq_of_lt (hbound j (by omega))]
    exact hbelow j hj
  · rw [hE, Nat.mod_eq_of_lt (hbound n (Nat.le_refl _))]
    exact hnot

/-- A range operation of the common shape when the checks pass, every write
succeeds and the range does not reach the last line of the address space: it
ends with `ERROR_OK` and records `prepare`, the loop over the lines,
`keep_alive` and `finish`. -/
theorem range_op_ok_trace (check : target → Int) (ops : List Opcode) (fuel : Nat)
    (t : target) (virt size k : Nat) (tr : Trace)
    (hcheck : check t = ERROR_OK) (hprep : t.armv7a.dpm.prepare tr = ERROR_OK)
    (hw : ∀ tr' op v, t.armv7a.dpm.instr_write_data_r0 tr' op v = ERROR_OK)
    (hk : k < 32) (hrange : virt + size ≤ 2 ^ 32 - 2 ^ k)
    (hfuel : (virt + size - (virt - virt % 2 ^ k) + 2 ^ k - 1) / 2 ^ k < fuel) :
    range_op check (2 ^ k) ops fuel t virt size tr =
      some (ERROR_OK, tr ++ [Event.prepare t.armv7a.dpm.coreid] ++
        expected_loop_trace t.armv7a.dpm.coreid ops (2 ^ k) (virt - virt % 2 ^ k) 0
          ((virt + size - (virt - virt % 2 ^ k) + 2 ^ k - 1) / 2 ^ k) ++
        [Event.keep_alive, Event.finish t.armv7a.dpm.coreid]) := by
  obtain ⟨h1, h2, h3, _⟩ := nowrap_lines virt size k hk hrange
  have hvirt : virt < 2 ^ 32 := by
    have : 0 < 2 ^ k := Nat.pow_pos (by norm_num)
    omega
  rw [range_op_ok_eq _ _ _ _ _ _ _ _ hcheck hprep, land_neg32 k hk virt hvirt,
    range_loop_ok_trace t.armv7a.dpm hw ops (2 ^ k) _ _ fuel _ 0 _ hfuel h1 h2 h3]
  rfl

/-- The writes of a loop whose lines do not wrap. -/
theorem writes_of_expected_loop_trace_nowrap (c : Nat) (ops : List Opcode)
    (linelen va_line i n : Nat) (hb : ∀ j, j ≤ n → va_line + j * linelen < 2 ^ 32) :
    writes_of (expected_loop_trace c ops linelen va_line i n) =
      (List.range n).flatMap (fun j => ops.map (fun op => (c, op, va_line + j * linelen))) := by
  rw [writes_of_expected_loop_trace]
  apply List.flatMap_congr
  intro j hj
  rw [Nat.mod_eq_of_lt (hb j (Nat.le_of_lt (List.mem_range.mp hj)))]

/-- C11. For a line-aligned `virt` (power-of-two line length) and `size = 0`, on a
halted target with the relevant cache enabled and `prepare` succeeding, each of
the four range operations returns `ERROR_OK` and records exactly `prepare`,
`keep_alive`, `finish`: one `prepare`, one `finish`, no maintenance write. -/
theorem empty_range_operations (t : target) (virt fuel : Nat) (tr : Trace)
    (hhalt : t.state = target_state.TARGET_HALTED)
    (hprep : t.armv7a.dpm.prepare tr = ERROR_OK)
    (hvirt : virt < 2 ^ 32) (hfuel : 0 < fuel) :
    (∀ k, k < 32 → t.armv7a.armv7a_cache.d_u_cache_enabled = true →
        t.armv7a.armv7a_cache.dminline = 2 ^ k → virt % 2 ^ k = 0 →
        armv7a_l1_d_cache_inval_virt fuel t virt 0 tr =
          some (ERROR_OK, tr ++ [Event.prepare t.armv7a.dpm.coreid, Event.keep_alive,
            Event.finish t.armv7a.dpm.coreid]) ∧
        armv7a_l1_d_cache_clean_virt fuel t virt 0 tr =
          some (ERROR_OK, tr ++ [Event.prepare t.armv7a.dpm.coreid, Event.keep_alive,
            Event.finish t.armv7a.dpm.coreid]) ∧
        armv7a_l1_d_cache_flush_virt fuel t virt 0 tr =
          some (ERROR_OK, tr ++ [Event.prepare t.armv7a.dpm.coreid, Event.keep_alive,
            Event.finish t.armv7a.dpm.coreid])) ∧
      (∀ k, k < 32 → t.armv7a.armv7a_cache.i_cache_enabled = true →
        t.armv7a.armv7a_cache.iminline = 2 ^ k → virt % 2 ^ k = 0 →
        armv7a_l1_i_cache_inval_virt fuel t virt 0 tr =
          some (ERROR_OK, tr ++ [Event.prepare t.armv7a.dpm.coreid, Event.keep_alive,
            Event.finish t.armv7a.dpm.coreid])) := by
  obtain ⟨f, rfl⟩ : ∃ f, fuel = f + 1 := ⟨fuel - 1, by omega⟩
  have hloop : ∀ (ops : List Opcode) (L : Nat) (tr1 : Trace),
      range_loop t.armv7a.dpm ops L virt (f + 1) virt 0 ERROR_OK tr1 = some (ERROR_OK, tr1) := by
    intro ops L tr1
    simp only [range_loop, Nat.lt_irrefl, ↓reduceIte]
  have hop : ∀ (check : target → Int) (ops : List Opcode) (k : Nat), k < 32 →
      check t = ERROR_OK → virt % 2 ^ k = 0 →
      range_op check (2 ^ k) ops (f + 1) t virt 0 tr =
        some (ERROR_OK, tr ++ [Event.prepare t.armv7a.dpm.coreid, Event.keep_alive,
          Event.finish t.armv7a.dpm.coreid]) := by
    intro check ops k hk hc hal
    rw [range_op_ok_eq _ _ _ _ _ _ _ _ hc hprep, land_neg32 k hk virt hvirt, hal, Nat.sub_zero,
      Nat.add_zero, Nat.mod_eq_of_lt hvirt, hloop]
    simp [range_exit]
  constructor
  · intro k hk hen hlen hal
    refine ⟨?_, ?_, ?_⟩
    · unfold armv7a_l1_d_cache_inval_virt inval_virt_end
      simp only [d_sanity_check_ok t hhalt hen, hprep, hlen, ne_eq, not_true_eq_false,
        ↓reduceIte, land_neg32 k hk virt hvirt, land_pred32 k hk, hal, Nat.sub_zero,
        Nat.add_zero, Nat.mod_eq_of_lt hvirt, hloop]
      simp [range_exit]
    · unfold armv7a_l1_d_cache_clean_virt
      rw [hlen]
      exact hop _ _ k hk (d_sanity_check_ok t hhalt hen) hal
    · unfold armv7a_l1_d_cache_flush_virt
      rw [hlen]
      exact hop _ _ k hk (d_sanity_check_ok t hhalt hen) hal
  · intro k hk hen hlen hal
    unfold armv7a_l1_i_cache_inval_virt
    rw [hlen]
    exact hop _ _ k hk (i_sanity_check_ok t hhalt hen) hal

/-- C11 on `virt = 0x2000` with 16-byte lines. -/
theorem empty_range_operations_witness :
    armv7a_l1_d_cache_inval_virt 1 demo_target 0x2000 0 [] =
        some (ERROR_OK, [Event.prepare 0, Event.keep_alive, Event.finish 0]) ∧
      armv7a_l1_i_cache_inval_virt 1 demo_target 0x2000 0 [] =
        some (ERROR_OK, [Event.prepare 0, Event.keep_alive, Event.finish 0]) :=
  ⟨((empty_range_operations demo_target 0x2000 1 [] rfl rfl (by decide) (by decide)).1 4
      (by decide) rfl rfl (by decide)).1,
   (empty_range_operations demo_target 0x2000 1 [] rfl rfl (by decide) (by decide)).2 4
      (by decide) rfl rfl (by decide)⟩

theorem two_pow_dvd_two_pow_32 (k : Nat) (hk : k < 32) : 2 ^ k ∣ 2 ^ 32 :=
  Nat.pow_dvd_pow 2 (by omega)

/-- A multiple of the line length below `2 ^ 32` is at most `2 ^ 32 - linelen`. -/
theorem aligned_le_last_line (k : Nat) (hk : k < 32) (x : Nat) (hx : x < 2 ^ 32)
    (hal : x % 2 ^ k = 0) : x ≤ 2 ^ 32 - 2 ^ k := by
  have hL : 0 < 2 ^ k := Nat.pow_pos (by norm_num)
  have h32 : 2 ^ 32 = 2 ^ k * 2 ^ (32 - k) := by
    rw [← Nat.pow_add]; congr 1; omega
  obtain ⟨q, rfl⟩ := Nat.dvd_of_mod_eq_zero hal
  rw [h32] at hx ⊢
  have hq : q < 2 ^ (32 - k) := Nat.lt_of_mul_lt_mul_left hx
  have : 2 ^ k * (q + 1) ≤ 2 ^ k * 2 ^ (32 - k) := Nat.mul_le_mul_left _ hq
  rw [Nat.mul_add, Nat.mul_one] at this
  omega

/-- When every write succeeds and the end of the range lies inside the last
line of the address space without being its start, the loop of a range
operation never ends: every line address is below the end, and the address
after the last line wraps to 0. -/
theorem range_loop_diverges (dpm : arm_dpm)
    (hw : ∀ tr op v, dpm.instr_write_data_r0 tr op v = ERROR_OK) (ops : List Opcode)
    (k : Nat) (hk : k < 32) (va_end : Nat) (hend : 2 ^ 32 - 2 ^ k < va_end) :
    ∀ (fuel va_line i : Nat) (retval : Int) (tr : Trace), va_line % 2 ^ k = 0 →
      va_line < 2 ^ 32 →
      range_loop dpm ops (2 ^ k) va_end fuel va_line i retval tr = none := by
  intro fuel
  induction fuel with
  | zero => intro va_line i retval tr _ _; rfl
  | succ f ih =>
    intro va_line i retval tr hal hva
    have h0 : va_line < va_end :=
      Nat.lt_of_le_of_lt (aligned_le_last_line k hk va_line hva hal) hend
    simp only [range_loop, h0, ↓reduceIte, line_writes_ok dpm hw, ne_eq, not_true_eq_false]
    apply ih
    · rw [Nat.mod_mod_of_dvd _ (two_pow_dvd_two_pow_32 k hk), Nat.add_mod_right]
      exact hal
    · exact Nat.mod_lt _ (by norm_num)

theorem range_op_diverges (check : target → Int) (ops : List Opcode) (t : target)
    (virt size k : Nat) (tr : Trace)
    (hcheck : check t = ERROR_OK) (hprep : t.armv7a.dpm.prepare tr = ERROR_OK)
    (hw : ∀ tr' op v, t.armv7a.dpm.instr_write_data_r0 tr' op v = ERROR_OK)
    (hk : k < 32) (hvirt : virt < 2 ^ 32) (hend : 2 ^ 32 - 2 ^ k < (virt + size) % 2 ^ 32) :
    ∀ fuel, range_op check (2 ^ k) ops fuel t virt size tr = none := by
  intro fuel
  rw [range_op_ok_eq _ _ _ _ _ _ _ _ hcheck hprep, land_neg32 k hk virt hvirt,
    range_loop_diverges t.armv7a.dpm hw ops k hk _ hend]
  · rfl
  · rw [align_down_eq]
    exact Nat.mul_mod_right _ _
  · have := Nat.mod_le virt (2 ^ k)
    omega

/-- C19, the code at a failing input: `virt = 0xFFFFFFF4`, `size = 4` and
16-byte lines, every call succeeding.  The loops of
`armv7a_l1_d_cache_clean_virt`, `armv7a_l1_d_cache_flush_virt` and
`armv7a_l1_i_cache_inval_virt` do not end within any number of iterations, and
the loop of `armv7a_l1_d_cache_inval_virt` has not ended after the 2 iterations
that `ceil(size/linelen) + 1` allows. -/
theorem range_loops_do_not_terminate :
    (∀ fuel, armv7a_l1_d_cache_clean_virt fuel demo_target 0xFFFFFFF4 4 [] = none) ∧
      (∀ fuel, armv7a_l1_d_cache_flush_virt fuel demo_target 0xFFFFFFF4 4 [] = none) ∧
      (∀ fuel, armv7a_l1_i_cache_inval_virt fuel demo_target 0xFFFFFFF4 4 [] = none) ∧
      armv7a_l1_d_cache_inval_virt 3 demo_target 0xFFFFFFF4 4 [] = none ∧
      (4 + 16 - 1) / 16 + 1 = 2 := by
  refine ⟨?_, ?_, ?_, by decide, by decide⟩
  · exact range_op_diverges armv7a_l1_d_cache_sanity_check [DCCMVAC] demo_target 0xFFFFFFF4 4 4
      [] rfl rfl (fun _ _ _ => rfl) (by decide) (by decide) (by decide)
  · exact range_op_diverges armv7a_l1_d_cache_sanity_check [DCCIMVAC] demo_target 0xFFFFFFF4 4 4
      [] rfl rfl (fun _ _ _ => rfl) (by decide) (by decide) (by decide)
  · exact range_op_diverges armv7a_l1_i_cache_sanity_check [ICIMVAU, BPIMVA] demo_target
      0xFFFFFFF4 4 4 [] rfl rfl (fun _ _ _ => rfl) (by decide) (by decide) (by decide)

/-- C13, the code at a failing input: `armv7a_l1_d_cache_flush_virt` with
`virt = 0xFFFFFFF8`, `size = 1` and 16-byte lines on a halted core with the data
cache enabled and every call succeeding.  The sanity check passes and `prepare`
is called, but the loop never ends, so the `finish` after it is never
reached. -/
theorem flush_virt_never_finishes :
    armv7a_l1_d_cache_sanity_check demo_target = ERROR_OK ∧
      ∀ fuel, armv7a_l1_d_cache_flush_virt fuel demo_target 0xFFFFFFF8 1 [] = none :=
  ⟨rfl, range_op_diverges armv7a_l1_d_cache_sanity_check [DCCIMVAC] demo_target 0xFFFFFFF8 1 4
    [] rfl rfl (fun _ _ _ => rfl) (by decide) (by decide) (by decide)⟩

/-- C14, the code at a failing input: `armv7a_l1_i_cache_inval_virt` with
`virt = 0xFFFFFFF0`, `size = 8` and 16-byte lines; `prepare` and every write
succeed, yet the function never returns, so it does not return `ERROR_OK`. -/
theorem i_cache_inval_virt_never_returns :
    demo_target.armv7a.dpm.prepare [] = ERROR_OK ∧
      (∀ tr op v, demo_target.armv7a.dpm.instr_write_data_r0 tr op v = ERROR_OK) ∧
      ∀ fuel, armv7a_l1_i_cache_inval_virt fuel demo_target 0xFFFFFFF0 8 [] = none :=
  ⟨rfl, fun _ _ _ => rfl,
    range_op_diverges armv7a_l1_i_cache_sanity_check [ICIMVAU, BPIMVA] demo_target 0xFFFFFFF0 8
      4 [] rfl rfl (fun _ _ _ => rfl) (by decide) (by decide) (by decide)⟩

/-- C16, the code at a failing input: `armv7a_cache_flush_virt` with
`virt = 0xFFFFFFFC`, `size = 2` and 16-byte lines on a halted core with the data
cache enabled and every call succeeding.  The inner range flush never returns,
so the outer-cache range flush is never called and nothing is returned. -/
theorem cache_flush_virt_never_reaches_outer :
    ∀ fuel, armv7a_cache_flush_virt ok_l2x fuel demo_target 0xFFFFFFFC 2 [] = none := by
  intro fuel
  have h : armv7a_l1_d_cache_flush_virt fuel demo_target 0xFFFFFFFC 2 [] = none :=
    range_op_diverges armv7a_l1_d_cache_sanity_check [DCCIMVAC] demo_target 0xFFFFFFFC 2 4
      [] rfl rfl (fun _ _ _ => rfl) (by decide) (by decide) (by decide) fuel
  rw [armv7a_cache_flush_virt, h]
  rfl

/-- C17, the code at two failing inputs: on a target that is not halted the
flush behind `d flush_all` fails with `ERROR_TARGET_NOT_HALTED` and on a halted
target with the instruction cache disabled the invalidate behind `i inval_all`
fails with `ERROR_TARGET_INVALID`, yet both handlers return 0, which is
`ERROR_OK`; the handler of the range command `d inval` returns the code of its
operation. -/
theorem all_cmd_handlers_return_zero :
    (armv7a_l1_d_cache_clean_inval_all running_target []).1 = ERROR_TARGET_NOT_HALTED ∧
      (armv7a_l1_d_cache_clean_inval_all_cmd running_target []).1 = ERROR_OK ∧
      (armv7a_l1_i_cache_inval_all disabled_target []).1 = ERROR_TARGET_INVALID ∧
      (armv7a_i_cache_clean_inval_all_cmd disabled_target []).1 = ERROR_OK ∧
      arm7a_l1_d_cache_inval_virt_cmd parse_decimal 8 running_target ["4096", "32"] [] =
        some (ERROR_TARGET_NOT_HALTED, []) ∧
      ERROR_TARGET_NOT_HALTED ≠ ERROR_OK ∧ ERROR_TARGET_INVALID ≠ ERROR_OK := by
  refine ⟨by decide, rfl, by decide, rfl, ?_, by decide, by decide⟩
  have h1 : parse_decimal "4096" = Except.ok 4096 := rfl
  have h2 : parse_decimal "32" = Except.ok 32 := rfl
  simp only [arm7a_l1_d_cache_inval_virt_cmd, range_cmd, h1, h2]
  decide

/-- What `line_writes` does, whatever the writes return: either all writes are
issued and succeed, or the writes stop at the first one that fails, whose code
is the result. -/
theorem line_writes_cases (dpm : arm_dpm) (va : Nat) :
    ∀ (ops : List Opcode) (tr : Trace),
      line_writes dpm ops va tr =
          (ERROR_OK, tr ++ ops.map (fun op => Event.instr_write_data_r0 dpm.coreid op va)) ∨
        ∃ q op, ops[q]? = some op ∧
          (line_writes dpm ops va tr).1 ≠ ERROR_OK ∧
          (line_writes dpm ops va tr).1 = dpm.instr_write_data_r0
            (tr ++ (ops.take q).map (fun op => Event.instr_write_data_r0 dpm.coreid op va)) op va ∧
          (line_writes dpm ops va tr).2 =
            tr ++ (ops.take (q + 1)).map (fun op => Event.instr_write_data_r0 dpm.coreid op va) := by
  intro ops
  induction ops with
  | nil => intro tr; left; simp [line_writes]
  | cons op ops ih =>
    intro tr
    by_cases h : dpm.instr_write_data_r0 tr op va = ERROR_OK
    · rcases ih (tr ++ [Event.instr_write_data_r0 dpm.coreid op va]) with h1 | ⟨q, op', hq, h1, h2, h3⟩
      · left
        simp only [line_writes, h, ne_eq, not_true_eq_false, ↓reduceIte, h1, List.map_cons,
          List.append_assoc, List.singleton_append]
      · right
        refine ⟨q + 1, op', by rw [List.getElem?_cons_succ]; exact hq, ?_, ?_, ?_⟩
        · simp only [line_writes, h, ne_eq, not_true_eq_false, ↓reduceIte]
          exact h1
        · simp only [line_writes, h, ne_eq, not_true_eq_false, ↓reduceIte]
          rw [h2]
          simp only [List.take_succ_cons, List.map_cons, List.append_assoc,
            List.singleton_append]
        · simp only [line_writes, h, ne_eq, not_true_eq_false, ↓reduceIte]
          rw [h3]
          simp only [List.take_succ_cons, List.map_cons, List.append_assoc,
            List.singleton_append]
    · right
      refine ⟨0, op, List.getElem?_cons_zero, ?_, ?_, ?_⟩
      · simp only [line_writes, ne_eq, h, not_false_eq_true, ↓reduceIte]
      · simp only [line_writes, ne_eq, h, not_false_eq_true, ↓reduceIte, List.take_zero,
          List.map_nil, List.append_nil]
      · simp only [line_writes, ne_eq, h, not_false_eq_true, ↓reduceIte, List.take_succ_cons,
          List.take_zero, List.map_cons, List.map_nil]

/-- What a range loop that ends has recorded, whatever the writes return.
Either it was left by its condition after `m` full iterations, all of whose
writes succeeded, or it was left by `goto done` in the iteration `m` at the
first failing write, whose code is the result; nothing is recorded after that
write. -/
theorem range_loop_cases (dpm : arm_dpm) (ops : List Opcode) (linelen va_end : Nat) :
    ∀ (fuel va_line i : Nat) (retval : Int) (tr : Trace) (r : Int) (tr' : Trace),
      va_line < 2 ^ 32 →
      range_loop dpm ops linelen va_end fuel va_line i retval tr = some (r, tr') →
      ∃ m,
        (tr' = tr ++ expected_loop_trace dpm.coreid ops linelen va_line i m ∧
          (r = ERROR_OK ∨ (m = 0 ∧ r = retval))) ∨
        (∃ q op, ops[q]? = some op ∧ r ≠ ERROR_OK ∧
          r = dpm.instr_write_data_r0
            (tr ++ expected_loop_trace dpm.coreid ops linelen va_line i m ++
              iteration_calls dpm.coreid ops ((va_line + m * linelen) % 2 ^ 32) (i + m) q)
            op ((va_line + m * linelen) % 2 ^ 32) ∧
          tr' = tr ++ expected_loop_trace dpm.coreid ops linelen va_line i m ++
            iteration_calls dpm.coreid ops ((va_line + m * linelen) % 2 ^ 32) (i + m) (q + 1)) := by
  intro fuel
  induction fuel with
  | zero => intro va_line i retval tr r tr' _ h; simp [range_loop] at h
  | succ f ih =>
    intro va_line i retval tr r tr' hva h
    by_cases h0 : va_line < va_end
    · simp only [range_loop, h0, ↓reduceIte] at h
      have hka : (if i &&& 0x3f = 0 then tr ++ [Event.keep_alive] else tr) =
          tr ++ (if i % 64 = 0 then [Event.keep_alive] else []) := by
        rw [land_0x3f]
        split <;> simp
      rw [hka] at h
      rcases line_writes_cases dpm va_line ops
          (tr ++ (if i % 64 = 0 then [Event.keep_alive] else [])) with h1 | ⟨q, op, hq, h1, h2, h3⟩
      · rw [h1] at h
        simp only [ne_eq, not_true_eq_false, ↓reduceIte] at h
        obtain ⟨m, hm⟩ := ih _ _ _ _ _ _ (Nat.mod_lt _ (by norm_num)) h
        have hshift : ((va_line + linelen) % 2 ^ 32 + m * linelen) % 2 ^ 32 =
            (va_line + (m + 1) * linelen) % 2 ^ 32 := by
          rw [Nat.mod_add_mod]
          congr 1
          ring
        have hi : i + 1 + m = i + (m + 1) := by omega
        refine ⟨m + 1, ?_⟩
        rw [expected_loop_trace_succ _ _ _ _ _ _ hva]
        rcases hm with ⟨ht, hr⟩ | ⟨q, op, hq, hr1, hr2, ht⟩
        · left
          refine ⟨by rw [ht]; simp only [List.append_assoc], ?_⟩
          rcases hr with hr | ⟨_, hr⟩
          · exact Or.inl hr
          · exact Or.inl hr
        · right
          refine ⟨q, op, hq, hr1, ?_, ?_⟩
          · rw [hr2, hshift, hi]
            simp only [List.append_assoc]
          · rw [ht, hshift, hi]
            simp only [List.append_assoc]
      · have hne : ¬ (line_writes dpm ops va_line
            (tr ++ (if i % 64 = 0 then [Event.keep_alive] else []))).1 = ERROR_OK := h1
        simp only [ne_eq, hne, not_false_eq_true, ↓reduceIte, Option.some.injEq] at h
        rw [h] at h1 h2 h3
        simp only at h1 h2 h3
        refine ⟨0, Or.inr ⟨q, op, hq, h1, ?_, ?_⟩⟩
        · simp only [expected_loop_trace, List.range_zero, List.flatMap_nil, List.append_nil,
            Nat.zero_mul, Nat.add_zero, Nat.mod_eq_of_lt hva, iteration_calls]
          rw [h2]
          simp only [List.append_assoc]
        · simp only [expected_loop_trace, List.range_zero, List.flatMap_nil, List.append_nil,
            Nat.zero_mul, Nat.add_zero, Nat.mod_eq_of_lt hva, iteration_calls]
          rw [h3]
          simp only [List.append_assoc]
    · simp only [range_loop, h0, ↓reduceIte, Option.some.injEq, Prod.mk.injEq] at h
      refine ⟨0, Or.inl ⟨?_, Or.inr ⟨rfl, h.1.symm⟩⟩⟩
      simp only [expected_loop_trace, List.range_zero, List.flatMap_nil, List.append_nil]
      exact h.2.symm

theorem expected_loop_trace_snoc (c : Nat) (ops : List Opcode) (linelen va_line i n : Nat) :
    expected_loop_trace c ops linelen va_line i (n + 1) =
      expected_loop_trace c ops linelen va_line i n ++
        ((if (i + n) % 64 = 0 then [Event.keep_alive] else []) ++
          ops.map (fun op =>
            Event.instr_write_data_r0 c op ((va_line + n * linelen) % 2 ^ 32))) := by
  unfold expected_loop_trace
  rw [List.range_succ, List.flatMap_append]
  simp only [List.flatMap_cons, List.flatMap_nil, List.append_nil]

theorem count_keep_alive_writes (c va : Nat) (ops : List Opcode) :
    List.count Event.keep_alive (ops.map (fun op => Event.instr_write_data_r0 c op va)) = 0 := by
  induction ops with
  | nil => rfl
  | cons op ops ih =>
    rw [List.map_cons, List.count_cons, ih]
    rfl

/-- The loop records a `keep_alive` for every started group of 64 iterations. -/
theorem count_keep_alive_expected_loop_trace (c : Nat) (ops : List Opcode)
    (linelen va_line : Nat) :
    ∀ n, List.count Event.keep_alive (expected_loop_trace c ops linelen va_line 0 n) =
      (n + 63) / 64 := by
  intro n
  induction n with
  | zero => rfl
  | succ n ih =>
    rw [expected_loop_trace_snoc, List.count_append, List.count_append, ih,
      count_keep_alive_writes, Nat.zero_add]
    by_cases h : n % 64 = 0
    · rw [if_pos h]
      simp only [List.count_singleton_self]
      omega
    · rw [if_neg h]
      simp only [List.count_nil]
      omega

theorem writes_since_keep_alive_append (a b : Trace) :
    writes_since_keep_alive (a ++ b) = b.foldl keep_alive_step (writes_since_keep_alive a) := by
  unfold writes_since_keep_alive
  rw [List.foldl_append]

theorem foldl_since_writes (c va : Nat) :
    ∀ (ops : List Opcode) (acc : Nat),
      (ops.map (fun op => Event.instr_write_data_r0 c op va)).foldl keep_alive_step acc =
        acc + ops.length := by
  intro ops
  induction ops with
  | nil => intro acc; rfl
  | cons op ops ih =>
    intro acc
    rw [List.map_cons, List.foldl_cons, ih, List.length_cons]
    simp only [keep_alive_step]
    omega

/-- Splitting a trace that ends with the writes of one iteration. -/
theorem prefix_of_writes (c va : Nat) (ops : List Opcode) (p b : Trace)
    (h : ops.map (fun op => Event.instr_write_data_r0 c op va) = p ++ b) :
    ∃ q, q ≤ ops.length ∧ p = (ops.take q).map (fun op => Event.instr_write_data_r0 c op va) := by
  refine ⟨p.length, ?_, ?_⟩
  · have := congrArg List.length h
    rw [List.length_map, List.length_append] at this
    omega
  · have := congrArg (List.take p.length) h
    rw [List.take_left, ← List.map_take] at this
    exact this.symm

/-- At every point of a range loop the writes recorded since the last
`keep_alive` are those of at most 64 iterations. -/
theorem writes_since_keep_alive_bound (c : Nat) (ops : List Opcode) (linelen va_line : Nat) :
    ∀ n,
      (∀ a b, expected_loop_trace c ops linelen va_line 0 n = a ++ b →
        writes_since_keep_alive a ≤ 64 * ops.length) ∧
      writes_since_keep_alive (expected_loop_trace c ops linelen va_line 0 n) =
        (if n = 0 then 0 else ((n - 1) % 64 + 1) * ops.length) := by
  intro n
  induction n with
  | zero =>
    constructor
    · intro a b h
      have : a = [] := by
        have h' : ([] : Trace) = a ++ b := h
        exact (List.append_eq_nil.mp h'.symm).1
      rw [this]
      exact Nat.zero_le _
    · rfl
  | succ n ih =>
    obtain ⟨ihp, ihv⟩ := ih
    have hfull := ihp (expected_loop_trace c ops linelen va_line 0 n) [] (by simp)
    have hv' : writes_since_keep_alive (expected_loop_trace c ops linelen va_line 0 n) ≤
        (n % 64) * ops.length ∨ n % 64 = 0 := by
      by_cases h0 : n % 64 = 0
      · exact Or.inr h0
      · left
        have hn : n ≠ 0 := by rintro rfl; exact h0 rfl
        rw [ihv, if_neg hn]
        have : (n - 1) % 64 + 1 = n % 64 := by omega
        rw [this]
    constructor
    · intro a b h
      rw [expected_loop_trace_snoc, Nat.zero_add] at h
      rcases List.append_eq_append_iff.mp h with ⟨p, ha, hp⟩ | ⟨a', ha, _⟩
      swap
      · exact ihp a a' ha
      · rw [ha, writes_since_keep_alive_append]
        by_cases h0 : n % 64 = 0
        · rw [if_pos h0] at hp
          cases p with
          | nil => simpa using hfull
          | cons e p' =>
            simp only [List.singleton_append, List.cons_append, List.cons.injEq] at hp
            obtain ⟨he, hp'⟩ := hp
            obtain ⟨q, hq, rfl⟩ := prefix_of_writes c _ ops p' b hp'
            rw [← he, List.foldl_cons, foldl_since_writes, List.length_take]
            simp only [keep_alive_step]
            have := Nat.min_le_right q ops.length
            omega
        · rw [if_neg h0, List.nil_append] at hp
          obtain ⟨q, hq, rfl⟩ := prefix_of_writes c _ ops p b hp
          rw [foldl_since_writes, List.length_take]
          rcases hv' with hv' | hv'
          · have h1 : n % 64 * ops.length ≤ 63 * ops.length :=
              Nat.mul_le_mul_right _ (by omega)
            have := Nat.min_le_right q ops.length
            omega
          · exact absurd hv' h0
    · rw [expected_loop_trace_snoc, Nat.zero_add, writes_since_keep_alive_append,
        if_neg (Nat.succ_ne_zero n), Nat.add_sub_cancel]
      by_cases h0 : n % 64 = 0
      · rw [if_pos h0, List.singleton_append, List.foldl_cons, foldl_since_writes, h0]
        simp only [keep_alive_step]
        omega
      · rw [if_neg h0, List.nil_append, foldl_since_writes, ihv]
        have hn : n ≠ 0 := by rintro rfl; exact h0 rfl
        rw [if_neg hn]
        have : (n - 1) % 64 + 1 = n % 64 := by omega
        rw [this, Nat.succ_mul]

theorem land_neg32_lt (linelen virt : Nat) (hvirt : virt < 2 ^ 32) :
    virt &&& neg32 linelen < 2 ^ 32 :=
  Nat.lt_of_le_of_lt Nat.and_le_left hvirt

theorem inval_virt_loop_start_lt (linelen virt : Nat) (hvirt : virt < 2 ^ 32) :
    inval_virt_loop_start linelen virt < 2 ^ 32 := by
  unfold inval_virt_loop_start
  split
  · exact Nat.mod_lt _ (by norm_num)
  · exact land_neg32_lt linelen virt hvirt

/-- A range operation of the common shape whose loop makes `n` iterations, all
writes succeeding: the exact calls recorded. -/
theorem range_op_run (check : target → Int) (linelen : Nat) (ops : List Opcode)
    (fuel : Nat) (t : target) (virt size n : Nat) (tr : Trace)
    (hcheck : check t = ERROR_OK) (hprep : t.armv7a.dpm.prepare tr = ERROR_OK)
    (hw : ∀ tr' op v, t.armv7a.dpm.instr_write_data_r0 tr' op v = ERROR_OK)
    (hvirt : virt < 2 ^ 32) (hfuel : n < fuel)
    (hn : loop_iterations linelen (virt &&& neg32 linelen) ((virt + size) % 2 ^ 32) n) :
    range_op check linelen ops fuel t virt size tr =
      some (ERROR_OK, tr ++ [Event.prepare t.armv7a.dpm.coreid] ++
        expected_loop_trace t.armv7a.dpm.coreid ops linelen (virt &&& neg32 linelen) 0 n ++
        [Event.keep_alive, Event.finish t.armv7a.dpm.coreid]) := by
  rw [range_op_ok_eq _ _ _ _ _ _ _ _ hcheck hprep,
    range_loop_ok_trace t.armv7a.dpm hw ops linelen _ n fuel _ 0 _ hfuel
      (land_neg32_lt linelen virt hvirt) hn.1 hn.2]
  rfl

/-- The invalidate of a range whose loop makes `n` iterations, all writes
succeeding: the exact calls recorded. -/
theorem inval_virt_run (fuel : Nat) (t : target) (virt size n : Nat) (tr : Trace)
    (hhalt : t.state = target_state.TARGET_HALTED)
    (hen : t.armv7a.armv7a_cache.d_u_cache_enabled = true)
    (hprep : t.armv7a.dpm.prepare tr = ERROR_OK)
    (hw : ∀ tr' op v, t.armv7a.dpm.instr_write_data_r0 tr' op v = ERROR_OK)
    (hvirt : virt < 2 ^ 32) (hfuel : n < fuel)
    (hn : loop_iterations t.armv7a.armv7a_cache.dminline
      (inval_virt_loop_start t.armv7a.armv7a_cache.dminline virt)
      (inval_virt_loop_end t.armv7a.armv7a_cache.dminline virt size) n) :
    armv7a_l1_d_cache_inval_virt fuel t virt size tr =
      some (ERROR_OK, tr ++ [Event.prepare t.armv7a.dpm.coreid] ++
        inval_virt_boundary_calls t.armv7a.dpm.coreid t.armv7a.armv7a_cache.dminline virt size ++
        expected_loop_trace t.armv7a.dpm.coreid [DCIMVAC] t.armv7a.armv7a_cache.dminline
          (inval_virt_loop_start t.armv7a.armv7a_cache.dminline virt) 0 n ++
        [Event.keep_alive, Event.finish t.armv7a.dpm.coreid]) := by
  have h := inval_virt_ok_eq fuel t virt size tr hhalt hen hprep hw
  have hl := range_loop_ok_trace t.armv7a.dpm hw [DCIMVAC] t.armv7a.armv7a_cache.dminline
    (inval_virt_loop_end t.armv7a.armv7a_cache.dminline virt size) n fuel
    (inval_virt_loop_start t.armv7a.armv7a_cache.dminline virt) 0
    (tr ++ [Event.prepare t.armv7a.dpm.coreid] ++
      inval_virt_boundary_calls t.armv7a.dpm.coreid t.armv7a.armv7a_cache.dminline virt size)
    hfuel (inval_virt_loop_start_lt _ virt hvirt) hn.1 hn.2
  unfold inval_virt_loop_start inval_virt_loop_end inval_virt_boundary_calls at hl
  rw [← List.append_assoc] at hl
  rw [h, hl]
  simp only [Option.map, range_exit, inval_virt_loop_start, inval_virt_boundary_calls,
    List.append_assoc]

theorem pairwise_le_flatMap_const {α : Type} (ops : List α) (f : Nat → Nat) :
    ∀ n, (∀ i j, i ≤ j → j < n → f i ≤ f j) →
      List.Pairwise (fun x y => x ≤ y)
        ((List.range n).flatMap (fun j => ops.map (fun _ => f j))) := by
  intro n
  induction n with
  | zero => intro _; simp
  | succ n ih =>
    intro hmono
    rw [List.range_succ, List.flatMap_append, List.pairwise_append]
    refine ⟨ih (fun i j hij hj => hmono i j hij (by omega)), ?_, ?_⟩
    · simp only [List.flatMap_cons, List.flatMap_nil, List.append_nil]
      rw [List.pairwise_map]
      exact List.pairwise_of_forall (fun _ _ => Nat.le_refl _)
    · intro x hx y hy
      simp only [List.flatMap_cons, List.flatMap_nil, List.append_nil, List.mem_map] at hy
      obtain ⟨_, _, rfl⟩ := hy
      obtain ⟨j, hj, hxj⟩ := List.mem_flatMap.mp hx
      obtain ⟨_, _, rfl⟩ := List.mem_map.mp hxj
      exact hmono j n (Nat.le_of_lt (List.mem_range.mp hj)) (Nat.lt_succ_self n)

/-- The writes of a loop whose lines do not wrap have ascending addresses. -/
theorem write_addresses_loop_sorted (c : Nat) (ops : List Opcode) (linelen va_line i n : Nat)
    (hb : ∀ j, j ≤ n → va_line + j * linelen < 2 ^ 32) :
    List.Pairwise (fun x y => x ≤ y)
      (write_addresses (expected_loop_trace c ops linelen va_line i n)) := by
  unfold write_addresses
  rw [writes_of_expected_loop_trace_nowrap c ops linelen va_line i n hb, List.map_flatMap]
  simp only [List.map_map, Function.comp_def]
  apply pairwise_le_flatMap_const ops (fun j => va_line + j * linelen) n
  intro i j hij _
  exact Nat.add_le_add_left (Nat.mul_le_mul_right _ hij) _

theorem write_addresses_append (a b : Trace) :
    write_addresses (a ++ b) = write_addresses a ++ write_addresses b := by
  unfold write_addresses
  rw [writes_of_append, List.map_append]

/-- The writes of a range operation of the common shape, on a range that does
not reach the last line: their addresses ascend. -/
theorem range_op_sorted (check : target → Int) (ops : List Opcode) (fuel : Nat)
    (t : target) (virt size k : Nat) (tr : Trace)
    (hcheck : check t = ERROR_OK) (hprep : t.armv7a.dpm.prepare tr = ERROR_OK)
    (hw : ∀ tr' op v, t.armv7a.dpm.instr_write_data_r0 tr' op v = ERROR_OK)
    (hk : k < 32) (hrange : virt + size ≤ 2 ^ 32 - 2 ^ k)
    (hfuel : (virt + size - (virt - virt % 2 ^ k) + 2 ^ k - 1) / 2 ^ k < fuel) :
    ∃ new, range_op check (2 ^ k) ops fuel t virt size tr = some (ERROR_OK, tr ++ new) ∧
      List.Pairwise (fun x y => x ≤ y) (write_addresses new) := by
  obtain ⟨_, _, _, hb⟩ := nowrap_lines virt size k hk hrange
  refine ⟨[Event.prepare t.armv7a.dpm.coreid] ++
    expected_loop_trace t.armv7a.dpm.coreid ops (2 ^ k) (virt - virt % 2 ^ k) 0
      ((virt + size - (virt - virt % 2 ^ k) + 2 ^ k - 1) / 2 ^ k) ++
    [Event.keep_alive, Event.finish t.armv7a.dpm.coreid], ?_, ?_⟩
  · rw [range_op_ok_trace check ops fuel t virt size k tr hcheck hprep hw hk hrange hfuel]
    simp only [List.append_assoc]
  · rw [write_addresses_append, write_addresses_append]
    have h1 : write_addresses [Event.prepare t.armv7a.dpm.coreid] = [] := rfl
    have h2 : write_addresses [Event.keep_alive, Event.finish t.armv7a.dpm.coreid] = [] := rfl
    rw [h1, h2, List.nil_append, List.append_nil]
    exact write_addresses_loop_sorted _ _ _ _ _ _ hb

/-- The loop of the d-cache invalidate on a range that does not reach the last
line: it runs from the line after an unaligned `virt` (from `virt` when
aligned) up to the line of `virt + size`, without wrapping. -/
theorem inval_virt_nowrap_lines (virt size k : Nat) (hk : k < 32)
    (hrange : virt + size ≤ 2 ^ 32 - 2 ^ k) :
    loop_iterations (2 ^ k) (inval_virt_loop_start (2 ^ k) virt)
        (inval_virt_loop_end (2 ^ k) virt size)
        ((inval_virt_loop_end (2 ^ k) virt size - inval_virt_loop_start (2 ^ k) virt) / 2 ^ k) ∧
      (∀ j, j ≤ (inval_virt_loop_end (2 ^ k) virt size - inval_virt_loop_start (2 ^ k) virt)
          / 2 ^ k →
        inval_virt_loop_start (2 ^ k) virt + j * 2 ^ k < 2 ^ 32) := by
  have hL : 0 < 2 ^ k := Nat.pow_pos (by norm_num)
  have hL32 : 2 ^ k < 2 ^ 32 := Nat.pow_lt_pow_right (by norm_num) hk
  have hvirt : virt < 2 ^ 32 := by omega
  have hE : virt + size < 2 ^ 32 := by omega
  have hmodL : virt % 2 ^ k < 2 ^ k := Nat.mod_lt _ hL
  have hmodv : virt % 2 ^ k ≤ virt := Nat.mod_le _ _
  have hmodE : (virt + size) % 2 ^ k ≤ virt + size := Nat.mod_le _ _
  -- the end of the loop is the line of `virt + size`
  have he : inval_virt_loop_end (2 ^ k) virt size = 2 ^ k * ((virt + size) / 2 ^ k) := by
    unfold inval_virt_loop_end
    rw [Nat.mod_eq_of_lt hE, land_pred32 k hk, land_neg32 k hk _ hE, ← align_down_eq]
    split
    · rfl
    · omega
  -- the start of the loop is a line
  obtain ⟨qs, hs⟩ : ∃ qs, inval_virt_loop_start (2 ^ k) virt = 2 ^ k * qs := by
    unfold inval_virt_loop_start
    rw [land_neg32 k hk virt hvirt]
    by_cases hal : virt % 2 ^ k = 0
    · refine ⟨virt / 2 ^ k, ?_⟩
      rw [if_neg (by omega), align_down_eq]
    · refine ⟨virt / 2 ^ k + 1, ?_⟩
      rw [if_pos (by omega), Nat.mod_eq_of_lt (by omega), align_down_eq]
      ring
  have hslt : inval_virt_loop_start (2 ^ k) virt < 2 ^ 32 :=
    inval_virt_loop_start_lt _ virt hvirt
  have helt : 2 ^ k * ((virt + size) / 2 ^ k) ≤ virt + size := Nat.mul_div_le _ _
  rw [he, hs] at *
  have hlines := fun j => aligned_lines_below (2 ^ k) qs ((virt + size) / 2 ^ k) j hL
  generalize (2 ^ k * ((virt + size) / 2 ^ k) - 2 ^ k * qs) / 2 ^ k = n at *
  have hbound : ∀ j, j ≤ n → 2 ^ k * qs + j * 2 ^ k < 2 ^ 32 := by
    intro j hj
    rcases Nat.eq_zero_or_pos j with h0 | hpos
    · subst h0; omega
    · have := (hlines (j - 1)).mp (by omega)
      have e : j * 2 ^ k = (j - 1) * 2 ^ k + 2 ^ k := by
        conv_lhs => rw [show j = (j - 1) + 1 by omega]
        ring
      omega
  refine ⟨⟨?_, ?_⟩, hbound⟩
  · intro j hj
    rw [Nat.mod_eq_of_lt (hbound j (by omega))]
    exact (hlines j).mp hj
  · rw [Nat.mod_eq_of_lt (hbound n (Nat.le_refl _))]
    exact fun h => Nat.lt_irrefl n ((hlines n).mpr h)

theorem mul_succ_le_of_lt (a b m : Nat) (hab : a ≤ b) (h : 2 ^ a * m < 2 ^ b) :
    2 ^ a * (m + 1) ≤ 2 ^ b := by
  have e : 2 ^ b = 2 ^ a * 2 ^ (b - a) := by
    rw [← Nat.pow_add]; congr 1; omega
  rw [e] at h ⊢
  exact Nat.mul_le_mul_left _ (Nat.lt_of_mul_lt_mul_left h)

theorem div_mod_unique (m a a' r r' : Nat) (hr : r < m) (hr' : r' < m)
    (h : m * a + r = m * a' + r') : a = a' ∧ r = r' := by
  have hm : 0 < m := by omega
  have h1 := congrArg (fun x => x / m) h
  have h2 := congrArg (fun x => x % m) h
  simp only [Nat.mul_add_div hm, Nat.mul_add_mod, Nat.div_eq_of_lt hr, Nat.div_eq_of_lt hr',
    Nat.mod_eq_of_lt hr, Nat.mod_eq_of_lt hr', Nat.add_zero] at h1 h2
  exact ⟨h1, h2⟩

/-- On well-formed geometry the three fields of the operand do not overlap:
the operand is the sum of the way field, the set field and the level field. -/
theorem setway_operand_fields (size : armv7a_cachesize) (cl i w : Nat)
    (hg : wellformed_geometry size) (hcl : cl < 8) (hi : i ≤ size.index) (hw : w ≤ size.way) :
    setway_operand size cl i w =
        2 ^ size.way_shift * w + (2 ^ size.index_shift * i + 2 * cl) ∧
      2 * cl < 2 ^ size.index_shift ∧
      2 ^ size.index_shift * i + 2 * cl < 2 ^ size.way_shift := by
  obtain ⟨his, hws, hws32, hidx, hway⟩ := hg
  rw [Nat.shiftLeft_eq] at hidx hway
  have h16i : 2 ^ 4 ≤ 2 ^ size.index_shift := Nat.pow_le_pow_right (by norm_num) his
  have h16w : 2 ^ 4 ≤ 2 ^ size.way_shift := Nat.pow_le_pow_right (by norm_num) hws
  have hcl2 : 2 * cl < 2 ^ size.index_shift := by omega
  -- the set field and the level field stay below the way field
  have hA : 2 ^ size.index_shift * i + 2 * cl < 2 ^ size.way_shift := by
    rcases Nat.eq_zero_or_pos i with h0 | hpos
    · subst h0; omega
    · have h1 : 2 ^ size.index_shift * i ≤ 2 ^ size.index_shift * size.index :=
        Nat.mul_le_mul_left _ hi
      have h2 : 2 ^ size.index_shift * i < 2 ^ size.way_shift := by
        rw [Nat.mul_comm] at hidx; omega
      have h3 : 2 ^ size.index_shift * 1 ≤ 2 ^ size.index_shift * i :=
        Nat.mul_le_mul_left _ hpos
      have hlt : size.index_shift ≤ size.way_shift := by
        by_contra hc
        have : 2 ^ size.way_shift ≤ 2 ^ size.index_shift :=
          Nat.pow_le_pow_right (by norm_num) (by omega)
        omega
      have h4 := mul_succ_le_of_lt _ _ i hlt h2
      rw [Nat.mul_add, Nat.mul_one] at h4
      omega
  -- the whole operand stays below 2 ^ 32
  have hB : 2 ^ size.way_shift * w + (2 ^ size.index_shift * i + 2 * cl) < 2 ^ 32 := by
    have h1 : 2 ^ size.way_shift * w ≤ 2 ^ size.way_shift * size.way :=
      Nat.mul_le_mul_left _ hw
    have h2 : 2 ^ size.way_shift * w < 2 ^ 32 := by
      rw [Nat.mul_comm] at hway; omega
    have h4 := mul_succ_le_of_lt _ _ w hws32 h2
    rw [Nat.mul_add, Nat.mul_one] at h4
    omega
  refine ⟨?_, hcl2, hA⟩
  unfold setway_operand
  rw [Nat.shiftLeft_eq, Nat.shiftLeft_eq, Nat.shiftLeft_eq, Nat.or_comm (i * _),
    Nat.or_assoc, Nat.mul_comm i, Nat.mul_comm w, Nat.pow_one, Nat.mul_comm cl,
    ← Nat.mul_add_lt_is_or hcl2, ← Nat.mul_add_lt_is_or hA, Nat.mod_eq_of_lt hB]

/-- On well-formed geometry the operand determines the level, the set and the
way. -/
theorem setway_operand_injective (size : armv7a_cachesize) (cl cl' i i' w w' : Nat)
    (hg : wellformed_geometry size) (hcl : cl < 8) (hcl' : cl' < 8)
    (hi : i ≤ size.index) (hi' : i' ≤ size.index) (hw : w ≤ size.way) (hw' : w' ≤ size.way)
    (h : setway_operand size cl i w = setway_operand size cl' i' w') :
    cl = cl' ∧ i = i' ∧ w = w' := by
  obtain ⟨e1, c1, a1⟩ := setway_operand_fields size cl i w hg hcl hi hw
  obtain ⟨e2, c2, a2⟩ := setway_operand_fields size cl' i' w' hg hcl' hi' hw'
  rw [e1, e2] at h
  obtain ⟨hw, hA⟩ := div_mod_unique _ _ _ _ _ a1 a2 h
  obtain ⟨hi, hc⟩ := div_mod_unique _ _ _ _ _ c1 c2 hA
  exact ⟨by omega, hi, hw⟩

/-- On well-formed geometry the operand carries the level in its bits 1 to 3. -/
theorem setway_operand_level (size : armv7a_cachesize) (cl i w : Nat)
    (hg : wellformed_geometry size) (hcl : cl < 8) (hi : i ≤ size.index) (hw : w ≤ size.way) :
    setway_operand size cl i w % 16 = 2 * cl := by
  obtain ⟨e1, _, _⟩ := setway_operand_fields size cl i w hg hcl hi hw
  obtain ⟨his, hws, _, _, _⟩ := hg
  have d1 : (16 : Nat) ∣ 2 ^ size.index_shift := by
    have : (16 : Nat) = 2 ^ 4 := by norm_num
    rw [this]; exact Nat.pow_dvd_pow 2 his
  have d2 : (16 : Nat) ∣ 2 ^ size.way_shift := by
    have : (16 : Nat) = 2 ^ 4 := by norm_num
    rw [this]; exact Nat.pow_dvd_pow 2 hws
  obtain ⟨x, hx⟩ := d1
  obtain ⟨y, hy⟩ := d2
  rw [e1, hx, hy]
  have : 16 * y * w + (16 * x * i + 2 * cl) = 16 * (y * w + x * i) + 2 * cl := by ring
  rw [this, Nat.mul_add_mod]
  omega

theorem wellformed_geometry_bounds (size : armv7a_cachesize) (hg : wellformed_geometry size) :
    size.index < 2 ^ 28 ∧ size.way < 2 ^ 28 := by
  obtain ⟨his, hws, hws32, hidx, hway⟩ := hg
  rw [Nat.shiftLeft_eq] at hidx hway
  have h16i : 2 ^ 4 ≤ 2 ^ size.index_shift := Nat.pow_le_pow_right (by norm_num) his
  have h16w : 2 ^ 4 ≤ 2 ^ size.way_shift := Nat.pow_le_pow_right (by norm_num) hws
  have h32 : 2 ^ size.way_shift ≤ 2 ^ 32 := Nat.pow_le_pow_right (by norm_num) hws32
  have h1 : size.index * 2 ^ 4 ≤ size.index * 2 ^ size.index_shift :=
    Nat.mul_le_mul_left _ h16i
  have h2 : size.way * 2 ^ 4 ≤ size.way * 2 ^ size.way_shift := Nat.mul_le_mul_left _ h16w
  constructor <;> omega

theorem mem_expected_level_writes (c : Nat) (size : armv7a_cachesize) (cl : Nat)
    (x : Nat × Opcode × Nat) :
    x ∈ expected_level_writes c size cl ↔
      ∃ i w, i ≤ size.index ∧ w ≤ size.way ∧ x = (c, DCCISW, setway_operand size cl i w) := by
  unfold expected_level_writes
  simp only [List.mem_flatMap, List.mem_reverse, List.mem_range, List.mem_map]
  constructor
  · rintro ⟨i, hi, w, hw, rfl⟩
    exact ⟨i, w, by omega, by omega, rfl⟩
  · rintro ⟨i, w, hi, hw, rfl⟩
    exact ⟨i, by omega, w, by omega, rfl⟩

/-- On well-formed geometry no set/way line of a level is written twice. -/
theorem expected_level_writes_nodup (c : Nat) (size : armv7a_cachesize) (cl : Nat)
    (hg : wellformed_geometry size) (hcl : cl < 8) :
    (expected_level_writes c size cl).Nodup := by
  unfold expected_level_writes
  rw [List.nodup_flatMap]
  constructor
  · intro i hi
    have hi' : i ≤ size.index := by
      have := List.mem_range.mp (List.mem_reverse.mp hi); omega
    apply List.Nodup.map_on _ (List.nodup_reverse.mpr (List.nodup_range _))
    intro w hw w' hw' h
    have hw1 : w ≤ size.way := by
      have := List.mem_range.mp (List.mem_reverse.mp hw); omega
    have hw2 : w' ≤ size.way := by
      have := List.mem_range.mp (List.mem_reverse.mp hw'); omega
    simp only [Prod.mk.injEq, true_and] at h
    exact (setway_operand_injective size cl cl i i w w' hg hcl hcl hi' hi' hw1 hw2 h).2.2
  · apply List.Nodup.pairwise_of_forall_ne (List.nodup_reverse.mpr (List.nodup_range _))
    intro i hi i' hi' hne
    have h1 : i ≤ size.index := by
      have := List.mem_range.mp (List.mem_reverse.mp hi); omega
    have h2 : i' ≤ size.index := by
      have := List.mem_range.mp (List.mem_reverse.mp hi'); omega
    simp only [Function.onFun]
    intro x hx hx'
    obtain ⟨w, hw, rfl⟩ := List.mem_map.mp hx
    obtain ⟨w', hw', h⟩ := List.mem_map.mp hx'
    have hw1 : w ≤ size.way := by
      have := List.mem_range.mp (List.mem_reverse.mp hw); omega
    have hw2 : w' ≤ size.way := by
      have := List.mem_range.mp (List.mem_reverse.mp hw'); omega
    simp only [Prod.mk.injEq, true_and] at h
    exact hne (setway_operand_injective size cl cl i' i w' w hg hcl hcl h2 h1 hw2 hw1 h).2.1.symm

/-- On well-formed geometry of every data-holding level, no set/way line is
written twice by a whole-cache flush. -/
theorem expected_clean_inval_writes_nodup (c : Nat) (cache : armv7a_cache_common)
    (hloc : cache.loc ≤ 8)
    (hgeo : ∀ cl, cl < cache.loc → CACHE_LEVEL_HAS_D_CACHE ≤ (cache.arch cl).ctype →
      wellformed_geometry (cache.arch cl).d_u_size) :
    (expected_clean_inval_writes c cache).Nodup := by
  unfold expected_clean_inval_writes
  rw [List.nodup_flatMap]
  constructor
  · intro cl hcl
    have hcl' := List.mem_range.mp hcl
    split
    · exact List.nodup_nil
    · exact expected_level_writes_nodup c _ cl (hgeo cl hcl' (by omega)) (by omega)
  · apply List.Nodup.pairwise_of_forall_ne (List.nodup_range _)
    intro cl hcl cl' hcl' hne
    have h1 := List.mem_range.mp hcl
    have h2 := List.mem_range.mp hcl'
    simp only [Function.onFun]
    intro x hx hx'
    by_cases hd : (cache.arch cl).ctype < CACHE_LEVEL_HAS_D_CACHE
    · rw [if_pos hd] at hx; cases hx
    · by_cases hd' : (cache.arch cl').ctype < CACHE_LEVEL_HAS_D_CACHE
      · rw [if_pos hd'] at hx'; cases hx'
      · rw [if_neg hd] at hx
        rw [if_neg hd'] at hx'
        obtain ⟨i, w, hi, hw, rfl⟩ := (mem_expected_level_writes _ _ _ _).mp hx
        obtain ⟨i', w', hi', hw', h⟩ := (mem_expected_level_writes _ _ _ _).mp hx'
        simp only [Prod.mk.injEq, true_and] at h
        have e1 := setway_operand_level _ cl i w (hgeo cl h1 (by omega)) (by omega) hi hw
        have e2 := setway_operand_level _ cl' i' w' (hgeo cl' h2 (by omega)) (by omega) hi' hw'
        rw [h] at e1
        omega

theorem bracketed_of_extends (c : Nat) (tr tr1 : Trace)
    (h : Extends (Event.in_bracket c) (tr ++ [Event.prepare c]) tr1) :
    bracketed c tr (tr1 ++ [Event.finish c]) := by
  obtain ⟨body, rfl, hb⟩ := h
  exact ⟨body, rfl, hb⟩

theorem flush_level_ways_in_bracket (dpm : arm_dpm) (size : armv7a_cachesize) (cl : Nat)
    (c_index : Int) :
    ∀ (n : Nat) (c_way : Int) (tr : Trace), c_way.toNat = n →
      Extends (Event.in_bracket dpm.coreid) tr
        (flush_level_ways dpm size cl c_index c_way tr).2 := by
  intro n
  induction n with
  | zero =>
    intro c_way tr h
    rw [flush_level_ways]
    have h0 : ¬ (0 : Int) ≤ c_way - 1 := by omega
    simp only [h0, ↓reduceIte, ite_self]
    exact Extends.snoc (Extends.refl _ _) _ (by simp [Event.in_bracket])
  | succ n ih =>
    intro c_way tr h
    rw [flush_level_ways]
    have hstep : Extends (Event.in_bracket dpm.coreid) tr (tr ++ [Event.instr_write_data_r0
        dpm.coreid DCCISW (setway_value size cl c_index c_way)]) :=
      Extends.snoc (Extends.refl _ _) _ (by simp [Event.in_bracket])
    split
    · exact hstep
    · split
      · exact Extends.trans hstep (ih (c_way - 1) _ (by omega))
      · exact hstep

theorem flush_level_sets_in_bracket (dpm : arm_dpm) (size : armv7a_cachesize) (cl : Nat) :
    ∀ (n : Nat) (c_index : Int) (tr : Trace), c_index.toNat = n →
      Extends (Event.in_bracket dpm.coreid) tr
        (flush_level_sets dpm size cl c_index tr).2 := by
  intro n
  induction n with
  | zero =>
    intro c_index tr h
    rw [flush_level_sets]
    have h0 : ¬ (0 : Int) ≤ c_index - 1 := by omega
    have hstep := Extends.trans
      (Extends.snoc (Extends.refl (Event.in_bracket dpm.coreid) tr) [Event.keep_alive]
        (by simp [Event.in_bracket]))
      (flush_level_ways_in_bracket dpm size cl c_index _ (toInt32 size.way)
        (tr ++ [Event.keep_alive]) rfl)
    simp only [h0, ↓reduceIte, ite_self]
    exact hstep
  | succ n ih =>
    intro c_index tr h
    rw [flush_level_sets]
    have hstep := Extends.trans
      (Extends.snoc (Extends.refl (Event.in_bracket dpm.coreid) tr) [Event.keep_alive]
        (by simp [Event.in_bracket]))
      (flush_level_ways_in_bracket dpm size cl c_index _ (toInt32 size.way)
        (tr ++ [Event.keep_alive]) rfl)
    split
    · exact hstep
    · split
      · exact Extends.trans hstep (ih (c_index - 1) _ (by omega))
      · exact hstep

theorem clean_inval_levels_in_bracket (dpm : arm_dpm) (cache : armv7a_cache_common) :
    ∀ (l : List Nat) (tr : Trace),
      Extends (Event.in_bracket dpm.coreid) tr (l.foldl (clean_inval_level dpm cache) tr) := by
  intro l
  induction l with
  | nil => intro tr; exact Extends.refl _ _
  | cons cl l ih =>
    intro tr
    rw [List.foldl_cons]
    refine Extends.trans ?_ (ih _)
    unfold clean_inval_level
    split
    · exact Extends.refl _ _
    · unfold armv7a_l1_d_cache_flush_level
      exact Extends.snoc (flush_level_sets_in_bracket dpm _ cl _ _ tr rfl) _
        (by simp [Event.in_bracket])

/-- Every run of `armv7a_l1_d_cache_clean_inval_all` that passes the sanity
check records one whole transaction, whatever `prepare` and the writes
return. -/
theorem clean_inval_all_bracketed (t : target) (tr : Trace)
    (hcheck : armv7a_l1_d_cache_sanity_check t = ERROR_OK) :
    bracketed t.armv7a.dpm.coreid tr (armv7a_l1_d_cache_clean_inval_all t tr).2 := by
  unfold armv7a_l1_d_cache_clean_inval_all
  simp only [hcheck, ne_eq, not_true_eq_false, ↓reduceIte]
  split
  · exact bracketed_of_extends _ _ _ (Extends.refl _ _)
  · exact bracketed_of_extends _ _ _ (clean_inval_levels_in_bracket _ _ _ _)

/-- Every run of `armv7a_l1_i_cache_inval_all` that passes the sanity check
records one whole transaction. -/
theorem i_cache_inval_all_bracketed (t : target) (tr : Trace)
    (hcheck : armv7a_l1_i_cache_sanity_check t = ERROR_OK) :
    bracketed t.armv7a.dpm.coreid tr (armv7a_l1_i_cache_inval_all t tr).2 := by
  unfold armv7a_l1_i_cache_inval_all
  simp only [hcheck, ne_eq, not_true_eq_false, ↓reduceIte]
  split
  · exact bracketed_of_extends _ _ _ (Extends.refl _ _)
  · have hb := bracketed_of_extends t.armv7a.dpm.coreid tr _
      (Extends.snoc (Extends.refl (Event.in_bracket t.armv7a.dpm.coreid)
          (tr ++ [Event.prepare t.armv7a.dpm.coreid]))
        [Event.instr_write_data_r0 t.armv7a.dpm.coreid
          (if t.smp ≠ 0 then ICIALLUIS else ICIALLU) 0]
        (by simp [Event.in_bracket]))
    rw [List.append_assoc _ [Event.instr_write_data_r0 _ _ 0]] at hb
    exact hb

theorem line_writes_in_bracket (dpm : arm_dpm) (va : Nat) :
    ∀ (ops : List Opcode) (tr : Trace),
      Extends (Event.in_bracket dpm.coreid) tr (line_writes dpm ops va tr).2 := by
  intro ops
  induction ops with
  | nil => intro tr; exact Extends.refl _ _
  | cons op ops ih =>
    intro tr
    have hstep : Extends (Event.in_bracket dpm.coreid) tr
        (tr ++ [Event.instr_write_data_r0 dpm.coreid op va]) :=
      Extends.snoc (Extends.refl _ _) _ (by simp [Event.in_bracket])
    simp only [line_writes]
    split
    · exact hstep
    · exact Extends.trans hstep (ih _)

theorem range_loop_in_bracket (dpm : arm_dpm) (ops : List Opcode) (linelen va_end : Nat) :
    ∀ (fuel va_line i : Nat) (retval : Int) (tr : Trace) (r : Int × Trace),
      range_loop dpm ops linelen va_end fuel va_line i retval tr = some r →
      Extends (Event.in_bracket dpm.coreid) tr r.2 := by
  intro fuel
  induction fuel with
  | zero => intro va_line i retval tr r h; simp [range_loop] at h
  | succ f ih =>
    intro va_line i retval tr r h
    have hka : Extends (Event.in_bracket dpm.coreid) tr
        (if i &&& 0x3f = 0 then tr ++ [Event.keep_alive] else tr) := by
      split
      · exact Extends.snoc (Extends.refl _ _) _ (by simp [Event.in_bracket])
      · exact Extends.refl _ _
    have hlw := Extends.trans hka (line_writes_in_bracket dpm va_line ops
      (if i &&& 0x3f = 0 then tr ++ [Event.keep_alive] else tr))
    simp only [range_loop] at h
    generalize (if i &&& 0x3f = 0 then tr ++ [Event.keep_alive] else tr) = tr1 at h hlw
    by_cases h0 : va_line < va_end
    · rw [if_pos h0] at h
      by_cases h1 : (line_writes dpm ops va_line tr1).1 ≠ ERROR_OK
      · rw [if_pos h1, Option.some.injEq] at h
        rw [← h]
        exact hlw
      · rw [if_neg h1] at h
        exact Extends.trans hlw (ih _ _ _ _ _ h)
    · rw [if_neg h0, Option.some.injEq] at h
      rw [← h]
      exact Extends.refl _ _

theorem range_exit_bracketed (dpm : arm_dpm) (tr : Trace) (r : Int × Trace)
    (h : Extends (Event.in_bracket dpm.coreid) (tr ++ [Event.prepare dpm.coreid]) r.2) :
    bracketed dpm.coreid tr (range_exit dpm r).2 := by
  have h' := Extends.snoc h [Event.keep_alive] (by simp [Event.in_bracket])
  have := bracketed_of_extends _ _ _ h'
  simpa [range_exit] using this

/-- Every run of a range operation of the common shape that passes the sanity
check and returns has recorded one whole transaction, whatever `prepare` and
the writes return. -/
theorem range_op_bracketed (check : target → Int) (linelen : Nat) (ops : List Opcode)
    (fuel : Nat) (t : target) (virt size : Nat) (tr : Trace) (r : Int × Trace)
    (hcheck : check t = ERROR_OK)
    (h : range_op check linelen ops fuel t virt size tr = some r) :
    bracketed t.armv7a.dpm.coreid tr r.2 := by
  unfold range_op at h
  simp only [hcheck, ne_eq, not_true_eq_false, ↓reduceIte] at h
  split at h
  · rw [Option.some.injEq] at h
    rw [← h]
    exact range_exit_bracketed _ _ _ (Extends.refl _ _)
  · rw [Option.map_eq_some'] at h
    obtain ⟨r1, h1, rfl⟩ := h
    exact range_exit_bracketed _ _ _ (range_loop_in_bracket _ _ _ _ _ _ _ _ _ _ h1)

theorem inval_virt_end_bracketed (dpm : arm_dpm) (fuel linelen va_line va_end : Nat)
    (retval : Int) (tr tr1 : Trace) (r : Int × Trace)
    (htr : Extends (Event.in_bracket dpm.coreid) (tr ++ [Event.prepare dpm.coreid]) tr1)
    (h : inval_virt_end dpm fuel linelen va_line va_end retval tr1 = some r) :
    bracketed dpm.coreid tr r.2 := by
  unfold inval_virt_end at h
  have hstep : ∀ v, Extends (Event.in_bracket dpm.coreid) (tr ++ [Event.prepare dpm.coreid])
      (tr1 ++ [Event.instr_write_data_r0 dpm.coreid DCCIMVAC v]) :=
    fun v => Extends.snoc htr _ (by simp [Event.in_bracket])
  split at h
  · simp only at h
    split at h
    · rw [Option.some.injEq] at h
      rw [← h]
      exact range_exit_bracketed _ _ _ (hstep _)
    · rw [Option.map_eq_some'] at h
      obtain ⟨r1, h1, rfl⟩ := h
      exact range_exit_bracketed _ _ _
        (Extends.trans (hstep _) (range_loop_in_bracket _ _ _ _ _ _ _ _ _ _ h1))
  · rw [Option.map_eq_some'] at h
    obtain ⟨r1, h1, rfl⟩ := h
    exact range_exit_bracketed _ _ _
      (Extends.trans htr (range_loop_in_bracket _ _ _ _ _ _ _ _ _ _ h1))

/-- Every run of `armv7a_l1_d_cache_inval_virt` that passes the sanity check
and returns has recorded one whole transaction, whatever `prepare` and the
writes return. -/
theorem inval_virt_bracketed (fuel : Nat) (t : target) (virt size : Nat) (tr : Trace)
    (r : Int × Trace) (hcheck : armv7a_l1_d_cache_sanity_check t = ERROR_OK)
    (h : armv7a_l1_d_cache_inval_virt fuel t virt size tr = some r) :
    bracketed t.armv7a.dpm.coreid tr r.2 := by
  unfold armv7a_l1_d_cache_inval_virt at h
  simp only [hcheck, ne_eq, not_true_eq_false, ↓reduceIte] at h
  split at h
  · rw [Option.some.injEq] at h
    rw [← h]
    exact range_exit_bracketed _ _ _ (Extends.refl _ _)
  · split at h
    · split at h
      · rw [Option.some.injEq] at h
        rw [← h]
        exact range_exit_bracketed _ _ _
          (Extends.snoc (Extends.refl _ _) _ (by simp [Event.in_bracket]))
      · exact inval_virt_end_bracketed _ _ _ _ _ _ tr _ r
          (Extends.snoc (Extends.refl _ _) _ (by simp [Event.in_bracket])) h
    · exact inval_virt_end_bracketed _ _ _ _ _ _ tr _ r (Extends.refl _ _) h

/-- When `prepare` fails, a range operation of the common shape makes no write,
calls `finish` and returns the code of `prepare`, whatever `finish` returns. -/
theorem range_op_prepare_fails (check : target → Int) (linelen : Nat) (ops : List Opcode)
    (fuel : Nat) (t : target) (virt size : Nat) (tr : Trace)
    (hcheck : check t = ERROR_OK) (hprep : t.armv7a.dpm.prepare tr ≠ ERROR_OK) :
    range_op check linelen ops fuel t virt size tr =
      some (t.armv7a.dpm.prepare tr,
        tr ++ [Event.prepare t.armv7a.dpm.coreid, Event.keep_alive,
          Event.finish t.armv7a.dpm.coreid]) := by
  unfold range_op
  simp only [hcheck, ne_eq, not_true_eq_false, ↓reduceIte, hprep, not_false_eq_true, range_exit,
    List.append_assoc, List.singleton_append]

/-- When `prepare` fails, `armv7a_l1_d_cache_inval_virt` makes no write, calls
`finish` and returns the code of `prepare`, whatever `finish` returns. -/
theorem inval_virt_prepare_fails (fuel : Nat) (t : target) (virt size : Nat) (tr : Trace)
    (hcheck : armv7a_l1_d_cache_sanity_check t = ERROR_OK)
    (hprep : t.armv7a.dpm.prepare tr ≠ ERROR_OK) :
    armv7a_l1_d_cache_inval_virt fuel t virt size tr =
      some (t.armv7a.dpm.prepare tr,
        tr ++ [Event.prepare t.armv7a.dpm.coreid, Event.keep_alive,
          Event.finish t.armv7a.dpm.coreid]) := by
  unfold armv7a_l1_d_cache_inval_virt
  simp only [hcheck, ne_eq, not_true_eq_false, ↓reduceIte, hprep, not_false_eq_true, range_exit,
    List.append_assoc, List.singleton_append]

/-- A range operation of the common shape that returns after `prepare`
succeeded: either every write succeeded and the result is `ERROR_OK`, or the
last write recorded is one that failed, its code is the result, and in both
cases `keep_alive` and `finish` follow, whatever `finish` returns. -/
theorem range_op_returns_cases (check : target → Int) (linelen : Nat) (ops : List Opcode)
    (fuel : Nat) (t : target) (virt size : Nat) (tr : Trace) (r : Int) (tr' : Trace)
    (hcheck : check t = ERROR_OK) (hprep : t.armv7a.dpm.prepare tr = ERROR_OK)
    (hvirt : virt < 2 ^ 32)
    (h : range_op check linelen ops fuel t virt size tr = some (r, tr')) :
    ∃ m,
      (r = ERROR_OK ∧
        tr' = tr ++ [Event.prepare t.armv7a.dpm.coreid] ++
          expected_loop_trace t.armv7a.dpm.coreid ops linelen (virt &&& neg32 linelen) 0 m ++
          [Event.keep_alive, Event.finish t.armv7a.dpm.coreid]) ∨
      (∃ q op, ops[q]? = some op ∧ r ≠ ERROR_OK ∧
        r = t.armv7a.dpm.instr_write_data_r0
          (tr ++ [Event.prepare t.armv7a.dpm.coreid] ++
            expected_loop_trace t.armv7a.dpm.coreid ops linelen (virt &&& neg32 linelen) 0 m ++
            iteration_calls t.armv7a.dpm.coreid ops
              (((virt &&& neg32 linelen) + m * linelen) % 2 ^ 32) m q)
          op (((virt &&& neg32 linelen) + m * linelen) % 2 ^ 32) ∧
        tr' = tr ++ [Event.prepare t.armv7a.dpm.coreid] ++
          expected_loop_trace t.armv7a.dpm.coreid ops linelen (virt &&& neg32 linelen) 0 m ++
          iteration_calls t.armv7a.dpm.coreid ops
            (((virt &&& neg32 linelen) + m * linelen) % 2 ^ 32) m (q + 1) ++
          [Event.keep_alive, Event.finish t.armv7a.dpm.coreid]) := by
  rw [range_op_ok_eq _ _ _ _ _ _ _ _ hcheck hprep, Option.map_eq_some'] at h
  obtain ⟨⟨r1, tr1⟩, h1, h2⟩ := h
  simp only [range_exit, Prod.mk.injEq] at h2
  obtain ⟨rfl, rfl⟩ := h2
  obtain ⟨m, hm⟩ := range_loop_cases t.armv7a.dpm ops linelen _ fuel _ 0 ERROR_OK _ r1 tr1
    (land_neg32_lt linelen virt hvirt) h1
  refine ⟨m, ?_⟩
  rcases hm with ⟨ht, hr⟩ | ⟨q, op, hq, hr1, hr2, ht⟩
  · left
    refine ⟨?_, by rw [ht]⟩
    rcases hr with hr | ⟨_, hr⟩
    · exact hr
    · exact hr
  · right
    rw [Nat.zero_add] at hr2 ht
    exact ⟨q, op, hq, hr1, hr2, by rw [ht]⟩

/-- Whenever the inner range flush returns, `armv7a_cache_flush_virt` calls the
outer-cache range flush once, after it, with the same `virt` and `size`, and
returns `ERROR_OK`, whatever the two calls return. -/
theorem cache_flush_virt_of_inner (l2x : outer_cache) (fuel : Nat) (t : target)
    (virt size : Nat) (tr : Trace) (r : Int) (tr1 : Trace)
    (h : armv7a_l1_d_cache_flush_virt fuel t virt size tr = some (r, tr1)) :
    armv7a_cache_flush_virt l2x fuel t virt size tr =
      some (ERROR_OK, tr1 ++ [Event.l2x_cache_flush_virt t.coreid virt size]) := by
  rw [armv7a_cache_flush_virt, h]
  rfl

/-- The writes of a line when each succeeds after the writes before it. -/
theorem line_writes_run (dpm : arm_dpm) (va : Nat) :
    ∀ (ops : List Opcode) (tr : Trace),
      (∀ q op, ops[q]? = some op →
        dpm.instr_write_data_r0
          (tr ++ (ops.take q).map (fun op => Event.instr_write_data_r0 dpm.coreid op va))
          op va = ERROR_OK) →
      line_writes dpm ops va tr =
        (ERROR_OK, tr ++ ops.map (fun op => Event.instr_write_data_r0 dpm.coreid op va)) := by
  intro ops
  induction ops with
  | nil => intro tr _; simp [line_writes]
  | cons op ops ih =>
    intro tr h
    have h0 := h 0 op List.getElem?_cons_zero
    simp only [List.take_zero, List.map_nil, List.append_nil] at h0
    have h1 := ih (tr ++ [Event.instr_write_data_r0 dpm.coreid op va]) (by
      intro q op' hq
      have := h (q + 1) op' (by rw [List.getElem?_cons_succ]; exact hq)
      simpa only [List.take_succ_cons, List.map_cons, List.append_assoc,
        List.singleton_append] using this)
    simp only [line_writes, h0, ne_eq, not_true_eq_false, ↓reduceIte, h1, List.map_cons,
      List.append_assoc, List.singleton_append]

/-- The writes of a line when the write `q` is the first that fails: it is the
last write issued and its code is the result. -/
theorem line_writes_fail (dpm : arm_dpm) (va : Nat) :
    ∀ (ops : List Opcode) (tr : Trace) (q : Nat) (op : Opcode), ops[q]? = some op →
      (∀ q' op', q' < q → ops[q']? = some op' →
        dpm.instr_write_data_r0
          (tr ++ (ops.take q').map (fun op => Event.instr_write_data_r0 dpm.coreid op va))
          op' va = ERROR_OK) →
      dpm.instr_write_data_r0
          (tr ++ (ops.take q).map (fun op => Event.instr_write_data_r0 dpm.coreid op va))
          op va ≠ ERROR_OK →
      line_writes dpm ops va tr =
        (dpm.instr_write_data_r0
          (tr ++ (ops.take q).map (fun op => Event.instr_write_data_r0 dpm.coreid op va))
          op va,
         tr ++ (ops.take (q + 1)).map (fun op => Event.instr_write_data_r0 dpm.coreid op va)) := by
  intro ops
  induction ops with
  | nil => intro tr q op hq; simp at hq
  | cons op0 ops ih =>
    intro tr q op hq hok hfail
    cases q with
    | zero =>
      rw [List.getElem?_cons_zero, Option.some.injEq] at hq
      subst hq
      simp only [List.take_zero, List.map_nil, List.append_nil] at hfail ⊢
      simp only [line_writes, ne_eq, hfail, not_false_eq_true, ↓reduceIte, List.take_succ_cons,
        List.take_zero, List.map_cons, List.map_nil]
    | succ q =>
      rw [List.getElem?_cons_succ] at hq
      have h0 := hok 0 op0 (Nat.succ_pos q) List.getElem?_cons_zero
      simp only [List.take_zero, List.map_nil, List.append_nil] at h0
      have h1 := ih (tr ++ [Event.instr_write_data_r0 dpm.coreid op0 va]) q op hq (by
        intro q' op' hlt hq'
        have := hok (q' + 1) op' (by omega) (by rw [List.getElem?_cons_succ]; exact hq')
        simpa only [List.take_succ_cons, List.map_cons, List.append_assoc,
          List.singleton_append] using this) (by
        simpa only [List.take_succ_cons, List.map_cons, List.append_assoc,
          List.singleton_append] using hfail)
      simp only [line_writes, h0, ne_eq, not_true_eq_false, ↓reduceIte, h1, List.take_succ_cons,
        List.map_cons, List.append_assoc, List.singleton_append]

theorem range_loop_keep_alive (tr : Trace) (i : Nat) :
    (if i &&& 0x3f = 0 then tr ++ [Event.keep_alive] else tr) =
      tr ++ (if i % 64 = 0 then [Event.keep_alive] else []) := by
  rw [land_0x3f]
  split <;> simp

/-- A range loop whose first failing write is the write `q` of its iteration
`m`: with more than `m` steps of fuel it is left at that write, with its
code. -/
theorem range_loop_fail_run (dpm : arm_dpm) (ops : List Opcode) (linelen va_end : Nat) (q : Nat)
    (e : Int) (he : e ≠ ERROR_OK) :
    ∀ (m fuel va_line i : Nat) (retval : Int) (tr : Trace), m < fuel → va_line < 2 ^ 32 →
      (∀ j, j ≤ m → (va_line + j * linelen) % 2 ^ 32 < va_end) →
      (∀ j, j ≤ m → ∀ q', (j < m ∨ q' < q) → ∀ op, ops[q']? = some op →
        dpm.instr_write_data_r0
          (tr ++ (expected_loop_trace dpm.coreid ops linelen va_line i j ++
            iteration_calls dpm.coreid ops ((va_line + j * linelen) % 2 ^ 32) (i + j) q'))
          op ((va_line + j * linelen) % 2 ^ 32) = ERROR_OK) →
      (∃ op, ops[q]? = some op ∧
        dpm.instr_write_data_r0
          (tr ++ (expected_loop_trace dpm.coreid ops linelen va_line i m ++
            iteration_calls dpm.coreid ops ((va_line + m * linelen) % 2 ^ 32) (i + m) q))
          op ((va_line + m * linelen) % 2 ^ 32) = e) →
      range_loop dpm ops linelen va_end fuel va_line i retval tr =
        some (e, tr ++ (expected_loop_trace dpm.coreid ops linelen va_line i m ++
          iteration_calls dpm.coreid ops ((va_line + m * linelen) % 2 ^ 32) (i + m) (q + 1))) := by
  intro m
  induction m with
  | zero =>
    intro fuel va_line i retval tr hf hva hcond hok hfail
    obtain ⟨f, rfl⟩ : ∃ f, fuel = f + 1 := ⟨fuel - 1, by omega⟩
    have hz : (va_line + 0 * linelen) % 2 ^ 32 = va_line := by
      rw [Nat.zero_mul, Nat.add_zero, Nat.mod_eq_of_lt hva]
    have h0 : va_line < va_end := by
      have := hcond 0 (Nat.le_refl 0)
      rwa [hz] at this
    obtain ⟨op, hq, hwr⟩ := hfail
    simp only [expected_loop_trace, List.range_zero, List.flatMap_nil, List.nil_append, hz,
      Nat.add_zero, iteration_calls, ← List.append_assoc] at hwr ⊢
    have hne : dpm.instr_write_data_r0
        (tr ++ (if i % 64 = 0 then [Event.keep_alive] else []) ++
          (ops.take q).map (fun op => Event.instr_write_data_r0 dpm.coreid op va_line))
        op va_line ≠ ERROR_OK := by rw [hwr]; exact he
    have hl := line_writes_fail dpm va_line ops
      (tr ++ (if i % 64 = 0 then [Event.keep_alive] else [])) q op hq
      (by
        intro q' op' hlt hq'
        have := hok 0 (Nat.le_refl 0) q' (Or.inr hlt) op' hq'
        simpa only [expected_loop_trace, List.range_zero, List.flatMap_nil, List.nil_append, hz,
          Nat.add_zero, iteration_calls, ← List.append_assoc] using this) hne
    rw [hwr] at hl
    simp only [range_loop, h0, ↓reduceIte, range_loop_keep_alive, hl, ne_eq, he,
      not_false_eq_true]
  | succ m ih =>
    intro fuel va_line i retval tr hf hva hcond hok hfail
    obtain ⟨f, rfl⟩ : ∃ f, fuel = f + 1 := ⟨fuel - 1, by omega⟩
    have hz : (va_line + 0 * linelen) % 2 ^ 32 = va_line := by
      rw [Nat.zero_mul, Nat.add_zero, Nat.mod_eq_of_lt hva]
    have h0 : va_line < va_end := by
      have := hcond 0 (Nat.zero_le _)
      rwa [hz] at this
    have hshift : ∀ j, ((va_line + linelen) % 2 ^ 32 + j * linelen) % 2 ^ 32 =
        (va_line + (j + 1) * linelen) % 2 ^ 32 := by
      intro j
      rw [Nat.mod_add_mod]
      congr 1
      ring
    have hi : ∀ j, i + 1 + j = i + (j + 1) := fun j => by omega
    have hl := line_writes_run dpm va_line ops
      (tr ++ (if i % 64 = 0 then [Event.keep_alive] else [])) (by
        intro q' op' hq'
        have := hok 0 (Nat.zero_le _) q' (Or.inl (Nat.succ_pos m)) op' hq'
        simpa only [expected_loop_trace, List.range_zero, List.flatMap_nil, List.nil_append, hz,
          Nat.add_zero, iteration_calls, ← List.append_assoc] using this)
    have hrec := ih f ((va_line + linelen) % 2 ^ 32) (i + 1) ERROR_OK
      (tr ++ (if i % 64 = 0 then [Event.keep_alive] else []) ++
        ops.map (fun op => Event.instr_write_data_r0 dpm.coreid op va_line))
      (by omega) (Nat.mod_lt _ (by norm_num))
      (by
        intro j hj
        rw [hshift]
        exact hcond (j + 1) (by omega))
      (by
        intro j hj q' hc op' hq'
        have := hok (j + 1) (by omega) q' (by omega) op' hq'
        rw [expected_loop_trace_succ _ _ _ _ _ _ hva] at this
        rw [hshift, hi]
        simpa only [List.append_assoc] using this)
      (by
        obtain ⟨op, hq, hwr⟩ := hfail
        refine ⟨op, hq, ?_⟩
        rw [expected_loop_trace_succ _ _ _ _ _ _ hva] at hwr
        rw [hshift, hi]
        simpa only [List.append_assoc] using hwr)
    simp only [range_loop, h0, ↓reduceIte, range_loop_keep_alive, hl, ne_eq, not_true_eq_false]
    rw [hrec, expected_loop_trace_succ _ _ _ _ _ _ hva, hshift, hi]
    simp only [List.append_assoc]

/-- A range loop entered with the counter 0 whose first failing write is the
write `q` of its iteration `m`. -/
theorem range_loop_first_failure (dpm : arm_dpm) (ops : List Opcode) (linelen va_end : Nat)
    (fuel va_line m q : Nat) (e retval : Int) (tr0 : Trace)
    (hfuel : m < fuel) (hva : va_line < 2 ^ 32)
    (hreach : loop_reaches linelen va_line va_end m)
    (hff : first_failure dpm ops linelen va_line tr0 m q e) :
    range_loop dpm ops linelen va_end fuel va_line 0 retval tr0 =
      some (e, tr0 ++ loop_calls_upto dpm.coreid ops linelen va_line m (q + 1)) := by
  obtain ⟨he, hok, op, hq, hwr⟩ := hff
  have h := range_loop_fail_run dpm ops linelen va_end q e he m fuel va_line 0 retval tr0 hfuel
    hva hreach (by
      intro j hj q' hc op' hq'
      have hlen : q' < ops.length := by
        by_contra hcon
        rw [List.getElem?_eq_none (by omega)] at hq'
        cases hq'
      rw [Nat.zero_add]
      exact hok j hj q' hlen hc op' hq') ⟨op, hq, by rw [Nat.zero_add]; exact hwr⟩
  rw [Nat.zero_add] at h
  exact h

/-- A range operation of the common shape whose first failing write is the
write `q` of the iteration `m` of its loop: the exact calls recorded, and the
code of that write as the result. -/
theorem range_op_fail_run (check : target → Int) (linelen : Nat) (ops : List Opcode)
    (fuel : Nat) (t : target) (virt size m q : Nat) (e : Int) (tr : Trace)
    (hcheck : check t = ERROR_OK) (hprep : t.armv7a.dpm.prepare tr = ERROR_OK)
    (hvirt : virt < 2 ^ 32) (hfuel : m < fuel)
    (hreach : loop_reaches linelen (virt &&& neg32 linelen) ((virt + size) % 2 ^ 32) m)
    (hff : first_failure t.armv7a.dpm ops linelen (virt &&& neg32 linelen)
      (tr ++ [Event.prepare t.armv7a.dpm.coreid]) m q e) :
    range_op check linelen ops fuel t virt size tr =
      some (e, tr ++ [Event.prepare t.armv7a.dpm.coreid] ++
        loop_calls_upto t.armv7a.dpm.coreid ops linelen (virt &&& neg32 linelen) m (q + 1) ++
        [Event.keep_alive, Event.finish t.armv7a.dpm.coreid]) := by
  rw [range_op_ok_eq _ _ _ _ _ _ _ _ hcheck hprep,
    range_loop_first_failure t.armv7a.dpm ops linelen _ fuel _ m q e ERROR_OK _ hfuel
      (land_neg32_lt linelen virt hvirt) hreach hff]
  rfl

/-- The d-cache invalidate when the boundary write at the line of an unaligned
`virt` fails: nothing more is written, `keep_alive` and `finish` follow, and
the code of the write is the result. -/
theorem inval_virt_start_fails (fuel : Nat) (t : target) (virt size : Nat) (tr : Trace)
    (hcheck : armv7a_l1_d_cache_sanity_check t = ERROR_OK)
    (hprep : t.armv7a.dpm.prepare tr = ERROR_OK)
    (hne : virt ≠ virt &&& neg32 t.armv7a.armv7a_cache.dminline)
    (hfail : t.armv7a.dpm.instr_write_data_r0 (tr ++ [Event.prepare t.armv7a.dpm.coreid])
      DCCIMVAC (virt &&& neg32 t.armv7a.armv7a_cache.dminline) ≠ ERROR_OK) :
    armv7a_l1_d_cache_inval_virt fuel t virt size tr =
      some (t.armv7a.dpm.instr_write_data_r0 (tr ++ [Event.prepare t.armv7a.dpm.coreid])
          DCCIMVAC (virt &&& neg32 t.armv7a.armv7a_cache.dminline),
        tr ++ [Event.prepare t.armv7a.dpm.coreid] ++
          [Event.instr_write_data_r0 t.armv7a.dpm.coreid DCCIMVAC
            (virt &&& neg32 t.armv7a.armv7a_cache.dminline)] ++
          [Event.keep_alive, Event.finish t.armv7a.dpm.coreid]) := by
  unfold armv7a_l1_d_cache_inval_virt
  simp only [hcheck, hprep, ne_eq, not_true_eq_false, ↓reduceIte]
  rw [if_pos hne, if_pos hfail]
  rfl

/-- The d-cache invalidate up to the end of its boundary handling, when
`prepare` and the boundary write at the line of an unaligned `virt`
succeed. -/
theorem inval_virt_after_start (fuel : Nat) (t : target) (virt size : Nat) (tr : Trace)
    (hcheck : armv7a_l1_d_cache_sanity_check t = ERROR_OK)
    (hprep : t.armv7a.dpm.prepare tr = ERROR_OK)
    (h1 : virt ≠ virt &&& neg32 t.armv7a.armv7a_cache.dminline →
      t.armv7a.dpm.instr_write_data_r0 (tr ++ [Event.prepare t.armv7a.dpm.coreid])
        DCCIMVAC (virt &&& neg32 t.armv7a.armv7a_cache.dminline) = ERROR_OK) :
    armv7a_l1_d_cache_inval_virt fuel t virt size tr =
      inval_virt_end t.armv7a.dpm fuel t.armv7a.armv7a_cache.dminline
        (inval_virt_loop_start t.armv7a.armv7a_cache.dminline virt) ((virt + size) % 2 ^ 32)
        ERROR_OK
        (tr ++ [Event.prepare t.armv7a.dpm.coreid] ++
          inval_virt_start_call t.armv7a.dpm.coreid t.armv7a.armv7a_cache.dminline virt) := by
  unfold armv7a_l1_d_cache_inval_virt inval_virt_loop_start inval_virt_start_call
  simp only [hcheck, hprep, ne_eq, not_true_eq_false, ↓reduceIte]
  by_cases hne : virt ≠ virt &&& neg32 t.armv7a.armv7a_cache.dminline
  · rw [if_pos hne, if_pos hne, if_pos hne, h1 hne]
    simp only [ne_eq, not_true_eq_false, ↓reduceIte]
  · rw [if_neg hne, if_neg hne, if_neg hne, List.append_nil]

/-- The d-cache invalidate when the boundary write at the line of an unaligned
`virt + size` fails: the loop is not entered, `keep_alive` and `finish`
follow, and the code of the write is the result. -/
theorem inval_virt_end_fails (fuel : Nat) (t : target) (virt size : Nat) (tr : Trace)
    (hcheck : armv7a_l1_d_cache_sanity_check t = ERROR_OK)
    (hprep : t.armv7a.dpm.prepare tr = ERROR_OK)
    (h1 : virt ≠ virt &&& neg32 t.armv7a.armv7a_cache.dminline →
      t.armv7a.dpm.instr_write_data_r0 (tr ++ [Event.prepare t.armv7a.dpm.coreid])
        DCCIMVAC (virt &&& neg32 t.armv7a.armv7a_cache.dminline) = ERROR_OK)
    (hun : (virt + size) % 2 ^ 32 &&& pred32 t.armv7a.armv7a_cache.dminline ≠ 0)
    (hfail : t.armv7a.dpm.instr_write_data_r0
      (tr ++ [Event.prepare t.armv7a.dpm.coreid] ++
        inval_virt_start_call t.armv7a.dpm.coreid t.armv7a.armv7a_cache.dminline virt)
      DCCIMVAC ((virt + size) % 2 ^ 32 &&& neg32 t.armv7a.armv7a_cache.dminline) ≠ ERROR_OK) :
    armv7a_l1_d_cache_inval_virt fuel t virt size tr =
      some (t.armv7a.dpm.instr_write_data_r0
          (tr ++ [Event.prepare t.armv7a.dpm.coreid] ++
            inval_virt_start_call t.armv7a.dpm.coreid t.armv7a.armv7a_cache.dminline virt)
          DCCIMVAC ((virt + size) % 2 ^ 32 &&& neg32 t.armv7a.armv7a_cache.dminline),
        tr ++ [Event.prepare t.armv7a.dpm.coreid] ++
          inval_virt_start_call t.armv7a.dpm.coreid t.armv7a.armv7a_cache.dminline virt ++
          [Event.instr_write_data_r0 t.armv7a.dpm.coreid DCCIMVAC
            ((virt + size) % 2 ^ 32 &&& neg32 t.armv7a.armv7a_cache.dminline)] ++
          [Event.keep_alive, Event.finish t.armv7a.dpm.coreid]) := by
  rw [inval_virt_after_start fuel t virt size tr hcheck hprep h1]
  unfold inval_virt_end
  simp only
  rw [if_pos hun, if_pos hfail]
  rfl

/-- The d-cache invalidate when both boundary writes succeed and the first
failing write is the write `q` (0, the only one) of the iteration `m` of its
loop: the exact calls recorded, and the code of that write as the result. -/
theorem inval_virt_fail_run (fuel : Nat) (t : target) (virt size m q : Nat) (e : Int)
    (tr : Trace)
    (hcheck : armv7a_l1_d_cache_sanity_check t = ERROR_OK)
    (hprep : t.armv7a.dpm.prepare tr = ERROR_OK)
    (hvirt : virt < 2 ^ 32) (hfuel : m < fuel)
    (h1 : virt ≠ virt &&& neg32 t.armv7a.armv7a_cache.dminline →
      t.armv7a.dpm.instr_write_data_r0 (tr ++ [Event.prepare t.armv7a.dpm.coreid])
        DCCIMVAC (virt &&& neg32 t.armv7a.armv7a_cache.dminline) = ERROR_OK)
    (h2 : (virt + size) % 2 ^ 32 &&& pred32 t.armv7a.armv7a_cache.dminline ≠ 0 →
      t.armv7a.dpm.instr_write_data_r0
        (tr ++ [Event.prepare t.armv7a.dpm.coreid] ++
          inval_virt_start_call t.armv7a.dpm.coreid t.armv7a.armv7a_cache.dminline virt)
        DCCIMVAC ((virt + size) % 2 ^ 32 &&& neg32 t.armv7a.armv7a_cache.dminline) = ERROR_OK)
    (hreach : loop_reaches t.armv7a.armv7a_cache.dminline
      (inval_virt_loop_start t.armv7a.armv7a_cache.dminline virt)
      (inval_virt_loop_end t.armv7a.armv7a_cache.dminline virt size) m)
    (hff : first_failure t.armv7a.dpm [DCIMVAC] t.armv7a.armv7a_cache.dminline
      (inval_virt_loop_start t.armv7a.armv7a_cache.dminline virt)
      (tr ++ [Event.prepare t.armv7a.dpm.coreid] ++
        inval_virt_boundary_calls t.armv7a.dpm.coreid t.armv7a.armv7a_cache.dminline virt size)
      m q e) :
    armv7a_l1_d_cache_inval_virt fuel t virt size tr =
      some (e, tr ++ [Event.prepare t.armv7a.dpm.coreid] ++
        inval_virt_boundary_calls t.armv7a.dpm.coreid t.armv7a.armv7a_cache.dminline virt size ++
        loop_calls_upto t.armv7a.dpm.coreid [DCIMVAC] t.armv7a.armv7a_cache.dminline
          (inval_virt_loop_start t.armv7a.armv7a_cache.dminline virt) m (q + 1) ++
        [Event.keep_alive, Event.finish t.armv7a.dpm.coreid]) := by
  rw [inval_virt_after_start fuel t virt size tr hcheck hprep h1]
  have hb : inval_virt_boundary_calls t.armv7a.dpm.coreid t.armv7a.armv7a_cache.dminline virt
      size =
      inval_virt_start_call t.armv7a.dpm.coreid t.armv7a.armv7a_cache.dminline virt ++
        (if (virt + size) % 2 ^ 32 &&& pred32 t.armv7a.armv7a_cache.dminline ≠ 0
          then [Event.instr_write_data_r0 t.armv7a.dpm.coreid DCCIMVAC
            ((virt + size) % 2 ^ 32 &&& neg32 t.armv7a.armv7a_cache.dminline)]
          else []) := rfl
  rw [hb] at hff ⊢
  unfold inval_virt_loop_end at hreach
  unfold inval_virt_end
  simp only
  by_cases hun : (virt + size) % 2 ^ 32 &&& pred32 t.armv7a.armv7a_cache.dminline ≠ 0
  · simp only [if_pos hun] at hff hreach ⊢
    rw [h2 hun]
    simp only [ne_eq, not_true_eq_false, ↓reduceIte]
    rw [← List.append_assoc] at hff
    rw [range_loop_first_failure t.armv7a.dpm [DCIMVAC] _ _ fuel _ m q e ERROR_OK _ hfuel
      (inval_virt_loop_start_lt _ virt hvirt) hreach hff]
    simp only [Option.map, range_exit, List.append_assoc]
  · simp only [if_neg hun, List.append_nil] at hff hreach ⊢
    rw [range_loop_first_failure t.armv7a.dpm [DCIMVAC] _ _ fuel _ m q e ERROR_OK _ hfuel
      (inval_virt_loop_start_lt _ virt hvirt) hreach hff]
    simp only [Option.map, range_exit, List.append_assoc]

/-- The calls up to a write of the iteration `m` are the start of the calls of
`m + 1` whole iterations. -/
theorem loop_calls_upto_prefix (c : Nat) (ops : List Opcode) (linelen va_line m q : Nat) :
    loop_calls_upto c ops linelen va_line m q ++
        (ops.drop q).map (fun op =>
          Event.instr_write_data_r0 c op ((va_line + m * linelen) % 2 ^ 32)) =
      expected_loop_trace c ops linelen va_line 0 (m + 1) := by
  unfold loop_calls_upto iteration_calls
  rw [expected_loop_trace_snoc, Nat.zero_add, List.append_assoc, List.append_assoc,
    ← List.map_append, List.take_append_drop]

/-- A loop left by a failing write of its iteration `m` has recorded a
`keep_alive` before each of the iterations 0, 64, ... up to `m`. -/
theorem count_keep_alive_loop_calls_upto (c : Nat) (ops : List Opcode)
    (linelen va_line m q : Nat) :
    List.count Event.keep_alive (loop_calls_upto c ops linelen va_line m q) = m / 64 + 1 := by
  unfold loop_calls_upto iteration_calls
  rw [List.count_append, List.count_append, count_keep_alive_expected_loop_trace,
    count_keep_alive_writes, Nat.add_zero]
  by_cases h : m % 64 = 0
  · rw [if_pos h]
    simp only [List.count_singleton_self]
    omega
  · rw [if_neg h]
    simp only [List.count_nil]
    omega

/-- At every point of a loop left by a failing write the writes recorded since
the last `keep_alive` are those of at most 64 iterations. -/
theorem writes_since_keep_alive_upto_bound (c : Nat) (ops : List Opcode)
    (linelen va_line m q : Nat) (a b : Trace)
    (h : loop_calls_upto c ops linelen va_line m q = a ++ b) :
    writes_since_keep_alive a ≤ 64 * ops.length := by
  refine (writes_since_keep_alive_bound c ops linelen va_line (m + 1)).1 a
    (b ++ (ops.drop q).map (fun op =>
      Event.instr_write_data_r0 c op ((va_line + m * linelen) % 2 ^ 32))) ?_
  rw [← loop_calls_upto_prefix c ops linelen va_line m q, h, List.append_assoc]

end Armv7aCache
